import Mathlib

/-!
# CRISPR family finder (`crisp.cpp`): a shallow embedding

The definitions below follow `src/crisp.cpp` function by function and keep its names.

Modelling conventions
* C `int` values are `Int`; no arithmetic in the modelled functions is taken modulo a
  word size (signed overflow is undefined behaviour in C++, and the values are genome
  coordinates).
* Arrays reached through a pointer (`Piles`, `Pile.Images`, the scratch buffers
  `Partners` and `PartnersRev`) are total maps from the index to the element; the
  element count travels separately, as it does in the source (`PileCount`, `ImageCount`).
  Allocation sizes are not modelled.
* `std::list` and `std::vector` values are `List`s; `push_back` appends at the end.
* The file-scope thresholds are collected in `Config`; `defaultConfig` holds the
  initialisers of the source.
-/

namespace Crisp

/-! ## Data model -/

/-- One alignment hit (`HitData`): two intervals and the reverse-complement flag. -/
structure HitData where
  QueryFrom : Int
  QueryTo : Int
  TargetFrom : Int
  TargetTo : Int
  Rev : Bool
deriving DecidableEq, Repr

/-- One image stored on a pile (`PileImageData`). -/
structure PileImageData where
  SILength : Int
  SIPile : Int
  SIRev : Bool
deriving DecidableEq, Repr

/-- One pile (`PileData`). `Images` is the pointer to the image array, `ImageCount` the
number of images stored in it. -/
structure PileData where
  From : Int
  To : Int
  ImageCount : Nat
  Images : Nat → PileImageData
  FamIndex : Int
  SuperFamIndex : Int
  Rev : Int

/-- One edge of the candidate graph (`EdgeData`). -/
structure EdgeData where
  Node1 : Int
  Node2 : Int
  Rev : Bool
deriving DecidableEq, Repr

/-- One member of a family (`FamMemberData`). -/
structure FamMemberData where
  PileIndex : Int
  Rev : Bool
deriving DecidableEq, Repr

/-- A family (`FamData`, a `std::list<FamMemberData>`). -/
abbrev FamData := List FamMemberData

/-- A list of families (`FamList`). -/
abbrev FamList := List FamData

/-- The list of edges (`EdgeList`). -/
abbrev EdgeList := List EdgeData

/-- The pile table: the global `Piles` pointer, indexed by pile index. -/
abbrev PileTable := Int → PileData

/-- The thresholds of the source file. `g_paramMinFamSize` holds the value of
`(size_t) g_paramMinFamSize`, which is the only way the source file compares it with a
family size. -/
structure Config where
  MIN_CRISPR_LENGTH : Int
  MAX_CRISPR_LENGTH : Int
  MIN_SPACER_LENGTH : Int
  MAX_SPACER_LENGTH : Int
  MAX_SPACE_DIFF : Int
  g_paramMinFamSize : Nat
deriving DecidableEq, Repr

/-- The initialisers of the source: windows `[10, 200]`, `MAX_SPACE_DIFF = 20`,
minimum family size `3`. -/
def defaultConfig : Config :=
  { MIN_CRISPR_LENGTH := 10
    MAX_CRISPR_LENGTH := 200
    MIN_SPACER_LENGTH := 10
    MAX_SPACER_LENGTH := 200
    MAX_SPACE_DIFF := 20
    g_paramMinFamSize := 3 }

/-! ## Candidate hits -/

/-- `GetHitLength`: the mean of the two interval lengths; `/` of C truncates. -/
def GetHitLength (Hit : HitData) : Int :=
  let QueryHitLength := Hit.QueryTo - Hit.QueryFrom + 1
  let TargetHitLength := Hit.TargetTo - Hit.TargetFrom + 1
  Int.tdiv (QueryHitLength + TargetHitLength) 2

/-- `GetSpacerLength`. -/
def GetSpacerLength (Hit : HitData) : Int :=
  if Hit.QueryFrom > Hit.TargetTo then
    Hit.QueryFrom - Hit.TargetTo
  else
    Hit.TargetFrom - Hit.QueryTo

/-- `IsCand`. -/
def IsCand (cfg : Config) (Hit : HitData) : Bool :=
  if Hit.Rev then
    false
  else
    let HitLength := GetHitLength Hit
    if HitLength > cfg.MAX_CRISPR_LENGTH ∨ HitLength < cfg.MIN_CRISPR_LENGTH then
      false
    else
      let SpacerLength := GetSpacerLength Hit
      if SpacerLength > cfg.MAX_SPACER_LENGTH ∨ SpacerLength < cfg.MIN_SPACER_LENGTH then
        false
      else
        true

/-- The hit of the scenario: query `[100, 150]`, target `[400, 450]`, forward. -/
def scenarioHit : HitData :=
  { QueryFrom := 100, QueryTo := 150, TargetFrom := 400, TargetTo := 450, Rev := false }

/-! ## Spacing filter -/

/-- Modelled from the spec: `iabs` is a macro of `piler2.h`, which is not among the
sources; the spec calls `iabs(Space_12 - Space_1)` "the absolute difference between
these two gaps". -/
def iabs (x : Int) : Int :=
  if x ≥ 0 then x else -x

/-- `FamMemberLt`: the comparator handed to `std::sort`. -/
def FamMemberLt (Piles : PileTable) (Mem1 Mem2 : FamMemberData) : Bool :=
  let Pile1 := Piles Mem1.PileIndex
  let Pile2 := Piles Mem2.PileIndex
  decide (Pile1.From < Pile2.From)

/-- The type of `std::sort` on a vector of family members: comparator in, vector in,
sorted vector out. -/
abbrev SortFn := (FamMemberData → FamMemberData → Bool) → List FamMemberData →
  List FamMemberData

/-- What the C++ standard promises of `std::sort` for the comparator `lt`: the result is
a rearrangement of the input in which no element is `lt` an element before it. The order
of equivalent elements is left open, so `FilterCrispFam` takes the sort as a parameter
and the theorems hold for every sort that keeps this promise. -/
def IsStdSort (sort : SortFn) (lt : FamMemberData → FamMemberData → Bool) : Prop :=
  ∀ l : List FamMemberData,
    (sort lt l).Perm l ∧ (sort lt l).Pairwise (fun a b => lt b a = false)

/-- Insertion of `a` in front of the first element that is not `lt a`. -/
def orderedInsert (lt : FamMemberData → FamMemberData → Bool) (a : FamMemberData) :
    List FamMemberData → List FamMemberData
  | [] => [a]
  | b :: l => if lt b a then b :: orderedInsert lt a l else a :: b :: l

/-- A concrete sort that keeps the promise of `std::sort` (a stable insertion sort);
it is the sort used wherever the embedding is evaluated on a concrete input. -/
def insertionSort : SortFn
  | _, [] => []
  | lt, a :: l => orderedInsert lt a (insertionSort lt l)

/-- The body of the `for` loop of `FilterCrispFam` for index `i`, on the state
`(OutFam, OutFams)`. `FamVec[i]`, `FamVec[i-1]` and `FamVec[i-2]` are in range whenever
the loop runs the body. -/
def FilterCrispFamStep (cfg : Config) (Piles : PileTable) (FamVec : List FamMemberData)
    (st : FamData × FamList) (i : Nat) : FamData × FamList :=
  let OutFam := st.1
  let OutFams := st.2
  let Mem := FamVec.getD i ⟨0, false⟩
  if i = 0 ∨ i = 1 then
    (OutFam ++ [Mem], OutFams)
  else
    let Mem_1 := FamVec.getD (i - 1) ⟨0, false⟩
    let Mem_2 := FamVec.getD (i - 2) ⟨0, false⟩
    let PileIndex := Mem.PileIndex
    let PileIndex_1 := Mem_1.PileIndex
    let PileIndex_2 := Mem_2.PileIndex
    let Pile := Piles PileIndex
    let Pile_1 := Piles PileIndex_1
    let Pile_2 := Piles PileIndex_2
    let Space_12 := Pile_1.From - Pile_2.To
    let Space_1 := Pile.From - Pile_1.To
    if iabs (Space_12 - Space_1) ≤ cfg.MAX_SPACE_DIFF then
      (OutFam ++ [Mem], OutFams)
    else if OutFam.length ≥ cfg.g_paramMinFamSize then
      ([], OutFams ++ [OutFam])
    else
      ([], OutFams)

/-- `FilterCrispFam`: copy the family into `FamVec`, sort it with `FamMemberLt` (`sort`
stands for `std::sort`), run the loop over `i = 0 .. PileCount - 1` (`PileCount` is the
local, the size of the family) and push the last `OutFam` if it is large enough. The
result is the new `OutFams`. -/
def FilterCrispFam (sort : SortFn) (cfg : Config) (Piles : PileTable) (Fam : FamData)
    (OutFams : FamList) : FamList :=
  let PileCount := Fam.length
  let FamVec := sort (FamMemberLt Piles) Fam
  let st := (List.range PileCount).foldl (FilterCrispFamStep cfg Piles FamVec) ([], OutFams)
  if st.1.length ≥ cfg.g_paramMinFamSize then st.2 ++ [st.1] else st.2

/-- `FilterCrispFams`: `OutFams.clear()`, then `FilterCrispFam` on every input family in
list order. The incoming content of `OutFams` is dropped by the `clear`. -/
def FilterCrispFams (sort : SortFn) (cfg : Config) (Piles : PileTable) (InFams : FamList)
    (_OutFams : FamList) : FamList :=
  InFams.foldl (fun OutFams Fam => FilterCrispFam sort cfg Piles Fam OutFams) []

/-! ### The walk as the specification words it -/

/-- The gap between two members: the downstream pile's `From` minus the upstream pile's
`To`. -/
def gap (Piles : PileTable) (a b : FamMemberData) : Int :=
  (Piles b.PileIndex).From - (Piles a.PileIndex).To

/-- Closing a sub-family: it is emitted iff its size reaches the minimum family size,
otherwise it is discarded. -/
def closeSubFam (cfg : Config) (cur : FamData) (out : FamList) : FamList :=
  if cfg.g_paramMinFamSize ≤ cur.length then out ++ [cur] else out

/-- The walk from the third member on. `m2` and `m1` are the two members before the next
one, `cur` is the current sub-family, `out` the families emitted so far, and `restart m`
is the sub-family that is started when member `m` exceeds the tolerance. -/
def walkFrom (restart : FamMemberData → FamData) (cfg : Config) (Piles : PileTable) :
    FamMemberData → FamMemberData → List FamMemberData → FamData → FamList → FamList
  | _, _, [], cur, out => closeSubFam cfg cur out
  | m2, m1, m :: rest, cur, out =>
    if iabs (gap Piles m2 m1 - gap Piles m1 m) ≤ cfg.MAX_SPACE_DIFF then
      walkFrom restart cfg Piles m1 m rest (cur ++ [m]) out
    else
      walkFrom restart cfg Piles m1 m rest (restart m) (closeSubFam cfg cur out)

/-- The walk over a sorted member sequence: the first two members are admitted, the
others go through `walkFrom`, and the last sub-family is closed at the end. -/
def walk (restart : FamMemberData → FamData) (cfg : Config) (Piles : PileTable) :
    List FamMemberData → FamList → FamList
  | [], out => closeSubFam cfg [] out
  | [a], out => closeSubFam cfg [a] out
  | a :: b :: rest, out => walkFrom restart cfg Piles a b rest [a, b] out

/-- The spacing filter as the specification describes it: on exceeding the tolerance the
new sub-family begins with member `i` itself. -/
def specFilterCrispFam (sort : SortFn) (cfg : Config) (Piles : PileTable) (Fam : FamData)
    (OutFams : FamList) : FamList :=
  walk (fun m => [m]) cfg Piles (sort (FamMemberLt Piles) Fam) OutFams

/-- The walk with the one change the source makes: on exceeding the tolerance the new
sub-family starts empty, so member `i` itself is in no sub-family. -/
def droppingFilterCrispFam (sort : SortFn) (cfg : Config) (Piles : PileTable)
    (Fam : FamData) (OutFams : FamList) : FamList :=
  walk (fun _ => []) cfg Piles (sort (FamMemberLt Piles) Fam) OutFams

/-- Regular spacing of a member sequence in the words of the specification: for every
`i ≥ 2` the gaps `gap(i-2, i-1)` and `gap(i-1, i)` differ by at most `MAX_SPACE_DIFF`. -/
def RegularSpacing (cfg : Config) (Piles : PileTable) (V : List FamMemberData) : Prop :=
  ∀ i : Nat, 2 ≤ i → i < V.length →
    iabs (gap Piles (V.getD (i - 2) ⟨0, false⟩) (V.getD (i - 1) ⟨0, false⟩) -
      gap Piles (V.getD (i - 1) ⟨0, false⟩) (V.getD i ⟨0, false⟩)) ≤ cfg.MAX_SPACE_DIFF

/-! ### Concrete pile tables -/

/-- A pile with the extent `[From, To]`, no images and the defaults of `CreatePiles`. -/
def mkPile (From To : Int) : PileData :=
  { From := From, To := To, ImageCount := 0, Images := fun _ => ⟨0, 0, false⟩,
    FamIndex := -1, SuperFamIndex := -1, Rev := -1 }

/-- The pile table that holds the piles of `l` at the indices `0, 1, ...`. -/
def pileTableOfList (l : List PileData) : PileTable :=
  fun i => if i < 0 then mkPile 0 0 else l.getD i.toNat (mkPile 0 0)

/-- The family of the piles `0 .. n-1`, all forward. -/
def famOfRange (n : Nat) : FamData :=
  (List.range n).map (fun i => ⟨(i : Int), false⟩)

/-- Five piles with the gaps 30, 100, 100, 100. -/
def pilesGaps30_100_100_100 : PileTable :=
  pileTableOfList [mkPile 0 20, mkPile 50 70, mkPile 170 190, mkPile 290 310, mkPile 410 430]

/-- The piles of the scenarios: `[0,20]`, `[50,70]`, `[100,120]` (gaps 30, 30). -/
def pilesGaps30_30 : PileTable :=
  pileTableOfList [mkPile 0 20, mkPile 50 70, mkPile 100 120]

/-- The piles of the second scenario: `[0,20]`, `[50,70]`, `[200,220]` (gaps 30, 130). -/
def pilesGaps30_130 : PileTable :=
  pileTableOfList [mkPile 0 20, mkPile 50 70, mkPile 200 220]

/-- Five piles with the gaps 30, 30, 30, 200. -/
def pilesGaps30_30_30_200 : PileTable :=
  pileTableOfList [mkPile 0 20, mkPile 50 70, mkPile 100 120, mkPile 150 170, mkPile 370 390]

/-! ## Edge finder -/

/-- `PileDist`. The `else` branch of the source returns `Pile2.From - Pile1.From`. -/
def PileDist (Pile1 Pile2 : PileData) : Int :=
  if Pile1.From > Pile2.To then
    Pile1.From - Pile2.To
  else
    Pile2.From - Pile1.From

/-- The body of the image loop of `FindEdgesPile` for `ImageIndex`, on the state
`(PartnerCount, Partners, PartnersRev)`. `PILE_INDEX_TYPE`, the element type of
`Partners`, is declared outside the source file; it holds every pile index, so storing
a partner index in the buffer keeps its value. -/
def FindEdgesPileStep (cfg : Config) (Piles : PileTable) (Pile : PileData)
    (st : Nat × (Nat → Int) × (Nat → Bool)) (ImageIndex : Nat) :
    Nat × (Nat → Int) × (Nat → Bool) :=
  let PartnerCount := st.1
  let Partners := st.2.1
  let PartnersRev := st.2.2
  let Image := Pile.Images ImageIndex
  let PartnerPileIndex := Image.SIPile
  let PartnerPile := Piles PartnerPileIndex
  let PartnerPileLength := PartnerPile.To - PartnerPile.From + 1
  let Dist := PileDist Pile PartnerPile
  if PartnerPileLength ≥ cfg.MIN_CRISPR_LENGTH ∧
      PartnerPileLength ≤ cfg.MAX_CRISPR_LENGTH ∧
      Dist ≥ cfg.MIN_SPACER_LENGTH ∧
      Dist ≤ cfg.MAX_SPACER_LENGTH then
    (PartnerCount + 1, Function.update Partners PartnerCount PartnerPileIndex,
      Function.update PartnersRev PartnerCount Image.SIRev)
  else
    (PartnerCount, Partners, PartnersRev)

/-- `FindEdgesPile`: the partners of one pile are written to the scratch buffers
`Partners` and `PartnersRev`; the result is the partner count with the buffers as the
call leaves them. The parameter `PileIndex` is not read, as in the source. -/
def FindEdgesPile (cfg : Config) (Piles : PileTable) (Pile : PileData) (_PileIndex : Int)
    (Partners : Nat → Int) (PartnersRev : Nat → Bool) :
    Nat × (Nat → Int) × (Nat → Bool) :=
  let PileLength := Pile.To - Pile.From + 1
  if PileLength < cfg.MIN_CRISPR_LENGTH ∨ PileLength > cfg.MAX_CRISPR_LENGTH then
    (0, Partners, PartnersRev)
  else
    let ImageCount := Pile.ImageCount
    (List.range ImageCount).foldl (FindEdgesPileStep cfg Piles Pile) (0, Partners, PartnersRev)

/-- `AddEdges`: one edge per scratch entry below `PartnerCount`, pushed in index order.
The global counter `EdgeCount`, which nothing in the file reads, is left out. -/
def AddEdges (Edges : EdgeList) (PileIndex : Int) (Partners : Nat → Int)
    (PartnersRev : Nat → Bool) (PartnerCount : Nat) : EdgeList :=
  (List.range PartnerCount).foldl
    (fun Edges i =>
      let PileIndex2 := Partners i
      Edges ++ [{ Node1 := PileIndex, Node2 := PileIndex2, Rev := PartnersRev i }])
    Edges

/-- `FindCandEdges`: `Edges.clear()`, then `FindEdgesPile` and `AddEdges` for every pile
index below the global `PileCount`, the two scratch buffers being shared by all piles.
`Partners` and `PartnersRev` are the buffers as `all` hands them out (contents
unspecified); `MaxImageCount` is their capacity, which the embedding does not bound. -/
def FindCandEdges (cfg : Config) (Piles : PileTable) (PileCount : Nat) (_Edges : EdgeList)
    (_MaxImageCount : Nat) (Partners : Nat → Int) (PartnersRev : Nat → Bool) : EdgeList :=
  ((List.range PileCount).foldl
    (fun (st : EdgeList × (Nat → Int) × (Nat → Bool)) (PileIndex : Nat) =>
      let Pile := Piles PileIndex
      let r := FindEdgesPile cfg Piles Pile PileIndex st.2.1 st.2.2
      (AddEdges st.1 PileIndex r.2.1 r.2.2 r.1, r.2.1, r.2.2))
    ([], Partners, PartnersRev)).1

/-! ### The edge list as the specification words it -/

/-- The length of a pile, `To - From + 1`. -/
def pileLength (P : PileData) : Int :=
  P.To - P.From + 1

/-- The images of a pile in stored order. -/
def imagesOf (P : PileData) : List PileImageData :=
  (List.range P.ImageCount).map P.Images

/-- An image of `P` qualifies when its partner's length is in the CRISPR length window
and `PileDist` from `P` to the partner is in the spacer window. -/
def imageQualifies (cfg : Config) (Piles : PileTable) (P : PileData)
    (im : PileImageData) : Bool :=
  decide (cfg.MIN_CRISPR_LENGTH ≤ pileLength (Piles im.SIPile) ∧
    pileLength (Piles im.SIPile) ≤ cfg.MAX_CRISPR_LENGTH ∧
    cfg.MIN_SPACER_LENGTH ≤ PileDist P (Piles im.SIPile) ∧
    PileDist P (Piles im.SIPile) ≤ cfg.MAX_SPACER_LENGTH)

/-- The edges of pile `p`: none when its length is outside the CRISPR length window,
otherwise one edge per qualifying image, in stored order. -/
def specEdgesOfPile (cfg : Config) (Piles : PileTable) (p : Nat) : EdgeList :=
  if cfg.MIN_CRISPR_LENGTH ≤ pileLength (Piles p) ∧
      pileLength (Piles p) ≤ cfg.MAX_CRISPR_LENGTH then
    ((imagesOf (Piles p)).filter (imageQualifies cfg Piles (Piles p))).map
      (fun im => { Node1 := (p : Int), Node2 := im.SIPile, Rev := im.SIRev })
  else
    []

/-- The edge list of the pile table: the edges of the piles in increasing index order. -/
def specCandEdges (cfg : Config) (Piles : PileTable) (PileCount : Nat) : EdgeList :=
  (List.range PileCount).flatMap (specEdgesOfPile cfg Piles)

/-- A pile with the extent `[From, To]` and the images of `images`. -/
def mkPileWithImages (From To : Int) (images : List PileImageData) : PileData :=
  { From := From, To := To, ImageCount := images.length,
    Images := fun k => images.getD k ⟨0, 0, false⟩,
    FamIndex := -1, SuperFamIndex := -1, Rev := -1 }

/-- Two piles `[0,20]` and `[50,70]`: pile 0 holds an image of itself and two equal
images of pile 1, pile 1 holds two equal images of pile 0. -/
def pilesWithSelfImage : PileTable :=
  pileTableOfList
    [mkPileWithImages 0 20 [⟨21, 0, false⟩, ⟨21, 1, false⟩, ⟨21, 1, false⟩],
     mkPileWithImages 50 70 [⟨21, 0, false⟩, ⟨21, 0, false⟩]]

/-- The default windows with the spacer window narrowed to `[40, 200]`. -/
def narrowConfig : Config :=
  { defaultConfig with MIN_SPACER_LENGTH := 40 }

/-! ## Coverage bitmap and pile identification

`CHUNK_LENGTH` and `MAX_STACK_INDEX` are constants of `piler2.h`, which is not among the
sources; the functions that read them take them as parameters. `Quit` and a failed
`assert` end the run: the functions that can reach one return an `Option`, `none` being
the abort. `Warning` only logs and is left out. -/

/-- A loop whose body can abort: the body runs on the elements of the list in order, and
the first abort ends the loop. -/
def forEachM {σ α : Type} (f : σ → α → Option σ) : σ → List α → Option σ
  | s, [] => some s
  | s, a :: l =>
    match f s a with
    | none => none
    | some s2 => forEachM f s2 l

/-- Modelled from the spec: `BitIsSet` belongs to `bitfuncs.h`, which is not among the
sources; the spec treats the bit-level primitives as a bitmap with one bit per chunk. -/
def BitIsSet (CopyCount : Int → Bool) (i : Int) : Bool :=
  CopyCount i

/-- Modelled from the spec: `SetBit` belongs to `bitfuncs.h`, which is not among the
sources; it sets the bit of one chunk and leaves the others. -/
def SetBit (CopyCount : Int → Bool) (i : Int) : Int → Bool :=
  Function.update CopyCount i true

/-- The state of the loop of `IdentifyPiles`. -/
structure IdentifyPilesState where
  PileIndexes : Int → Int
  PileIndex : Int
  InPile : Bool

/-- The body of the loop of `IdentifyPiles` for chunk `i`. `PILE_INDEX_TYPE` holds every
index that passes the `MAX_STACK_INDEX` test, so the store keeps the value. -/
def IdentifyPilesStep (MAX_STACK_INDEX : Int) (CopyCount : Int → Bool)
    (st : IdentifyPilesState) (i : Nat) : Option IdentifyPilesState :=
  if BitIsSet CopyCount i then
    if !st.InPile then
      let PileIndex := st.PileIndex + 1
      if PileIndex > MAX_STACK_INDEX then
        none
      else
        some { PileIndexes := Function.update st.PileIndexes i PileIndex,
               PileIndex := PileIndex, InPile := true }
    else
      some { st with PileIndexes := Function.update st.PileIndexes i st.PileIndex }
  else
    some { st with InPile := false }

/-- `IdentifyPiles`: the result is the index map with the value of the global `PileCount`
(`PileIndex + 1`, which is never negative). The parameter `PileIndexes` is the array as
`all` hands it out: the entries of uncovered chunks keep what it holds. `none` is the
abort `Quit("Too many stacks")`. -/
def IdentifyPiles (MAX_STACK_INDEX : Int) (SeqLengthChunks : Nat) (CopyCount : Int → Bool)
    (PileIndexes : Int → Int) : Option ((Int → Int) × Nat) :=
  match forEachM (IdentifyPilesStep MAX_STACK_INDEX CopyCount)
      { PileIndexes := PileIndexes, PileIndex := -1, InPile := false }
      (List.range SeqLengthChunks) with
  | none => none
  | some st => some (st.PileIndexes, (st.PileIndex + 1).toNat)

/-- The bit of the chunk before chunk `n`; chunk 0 has none. -/
def prevBit (CopyCount : Int → Bool) : Nat → Bool
  | 0 => false
  | k + 1 => CopyCount k

/-- The number of maximal runs of covered chunks that begin below chunk `n`: the number
of covered chunks below `n` whose predecessor is not covered. -/
def runCount (CopyCount : Int → Bool) : Nat → Nat
  | 0 => 0
  | n + 1 => runCount CopyCount n +
      (if CopyCount n = true ∧ prevBit CopyCount n = false then 1 else 0)

/-- The bitmap that holds the bits of `l` at the chunks `0, 1, ...`. -/
def bitmapOfList (l : List Bool) : Int → Bool :=
  fun i => if i < 0 then false else l.getD i.toNat false

/-- The bitmap `1 0 1`: two runs of one chunk each. -/
def bitmap101 : Int → Bool :=
  bitmapOfList [true, false, true]

/-- The bitmap `1 1 0 1 1 1 0`: a run of two chunks and a run of three. -/
def bitmap1101110 : Int → Bool :=
  bitmapOfList [true, true, false, true, true, true, false]

/-- The values of `i` in `for (int i = From; i <= To; ++i)`, in order. -/
def intRange (From To : Int) : List Int :=
  (List.range (To - From + 1).toNat).map (fun k : Nat => From + (k : Int))

/-- `IncCopyCountImage`: `none` is one of the two aborts `Quit("From < 0")` and
`Quit("From > To")`; the two warnings only log. -/
def IncCopyCountImage (CHUNK_LENGTH : Int) (SeqLengthChunks : Nat) (CopyCount : Int → Bool)
    (From To : Int) : Option (Int → Bool) :=
  if From < 0 then
    none
  else
    let From := Int.tdiv From CHUNK_LENGTH
    let To := Int.tdiv To CHUNK_LENGTH
    let From := if From ≥ (SeqLengthChunks : Int) then (SeqLengthChunks : Int) - 1 else From
    let To := if To ≥ (SeqLengthChunks : Int) then (SeqLengthChunks : Int) - 1 else To
    if From > To then
      none
    else
      some ((intRange From To).foldl SetBit CopyCount)

/-- `IncCopyCount`: the target interval first, then the query interval. -/
def IncCopyCount (CHUNK_LENGTH : Int) (SeqLengthChunks : Nat) (CopyCount : Int → Bool)
    (Hit : HitData) : Option (Int → Bool) :=
  match IncCopyCountImage CHUNK_LENGTH SeqLengthChunks CopyCount Hit.TargetFrom Hit.TargetTo with
  | none => none
  | some CopyCount =>
    IncCopyCountImage CHUNK_LENGTH SeqLengthChunks CopyCount Hit.QueryFrom Hit.QueryTo

/-- A hit with the query interval `[15, 47]` and the target interval `[62, 85]`. -/
def hitChunks1to4and6to8 : HitData :=
  { QueryFrom := 15, QueryTo := 47, TargetFrom := 62, TargetTo := 85, Rev := false }

/-! ## Pile and image construction -/

/-- A pile as `zero` leaves it. -/
def zeroPile : PileData :=
  { From := 0, To := 0, ImageCount := 0, Images := fun _ => ⟨0, 0, false⟩,
    FamIndex := 0, SuperFamIndex := 0, Rev := 0 }

/-- An update of `Piles[PileIndex]` in place, through a reference to the pile. -/
def modifyPile (Piles : PileTable) (PileIndex : Int) (f : PileData → PileData) : PileTable :=
  Function.update Piles PileIndex (f (Piles PileIndex))

/-- `FamIndex = -1`, `SuperFamIndex = -1`, `Rev = -1`. -/
def initPile (P : PileData) : PileData :=
  { P with FamIndex := -1, SuperFamIndex := -1, Rev := -1 }

/-- `ImageCount = 0`, `From = -1`, `To = -1`. -/
def resetPile (Pile : PileData) : PileData :=
  { Pile with ImageCount := 0, From := -1, To := -1 }

/-- The start of `CreatePiles`: the table is zeroed and the piles below `PileCount` get
`FamIndex = SuperFamIndex = Rev = -1`. -/
def CreatePilesInit (PileCount : Nat) : PileTable :=
  (List.range PileCount).foldl (fun Piles (i : Nat) => modifyPile Piles i initPile)
    (fun _ => zeroPile)

/-- `++(Piles[PileIndex].ImageCount)`. -/
def incImageCount (P : PileData) : PileData :=
  { P with ImageCount := P.ImageCount + 1 }

/-- The body of the counting loop of `CreatePiles` for one hit; a failed `assert` is
`none`. -/
def CreatePilesCountStep (CHUNK_LENGTH : Int) (PileIndexes : Int → Int) (PileCount : Nat)
    (Piles : PileTable) (Hit : HitData) : Option PileTable :=
  let Pos := Int.tdiv Hit.QueryFrom CHUNK_LENGTH
  let PileIndex := PileIndexes Pos
  if ¬ (PileIndex = PileIndexes (Int.tdiv Hit.QueryTo CHUNK_LENGTH)) then none
  else if ¬ (PileIndex ≥ 0 ∧ PileIndex < (PileCount : Int)) then none
  else
    let Piles := modifyPile Piles PileIndex incImageCount
    let Pos := Int.tdiv Hit.TargetFrom CHUNK_LENGTH
    let PileIndex := PileIndexes Pos
    if ¬ (PileIndex ≥ 0 ∧ PileIndex < (PileCount : Int)) then none
    else if ¬ (PileIndex = PileIndexes (Int.tdiv Hit.TargetTo CHUNK_LENGTH)) then none
    else some (modifyPile Piles PileIndex incImageCount)

/-- `CreatePiles` up to the end of the counting loop ("Count images in stack"). -/
def CreatePilesCount (CHUNK_LENGTH : Int) (PileIndexes : Int → Int) (PileCount : Nat)
    (Hits : List HitData) : Option PileTable :=
  forEachM (CreatePilesCountStep CHUNK_LENGTH PileIndexes PileCount)
    (CreatePilesInit PileCount) Hits

/-- The allocation loop of `CreatePiles`: `assert(ImageCount > 0)` for every pile below
`PileCount`. The image array it allocates holds nothing that is read before the fill
loop writes it, and the local `TotalImageCount` is not read again. -/
def CreatePilesAlloc (PileCount : Nat) (Piles : PileTable) : Option PileTable :=
  forEachM
    (fun Piles (PileIndex : Nat) =>
      let ImageCount := (Piles PileIndex).ImageCount
      if ¬ (ImageCount > 0) then none else some Piles)
    Piles (List.range PileCount)

/-- The reset before the fill loop: `ImageCount = 0`, `From = -1`, `To = -1` for every
pile below `PileCount`. -/
def CreatePilesReset (PileCount : Nat) (Piles : PileTable) : PileTable :=
  (List.range PileCount).foldl
    (fun Piles (PileIndex : Nat) => modifyPile Piles PileIndex resetPile) Piles

/-- `Pile.Images[Pile.ImageCount++] = Image`. -/
def pushImage (Image : PileImageData) (Pile : PileData) : PileData :=
  { Pile with Images := Function.update Pile.Images Pile.ImageCount Image,
              ImageCount := Pile.ImageCount + 1 }

/-- `if (Pile.From == -1 || From < Pile.From) Pile.From = From`. -/
def setFrom (From : Int) (Pile : PileData) : PileData :=
  if Pile.From = -1 ∨ From < Pile.From then { Pile with From := From } else Pile

/-- `if (Pile.To == -1 || To > Pile.To) Pile.To = To`. -/
def setTo (To : Int) (Pile : PileData) : PileData :=
  if Pile.To = -1 ∨ To > Pile.To then { Pile with To := To } else Pile

/-- The body of the fill loop of `CreatePiles` for one hit; a failed `assert` is `none`.
`Pile1` and `Pile2` are references into the table and may be the same pile, so every
update reads the table as the updates before it left it. The global `MaxImageCount`,
which is only the capacity of the scratch buffers of the edge finder, is left out. -/
def CreatePilesFillStep (CHUNK_LENGTH : Int) (PileIndexes : Int → Int) (PileCount : Nat)
    (Piles : PileTable) (Hit : HitData) : Option PileTable :=
  let Rev := Hit.Rev
  let Length1 := Hit.QueryTo - Hit.QueryFrom
  let Length2 := Hit.TargetTo - Hit.TargetFrom
  let From1 := Hit.QueryFrom
  let From2 := Hit.TargetFrom
  let To1 := Hit.QueryTo
  let To2 := Hit.TargetTo
  let Pos1 := Int.tdiv From1 CHUNK_LENGTH
  let Pos2 := Int.tdiv From2 CHUNK_LENGTH
  let PileIndex1 := PileIndexes Pos1
  let PileIndex2 := PileIndexes Pos2
  if ¬ (PileIndex1 = PileIndexes (Int.tdiv (From1 + Length1 - 1) CHUNK_LENGTH)) then none
  else if ¬ (PileIndex1 ≥ 0 ∧ PileIndex1 < (PileCount : Int)) then none
  else if ¬ (PileIndex2 = PileIndexes (Int.tdiv (From2 + Length2 - 1) CHUNK_LENGTH)) then none
  else if ¬ (PileIndex2 ≥ 0 ∧ PileIndex2 < (PileCount : Int)) then none
  else
    let Piles := modifyPile Piles PileIndex1
      (pushImage { SILength := Length2, SIPile := PileIndex2, SIRev := Rev })
    let Piles := modifyPile Piles PileIndex2
      (pushImage { SILength := Length1, SIPile := PileIndex1, SIRev := Rev })
    let Piles := modifyPile Piles PileIndex1 (setFrom From1)
    let Piles := modifyPile Piles PileIndex1 (setTo To1)
    let Piles := modifyPile Piles PileIndex2 (setFrom From2)
    let Piles := modifyPile Piles PileIndex2 (setTo To2)
    some Piles

/-- The reset and the fill loop of `CreatePiles` ("Build image list"). -/
def CreatePilesFill (CHUNK_LENGTH : Int) (PileIndexes : Int → Int) (PileCount : Nat)
    (Piles : PileTable) (Hits : List HitData) : Option PileTable :=
  forEachM (CreatePilesFillStep CHUNK_LENGTH PileIndexes PileCount)
    (CreatePilesReset PileCount Piles) Hits

/-- `CreatePiles`: the counting loop, the allocation loop and the fill loop. The result
is the global pile table; `none` is a failed `assert`. -/
def CreatePiles (CHUNK_LENGTH : Int) (PileIndexes : Int → Int) (PileCount : Nat)
    (Hits : List HitData) : Option PileTable :=
  match CreatePilesCount CHUNK_LENGTH PileIndexes PileCount Hits with
  | none => none
  | some Piles =>
    match CreatePilesAlloc PileCount Piles with
    | none => none
    | some Piles => CreatePilesFill CHUNK_LENGTH PileIndexes PileCount Piles Hits

/-- `SeqLengthChunks` as `Crisp` computes it from the sequence length. -/
def SeqLengthChunksOf (CHUNK_LENGTH SeqLength : Int) : Nat :=
  (Int.tdiv (SeqLength + CHUNK_LENGTH - 1) CHUNK_LENGTH).toNat

/-- The coverage bitmap as `Crisp` builds it: zeroed, then `IncCopyCount` for every hit
in order. -/
def ComputeCopyCounts (CHUNK_LENGTH : Int) (SeqLengthChunks : Nat) (Hits : List HitData) :
    Option (Int → Bool) :=
  forEachM (IncCopyCount CHUNK_LENGTH SeqLengthChunks) (fun _ => false) Hits

/-- The intervals that resolve to pile `p`: of every hit, the query interval when
`PileIndexes[QueryFrom / CHUNK_LENGTH] = p` and the target interval when
`PileIndexes[TargetFrom / CHUNK_LENGTH] = p`, as pairs `(From, To)`. -/
def intervalsOf (CHUNK_LENGTH : Int) (PileIndexes : Int → Int) (Hits : List HitData)
    (p : Int) : List (Int × Int) :=
  Hits.flatMap (fun Hit =>
    (if PileIndexes (Int.tdiv Hit.QueryFrom CHUNK_LENGTH) = p then
      [(Hit.QueryFrom, Hit.QueryTo)] else []) ++
    (if PileIndexes (Int.tdiv Hit.TargetFrom CHUNK_LENGTH) = p then
      [(Hit.TargetFrom, Hit.TargetTo)] else []))

/-- The pile indices that the hits resolve to: of every hit, the pile of its query
interval and the pile of its target interval. -/
def resolvedPiles (CHUNK_LENGTH : Int) (PileIndexes : Int → Int) (Hits : List HitData) :
    List Int :=
  Hits.flatMap (fun Hit =>
    [PileIndexes (Int.tdiv Hit.QueryFrom CHUNK_LENGTH),
     PileIndexes (Int.tdiv Hit.TargetFrom CHUNK_LENGTH)])

/-- Two hits with `CHUNK_LENGTH = 10`: the first joins `[15, 47]` and `[62, 85]`, the
second joins `[20, 45]` and `[60, 88]`. -/
def hitsTwoPiles : List HitData :=
  [hitChunks1to4and6to8,
   { QueryFrom := 20, QueryTo := 45, TargetFrom := 60, TargetTo := 88, Rev := false }]

/-- One hit whose query interval is the single base 10, the first base of chunk 1 when
`CHUNK_LENGTH = 10`, and whose target interval is `[40, 60]`. -/
def hitsSingleBase : List HitData :=
  [{ QueryFrom := 10, QueryTo := 10, TargetFrom := 40, TargetTo := 60, Rev := false }]

/-- The index map that holds the entries of `l` at the chunks `0, 1, ...` and -1
elsewhere. -/
def pileIndexesOfList (l : List Int) : Int → Int :=
  fun i => if i < 0 then -1 else l.getD i.toNat (-1)

/-- The index map of `IdentifyPiles` for `hitsTwoPiles` with `CHUNK_LENGTH = 10` and ten
chunks: chunks 1 to 4 are pile 0, chunks 6 to 8 are pile 1. -/
def pileIndexesTwoPiles : Int → Int :=
  pileIndexesOfList [-1, 0, 0, 0, 0, -1, 1, 1, 1, -1]

/-- `From` is the least `From` and `To` the greatest `To` of a list of intervals. -/
def IsHullOf (From To : Int) (ivs : List (Int × Int)) : Prop :=
  (∀ iv ∈ ivs, From ≤ iv.1 ∧ iv.2 ≤ To) ∧ (∃ iv ∈ ivs, iv.1 = From) ∧
    (∃ iv ∈ ivs, iv.2 = To)

/-- `Crisp` from the candidate hits to the index map: the coverage bitmap, then
`IdentifyPiles` on an index array filled with -1 (the fill of the `DEBUG` build). -/
def identifyPilesOfHits (CHUNK_LENGTH SeqLength MAX_STACK_INDEX : Int)
    (Hits : List HitData) : Option ((Int → Int) × Nat) :=
  match ComputeCopyCounts CHUNK_LENGTH (SeqLengthChunksOf CHUNK_LENGTH SeqLength) Hits with
  | none => none
  | some CopyCount =>
    IdentifyPiles MAX_STACK_INDEX (SeqLengthChunksOf CHUNK_LENGTH SeqLength) CopyCount
      (fun _ => -1)

/-! ## Family assignment -/

/-- The family of the piles of `l`, all forward. -/
def famOfList (l : List Int) : FamData :=
  l.map (fun i => ⟨i, false⟩)

/-- Seven piles of length 21, 50 apart: `[0,20]`, `[50,70]`, ..., `[300,320]`. -/
def pilesSevenRegular : PileTable :=
  pileTableOfList [mkPile 0 20, mkPile 50 70, mkPile 100 120, mkPile 150 170,
    mkPile 200 220, mkPile 250 270, mkPile 300 320]

/-- The conversion `(int) FamMember.Rev` of a `bool`. -/
def boolToInt (b : Bool) : Int :=
  if b then 1 else 0

/-- The inner loop of `AssignFamsToPiles`: every member's pile gets the family index and
the member's orientation. -/
def assignFam (FamIndex : Int) (Piles : PileTable) (Fam : FamData) : PileTable :=
  Fam.foldl
    (fun Piles FamMember =>
      let PileIndex := FamMember.PileIndex
      modifyPile Piles PileIndex
        (fun Pile => { Pile with FamIndex := FamIndex, Rev := boolToInt FamMember.Rev }))
    Piles

/-- The body of the outer loop of `AssignFamsToPiles` on the state `(Piles, FamIndex)`;
`none` is the abort `Quit("Fam size")`. -/
def AssignFamsToPilesStep (cfg : Config) (st : PileTable × Int) (Fam : FamData) :
    Option (PileTable × Int) :=
  if Fam.length < cfg.g_paramMinFamSize then
    none
  else
    some (assignFam st.2 st.1 Fam, st.2 + 1)

/-- `AssignFamsToPiles`: the result is the pile table after the call. -/
def AssignFamsToPiles (cfg : Config) (Piles : PileTable) (Fams : FamList) :
    Option PileTable :=
  match forEachM (AssignFamsToPilesStep cfg) (Piles, 0) Fams with
  | none => none
  | some st => some st.1

/-! ## A second conforming sort, and a family that lists a pile twice -/

/-- A second sort that keeps the promise of `std::sort`: the insertion sort run on the
reversed sequence. `std::sort` does not promise the order of equivalent elements; this
sort leaves members whose piles have the same `From` in the reverse of their input
order. -/
def reversingSort : SortFn :=
  fun lt l => insertionSort lt l.reverse

/-- Two piles `[0,9]` and `[15,24]` (gap 6). -/
def pilesTwoClose : PileTable :=
  pileTableOfList [mkPile 0 9, mkPile 15 24]

/-- A family that lists pile 0 twice, forward and reverse, and pile 1 once. -/
def famPileTwice : FamData :=
  [⟨0, false⟩, ⟨0, true⟩, ⟨1, false⟩]

/-- The member with the orientation flag cleared; the spacing filter reads only the pile
index of a member. -/
def clearRev (m : FamMemberData) : FamMemberData :=
  ⟨m.PileIndex, false⟩

/-- Two families on seven piles with members of both orientations: the piles 0, 1, 2
(reverse, forward, reverse) and 3, 4, 5, 6 (forward, reverse, reverse, forward). -/
def famsBothOrientations : FamList :=
  [[⟨0, true⟩, ⟨1, false⟩, ⟨2, true⟩], [⟨3, false⟩, ⟨4, true⟩, ⟨5, true⟩, ⟨6, false⟩]]

/-! ## Theorems -/

/-! ### Helper lemmas: the loop of `FilterCrispFam` and the walk -/

theorem getD_append_cons (pre : List FamMemberData) (x : FamMemberData)
    (rest : List FamMemberData) (d : FamMemberData) :
    (pre ++ x :: rest).getD pre.length d = x := by
  induction pre with
  | nil => rfl
  | cons a pre ih => simpa using ih

theorem getD_at_two (pre : List FamMemberData) (m2 m1 m : FamMemberData)
    (rest : List FamMemberData) (d : FamMemberData) :
    (pre ++ m2 :: m1 :: m :: rest).getD (pre.length + 2) d = m := by
  have h := getD_append_cons (pre ++ [m2, m1]) m rest d
  simpa using h

theorem getD_at_one (pre : List FamMemberData) (m2 m1 : FamMemberData)
    (rest : List FamMemberData) (d : FamMemberData) :
    (pre ++ m2 :: m1 :: rest).getD (pre.length + 1) d = m1 := by
  have h := getD_append_cons (pre ++ [m2]) m1 rest d
  simpa using h

/-- The loop from index `pre.length + 2` on, followed by the final push, is the walk from
the third member on with an empty restart. -/
theorem foldl_step_eq_walkFrom (cfg : Config) (Piles : PileTable) :
    ∀ (rest pre : List FamMemberData) (m2 m1 : FamMemberData) (cur : FamData)
      (out : FamList),
      (let st := (List.range' (pre.length + 2) rest.length).foldl
          (FilterCrispFamStep cfg Piles (pre ++ m2 :: m1 :: rest)) (cur, out)
       closeSubFam cfg st.1 st.2) =
      walkFrom (fun _ => []) cfg Piles m2 m1 rest cur out := by
  intro rest
  induction rest with
  | nil => intro pre m2 m1 cur out; rfl
  | cons m rest ih =>
    intro pre m2 m1 cur out
    have hV : pre ++ m2 :: m1 :: m :: rest = (pre ++ [m2]) ++ m1 :: m :: rest := by simp
    have hlen : pre.length + 2 + 1 = (pre ++ [m2]).length + 2 := by simp
    have ih2 := ih (pre ++ [m2]) m1 m
    rw [← hV, ← hlen] at ih2
    have hstep : FilterCrispFamStep cfg Piles (pre ++ m2 :: m1 :: m :: rest) (cur, out)
        (pre.length + 2) =
        if iabs (gap Piles m2 m1 - gap Piles m1 m) ≤ cfg.MAX_SPACE_DIFF then
          (cur ++ [m], out)
        else ([], closeSubFam cfg cur out) := by
      have h0 : ¬ (pre.length + 2 = 0 ∨ pre.length + 2 = 1) := by omega
      have e2 : (pre ++ m2 :: m1 :: m :: rest).getD (pre.length + 2 - 2) ⟨0, false⟩ = m2 := by
        simpa using getD_append_cons pre m2 (m1 :: m :: rest) ⟨0, false⟩
      have e1 : (pre ++ m2 :: m1 :: m :: rest).getD (pre.length + 2 - 1) ⟨0, false⟩ = m1 := by
        simpa using getD_at_one pre m2 m1 (m :: rest) ⟨0, false⟩
      have e0 := getD_at_two pre m2 m1 m rest ⟨0, false⟩
      unfold FilterCrispFamStep
      simp only [h0, if_false, e0, e1, e2, gap, closeSubFam]
      by_cases hc : iabs ((Piles m1.PileIndex).From - (Piles m2.PileIndex).To -
          ((Piles m.PileIndex).From - (Piles m1.PileIndex).To)) ≤ cfg.MAX_SPACE_DIFF
      · simp only [hc, if_true]
      · simp only [hc, if_false]
        by_cases hs : cfg.g_paramMinFamSize ≤ cur.length
        · simp only [ge_iff_le, hs, if_true]
        · simp only [ge_iff_le, hs, if_false]
    simp only [List.length_cons, List.range'_succ, List.foldl_cons, hstep]
    unfold walkFrom
    by_cases hc : iabs (gap Piles m2 m1 - gap Piles m1 m) ≤ cfg.MAX_SPACE_DIFF
    · simp only [hc, if_true]
      exact ih2 (cur ++ [m]) out
    · simp only [hc, if_false]
      exact ih2 [] (closeSubFam cfg cur out)

/-- The whole loop of `FilterCrispFam` on a vector `V` of the family's size, followed by
the final push, is the walk with an empty restart. -/
theorem loop_eq_walk (cfg : Config) (Piles : PileTable) (V : List FamMemberData)
    (out : FamList) :
    (let st := (List.range V.length).foldl (FilterCrispFamStep cfg Piles V) ([], out)
     closeSubFam cfg st.1 st.2) = walk (fun _ => []) cfg Piles V out := by
  match V with
  | [] => rfl
  | [a] => rfl
  | a :: b :: rest =>
    have h := foldl_step_eq_walkFrom cfg Piles rest [] a b [a, b] out
    simp only [List.length_nil, Nat.zero_add, List.nil_append] at h
    have hr : List.range (a :: b :: rest).length = 0 :: 1 :: List.range' 2 rest.length := by
      simp [List.range_eq_range', List.range'_succ]
    rw [hr]
    simp only [List.foldl_cons]
    have s0 : FilterCrispFamStep cfg Piles (a :: b :: rest) ([], out) 0 = ([a], out) := rfl
    have s1 : FilterCrispFamStep cfg Piles (a :: b :: rest) ([a], out) 1 = ([a, b], out) := rfl
    rw [s0, s1]
    exact h

theorem FilterCrispFam_eq_walk (sort : SortFn) (cfg : Config) (Piles : PileTable)
    (Fam : FamData) (OutFams : FamList)
    (hlen : (sort (FamMemberLt Piles) Fam).length = Fam.length) :
    FilterCrispFam sort cfg Piles Fam OutFams =
      walk (fun _ => []) cfg Piles (sort (FamMemberLt Piles) Fam) OutFams := by
  have h := loop_eq_walk cfg Piles (sort (FamMemberLt Piles) Fam) OutFams
  rw [hlen] at h
  exact h

/-! ### Helper lemmas: sorting -/

theorem orderedInsert_perm (lt : FamMemberData → FamMemberData → Bool) (a : FamMemberData) :
    ∀ l : List FamMemberData, (orderedInsert lt a l).Perm (a :: l) := by
  intro l
  induction l with
  | nil => exact List.Perm.refl _
  | cons b l ih =>
    unfold orderedInsert
    by_cases h : lt b a = true
    · simp only [h, if_true]
      exact (List.Perm.cons b ih).trans (List.Perm.swap a b l)
    · simp only [h, if_false]
      exact List.Perm.refl _

theorem insertionSort_perm (lt : FamMemberData → FamMemberData → Bool) :
    ∀ l : List FamMemberData, (insertionSort lt l).Perm l := by
  intro l
  induction l with
  | nil => exact List.Perm.refl _
  | cons a l ih =>
    unfold insertionSort
    exact (orderedInsert_perm lt a _).trans (List.Perm.cons a ih)

theorem FamMemberLt_eq_false_iff (Piles : PileTable) (a b : FamMemberData) :
    FamMemberLt Piles b a = false ↔ (Piles a.PileIndex).From ≤ (Piles b.PileIndex).From := by
  simp [FamMemberLt]

theorem orderedInsert_sorted (Piles : PileTable) (a : FamMemberData) :
    ∀ l : List FamMemberData,
      l.Pairwise (fun x y => FamMemberLt Piles y x = false) →
      (orderedInsert (FamMemberLt Piles) a l).Pairwise
        (fun x y => FamMemberLt Piles y x = false) := by
  intro l
  induction l with
  | nil => intro _; simp [orderedInsert]
  | cons b l ih =>
    intro hl
    rw [List.pairwise_cons] at hl
    unfold orderedInsert
    by_cases h : FamMemberLt Piles b a = true
    · rw [if_pos h, List.pairwise_cons]
      refine ⟨?_, ih hl.2⟩
      intro x hx
      have hx2 : x ∈ a :: l := (orderedInsert_perm _ a l).subset hx
      rcases List.mem_cons.1 hx2 with rfl | hx3
      · simp only [FamMemberLt, decide_eq_true_eq, decide_eq_false_iff_not] at h ⊢
        omega
      · exact hl.1 x hx3
    · rw [if_neg h]
      have hba : FamMemberLt Piles b a = false := by simpa using h
      rw [List.pairwise_cons]
      refine ⟨?_, List.pairwise_cons.2 hl⟩
      intro x hx
      rcases List.mem_cons.1 hx with rfl | hx3
      · exact hba
      · have h1 := hl.1 x hx3
        rw [FamMemberLt_eq_false_iff] at h1 hba ⊢
        omega

/-- The insertion sort keeps the promise of `std::sort` for the comparator
`FamMemberLt`. -/
theorem insertionSort_isStdSort (Piles : PileTable) :
    IsStdSort insertionSort (FamMemberLt Piles) := by
  intro l
  refine ⟨insertionSort_perm _ l, ?_⟩
  induction l with
  | nil => simp [insertionSort]
  | cons a l ih =>
    unfold insertionSort
    exact orderedInsert_sorted Piles a _ ih

/-- A family has at most one arrangement in strictly ascending `From` order, and every
conforming sort produces it. -/
theorem sort_eq_of_strictly_ascending (sort : SortFn) (Piles : PileTable)
    (hsort : IsStdSort sort (FamMemberLt Piles)) (Fam V : List FamMemberData)
    (hperm : V.Perm Fam)
    (hasc : V.Pairwise (fun a b => (Piles a.PileIndex).From < (Piles b.PileIndex).From)) :
    sort (FamMemberLt Piles) Fam = V := by
  obtain ⟨hp, hs⟩ := hsort Fam
  have hVnd : (V.map (fun m => (Piles m.PileIndex).From)).Nodup := by
    rw [List.Nodup, List.pairwise_map]
    exact hasc.imp (fun h => ne_of_lt h)
  have hSnd : ((sort (FamMemberLt Piles) Fam).map (fun m => (Piles m.PileIndex).From)).Nodup :=
    (((hp.trans hperm.symm).map _).nodup_iff).2 hVnd
  rw [List.Nodup, List.pairwise_map] at hSnd
  have hS : (sort (FamMemberLt Piles) Fam).Pairwise
      (fun a b => (Piles a.PileIndex).From < (Piles b.PileIndex).From) := by
    refine (hs.and hSnd).imp ?_
    intro a b h
    have h1 := (FamMemberLt_eq_false_iff Piles a b).1 h.1
    exact lt_of_le_of_ne h1 h.2
  haveI : IsAntisymm FamMemberData
      (fun a b => (Piles a.PileIndex).From < (Piles b.PileIndex).From) :=
    ⟨fun a b h1 h2 => absurd h1 (not_lt_of_gt h2)⟩
  exact List.eq_of_perm_of_sorted (hp.trans hperm.symm) hS hasc


/-! ### Helper lemmas: what the walk emits -/

theorem mem_closeSubFam (cfg : Config) (cur : FamData) (out : FamList) (S : FamData)
    (h : S ∈ closeSubFam cfg cur out) :
    S ∈ out ∨ (S = cur ∧ cfg.g_paramMinFamSize ≤ cur.length) := by
  unfold closeSubFam at h
  by_cases hc : cfg.g_paramMinFamSize ≤ cur.length
  · rw [if_pos hc] at h
    rcases List.mem_append.1 h with h1 | h1
    · exact Or.inl h1
    · exact Or.inr ⟨by simpa using h1, hc⟩
  · rw [if_neg hc] at h
    exact Or.inl h

theorem closeSubFam_append (cfg : Config) (cur : FamData) (out0 out : FamList) :
    closeSubFam cfg cur (out0 ++ out) = out0 ++ closeSubFam cfg cur out := by
  unfold closeSubFam
  by_cases hc : cfg.g_paramMinFamSize ≤ cur.length
  · rw [if_pos hc, if_pos hc, List.append_assoc]
  · rw [if_neg hc, if_neg hc]

theorem walkFrom_append (restart : FamMemberData → FamData) (cfg : Config)
    (Piles : PileTable) :
    ∀ (rest : List FamMemberData) (m2 m1 : FamMemberData) (cur : FamData)
      (out0 out : FamList),
      walkFrom restart cfg Piles m2 m1 rest cur (out0 ++ out) =
        out0 ++ walkFrom restart cfg Piles m2 m1 rest cur out := by
  intro rest
  induction rest with
  | nil => intro m2 m1 cur out0 out; exact closeSubFam_append cfg cur out0 out
  | cons m rest ih =>
    intro m2 m1 cur out0 out
    unfold walkFrom
    by_cases hc : iabs (gap Piles m2 m1 - gap Piles m1 m) ≤ cfg.MAX_SPACE_DIFF
    · rw [if_pos hc, if_pos hc]; exact ih _ _ _ _ _
    · rw [if_neg hc, if_neg hc, closeSubFam_append]; exact ih _ _ _ _ _

theorem walk_append (restart : FamMemberData → FamData) (cfg : Config) (Piles : PileTable)
    (V : List FamMemberData) (out0 out : FamList) :
    walk restart cfg Piles V (out0 ++ out) = out0 ++ walk restart cfg Piles V out := by
  match V with
  | [] => exact closeSubFam_append cfg [] out0 out
  | [a] => exact closeSubFam_append cfg [a] out0 out
  | a :: b :: rest => exact walkFrom_append restart cfg Piles rest a b [a, b] out0 out

/-- On a regularly spaced sequence the walk never closes a sub-family before the end. -/
theorem walkFrom_regular (restart : FamMemberData → FamData) (cfg : Config)
    (Piles : PileTable) :
    ∀ (rest pre : List FamMemberData) (m2 m1 : FamMemberData) (cur : FamData)
      (out : FamList),
      RegularSpacing cfg Piles (pre ++ m2 :: m1 :: rest) →
      walkFrom restart cfg Piles m2 m1 rest cur out = closeSubFam cfg (cur ++ rest) out := by
  intro rest
  induction rest with
  | nil => intro pre m2 m1 cur out _; simp [walkFrom]
  | cons m rest ih =>
    intro pre m2 m1 cur out hreg
    have h := hreg (pre.length + 2) (by omega) (by simp)
    have e2 : (pre ++ m2 :: m1 :: m :: rest).getD (pre.length + 2 - 2) ⟨0, false⟩ = m2 := by
      simpa using getD_append_cons pre m2 (m1 :: m :: rest) ⟨0, false⟩
    have e1 : (pre ++ m2 :: m1 :: m :: rest).getD (pre.length + 2 - 1) ⟨0, false⟩ = m1 := by
      simpa using getD_at_one pre m2 m1 (m :: rest) ⟨0, false⟩
    have e0 := getD_at_two pre m2 m1 m rest ⟨0, false⟩
    rw [e2, e1, e0] at h
    unfold walkFrom
    rw [if_pos h]
    have hV : pre ++ m2 :: m1 :: m :: rest = (pre ++ [m2]) ++ m1 :: m :: rest := by simp
    rw [hV] at hreg
    rw [ih (pre ++ [m2]) m1 m (cur ++ [m]) out hreg]
    simp

theorem walk_regular (restart : FamMemberData → FamData) (cfg : Config) (Piles : PileTable)
    (V : List FamMemberData) (out : FamList) (hreg : RegularSpacing cfg Piles V) :
    walk restart cfg Piles V out = closeSubFam cfg V out := by
  match V with
  | [] => rfl
  | [a] => rfl
  | a :: b :: rest =>
    have h := walkFrom_regular restart cfg Piles rest [] a b [a, b] out hreg
    simpa [walk] using h

/-- Every family that the walk with an empty restart adds to the output is a sublist of
the walked sequence, has at least the minimum size, and is left whole by a second walk. -/
theorem walkFrom_emitted (cfg : Config) (Piles : PileTable) (V : List FamMemberData)
    (R : FamData → Prop)
    (hR : ∀ S : FamData, S.Sublist V → cfg.g_paramMinFamSize ≤ S.length →
      (∀ out, walk (fun _ => []) cfg Piles S out = closeSubFam cfg S out) → R S) :
    ∀ (rest : List FamMemberData) (m2 m1 : FamMemberData) (cur : FamData) (out : FamList),
      (cur ++ rest).Sublist V →
      (cur = [] ∨ cur = [m1] ∨
        ∀ (tl : List FamMemberData) (o : FamList),
          walk (fun _ => []) cfg Piles (cur ++ tl) o =
            walkFrom (fun _ => []) cfg Piles m2 m1 tl cur o) →
      (∀ S ∈ out, R S) →
      ∀ S ∈ walkFrom (fun _ => []) cfg Piles m2 m1 rest cur out, R S := by
  have hclose : ∀ (m2 m1 : FamMemberData) (cur : FamData) (out : FamList),
      cur.Sublist V →
      (cur = [] ∨ cur = [m1] ∨
        ∀ (tl : List FamMemberData) (o : FamList),
          walk (fun _ => []) cfg Piles (cur ++ tl) o =
            walkFrom (fun _ => []) cfg Piles m2 m1 tl cur o) →
      (∀ S ∈ out, R S) → ∀ S ∈ closeSubFam cfg cur out, R S := by
    intro m2 m1 cur out hsub hW hout S hS
    rcases mem_closeSubFam cfg cur out S hS with h1 | ⟨rfl, hlen⟩
    · exact hout S h1
    · refine hR S hsub hlen ?_
      intro o
      rcases hW with h | h | h
      · subst h; rfl
      · subst h; rfl
      · have := h [] o
        simpa [walkFrom] using this
  intro rest
  induction rest with
  | nil =>
    intro m2 m1 cur out hsub hW hout S hS
    rw [List.append_nil] at hsub
    exact hclose m2 m1 cur out hsub hW hout S hS
  | cons m rest ih =>
    intro m2 m1 cur out hsub hW hout S hS
    unfold walkFrom at hS
    by_cases hc : iabs (gap Piles m2 m1 - gap Piles m1 m) ≤ cfg.MAX_SPACE_DIFF
    · rw [if_pos hc] at hS
      refine ih m1 m (cur ++ [m]) out (by simpa using hsub) ?_ hout S hS
      rcases hW with h | h | h
      · subst h; exact Or.inr (Or.inl rfl)
      · subst h
        refine Or.inr (Or.inr ?_)
        intro tl o
        rfl
      · refine Or.inr (Or.inr ?_)
        intro tl o
        have h1 := h (m :: tl) o
        rw [List.append_assoc]
        rw [List.singleton_append, h1]
        conv_lhs => unfold walkFrom
        rw [if_pos hc]
    · rw [if_neg hc] at hS
      have hsub1 : cur.Sublist V :=
        (List.sublist_append_left cur (m :: rest)).trans hsub
      have hsub2 : ([] ++ rest).Sublist V := by
        refine List.Sublist.trans ?_ hsub
        rw [List.nil_append]
        exact ((List.sublist_cons_self m rest)).trans (List.sublist_append_right cur _)
      exact ih m1 m [] (closeSubFam cfg cur out) hsub2 (Or.inl rfl)
        (hclose m2 m1 cur out hsub1 hW hout) S hS

theorem walk_emitted (cfg : Config) (Piles : PileTable) (V : List FamMemberData)
    (out : FamList) (S : FamData) (hS : S ∈ walk (fun _ => []) cfg Piles V out) :
    S ∈ out ∨ (S.Sublist V ∧ cfg.g_paramMinFamSize ≤ S.length ∧
      ∀ o, walk (fun _ => []) cfg Piles S o = closeSubFam cfg S o) := by
  match V, hS with
  | [], hS =>
    rcases mem_closeSubFam cfg [] out S hS with h | ⟨rfl, hl⟩
    · exact Or.inl h
    · exact Or.inr ⟨List.Sublist.refl _, hl, fun o => rfl⟩
  | [a], hS =>
    rcases mem_closeSubFam cfg [a] out S hS with h | ⟨rfl, hl⟩
    · exact Or.inl h
    · exact Or.inr ⟨List.Sublist.refl _, hl, fun o => rfl⟩
  | a :: b :: rest, hS =>
    refine walkFrom_emitted cfg Piles (a :: b :: rest)
      (fun S => S ∈ out ∨ (S.Sublist (a :: b :: rest) ∧ cfg.g_paramMinFamSize ≤ S.length ∧
        ∀ o, walk (fun _ => []) cfg Piles S o = closeSubFam cfg S o))
      (fun S h1 h2 h3 => Or.inr ⟨h1, h2, h3⟩) rest a b [a, b] out (List.Sublist.refl _)
      (Or.inr (Or.inr (fun tl o => rfl))) (fun S h => Or.inl h) S hS

/-! ### Helper lemmas: `FilterCrispFam` through the walk -/

theorem sort_strictly_ascending (sort : SortFn) (Piles : PileTable)
    (hsort : IsStdSort sort (FamMemberLt Piles)) (Fam : List FamMemberData)
    (hnd : (Fam.map (fun m => (Piles m.PileIndex).From)).Nodup) :
    (sort (FamMemberLt Piles) Fam).Pairwise
      (fun a b => (Piles a.PileIndex).From < (Piles b.PileIndex).From) := by
  obtain ⟨hp, hs⟩ := hsort Fam
  have hSnd : ((sort (FamMemberLt Piles) Fam).map (fun m => (Piles m.PileIndex).From)).Nodup :=
    ((hp.map _).nodup_iff).2 hnd
  rw [List.Nodup, List.pairwise_map] at hSnd
  refine (hs.and hSnd).imp ?_
  intro a b h
  exact lt_of_le_of_ne ((FamMemberLt_eq_false_iff Piles a b).1 h.1) h.2

theorem FilterCrispFam_append (sort : SortFn) (cfg : Config) (Piles : PileTable)
    (hsort : IsStdSort sort (FamMemberLt Piles)) (Fam : FamData) (OutFams : FamList) :
    FilterCrispFam sort cfg Piles Fam OutFams =
      OutFams ++ FilterCrispFam sort cfg Piles Fam [] := by
  have hlen := (hsort Fam).1.length_eq
  rw [FilterCrispFam_eq_walk sort cfg Piles Fam OutFams hlen,
    FilterCrispFam_eq_walk sort cfg Piles Fam [] hlen]
  have h := walk_append (fun _ => []) cfg Piles (sort (FamMemberLt Piles) Fam) OutFams []
  rwa [List.append_nil] at h

/-- A strictly ascending family of at least the minimum size that a walk leaves whole is
re-emitted by `FilterCrispFam` as it stands. -/
theorem FilterCrispFam_fixed (sort : SortFn) (cfg : Config) (Piles : PileTable)
    (hsort : IsStdSort sort (FamMemberLt Piles)) (S : FamData)
    (hasc : S.Pairwise (fun a b => (Piles a.PileIndex).From < (Piles b.PileIndex).From))
    (hlen : cfg.g_paramMinFamSize ≤ S.length)
    (hself : ∀ o, walk (fun _ => []) cfg Piles S o = closeSubFam cfg S o)
    (OutFams : FamList) :
    FilterCrispFam sort cfg Piles S OutFams = OutFams ++ [S] := by
  have hs : sort (FamMemberLt Piles) S = S :=
    sort_eq_of_strictly_ascending sort Piles hsort S S (List.Perm.refl _) hasc
  rw [FilterCrispFam_eq_walk sort cfg Piles S OutFams (by rw [hs]), hs, hself]
  unfold closeSubFam
  rw [if_pos hlen]

theorem FilterCrispFam_emitted_fixed (sort : SortFn) (cfg : Config) (Piles : PileTable)
    (hsort : IsStdSort sort (FamMemberLt Piles)) (Fam : FamData)
    (hnd : (Fam.map (fun m => (Piles m.PileIndex).From)).Nodup)
    (S : FamData) (hS : S ∈ FilterCrispFam sort cfg Piles Fam []) (OutFams : FamList) :
    FilterCrispFam sort cfg Piles S OutFams = OutFams ++ [S] := by
  rw [FilterCrispFam_eq_walk sort cfg Piles Fam [] (hsort Fam).1.length_eq] at hS
  rcases walk_emitted cfg Piles _ [] S hS with h | ⟨hsub, hlen, hself⟩
  · exact absurd h (List.not_mem_nil S)
  · exact FilterCrispFam_fixed sort cfg Piles hsort S
      ((sort_strictly_ascending sort Piles hsort Fam hnd).sublist hsub) hlen hself OutFams

theorem foldl_FilterCrispFam_emitted (sort : SortFn) (cfg : Config) (Piles : PileTable)
    (hsort : IsStdSort sort (FamMemberLt Piles)) :
    ∀ (InFams acc : FamList),
      (∀ F ∈ InFams, (F.map (fun m => (Piles m.PileIndex).From)).Nodup) →
      (∀ S ∈ acc, ∀ o, FilterCrispFam sort cfg Piles S o = o ++ [S]) →
      ∀ S ∈ InFams.foldl (fun OutFams Fam => FilterCrispFam sort cfg Piles Fam OutFams) acc,
        ∀ o, FilterCrispFam sort cfg Piles S o = o ++ [S] := by
  intro InFams
  induction InFams with
  | nil => intro acc _ hacc S hS; exact hacc S hS
  | cons F InFams ih =>
    intro acc hnd hacc S hS
    rw [List.foldl_cons] at hS
    refine ih _ (fun G hG => hnd G (List.mem_cons_of_mem _ hG)) ?_ S hS
    intro T hT
    rw [FilterCrispFam_append sort cfg Piles hsort] at hT
    rcases List.mem_append.1 hT with h | h
    · exact hacc T h
    · exact FilterCrispFam_emitted_fixed sort cfg Piles hsort F
        (hnd F (List.mem_cons_self _ _)) T h

theorem foldl_FilterCrispFam_fixed (sort : SortFn) (cfg : Config) (Piles : PileTable) :
    ∀ (l acc : FamList),
      (∀ S ∈ l, ∀ o, FilterCrispFam sort cfg Piles S o = o ++ [S]) →
      l.foldl (fun OutFams Fam => FilterCrispFam sort cfg Piles Fam OutFams) acc =
        acc ++ l := by
  intro l
  induction l with
  | nil => intro acc _; simp
  | cons S l ih =>
    intro acc h
    rw [List.foldl_cons, h S (List.mem_cons_self _ _),
      ih _ (fun T hT => h T (List.mem_cons_of_mem _ hT))]
    simp

theorem FilterCrispFamStep_sizes (cfg : Config) (Piles : PileTable)
    (V : List FamMemberData) (st : FamData × FamList) (i : Nat)
    (h : ∀ F ∈ st.2, cfg.g_paramMinFamSize ≤ F.length) :
    ∀ F ∈ (FilterCrispFamStep cfg Piles V st i).2, cfg.g_paramMinFamSize ≤ F.length := by
  unfold FilterCrispFamStep
  intro F hF
  simp only at hF
  split_ifs at hF with h1 h2 h3
  · exact h F hF
  · exact h F hF
  · rcases List.mem_append.1 hF with h4 | h4
    · exact h F h4
    · have : F = st.1 := by simpa using h4
      rw [this]; exact h3
  · exact h F hF

theorem FilterCrispFam_sizes (sort : SortFn) (cfg : Config) (Piles : PileTable)
    (Fam : FamData) (OutFams : FamList)
    (h : ∀ F ∈ OutFams, cfg.g_paramMinFamSize ≤ F.length) :
    ∀ F ∈ FilterCrispFam sort cfg Piles Fam OutFams, cfg.g_paramMinFamSize ≤ F.length := by
  have hloop : ∀ (l : List Nat) (st : FamData × FamList),
      (∀ F ∈ st.2, cfg.g_paramMinFamSize ≤ F.length) →
      ∀ F ∈ (l.foldl (FilterCrispFamStep cfg Piles (sort (FamMemberLt Piles) Fam)) st).2,
        cfg.g_paramMinFamSize ≤ F.length := by
    intro l
    induction l with
    | nil => intro st hst; exact hst
    | cons i l ih =>
      intro st hst
      rw [List.foldl_cons]
      exact ih _ (FilterCrispFamStep_sizes cfg Piles _ st i hst)
  intro F hF
  unfold FilterCrispFam at hF
  simp only at hF
  split_ifs at hF with h1
  · rcases List.mem_append.1 hF with h4 | h4
    · exact hloop _ _ h F h4
    · rw [List.mem_singleton] at h4
      rw [h4]; exact h1
  · exact hloop _ _ h F hF

/-! ### Helper lemmas: the members of the emitted families -/

theorem closeSubFam_flatten_sublist (cfg : Config) (cur : FamData) (out : FamList) :
    (closeSubFam cfg cur out).flatten.Sublist (out.flatten ++ cur) := by
  unfold closeSubFam
  split_ifs
  · simp
  · exact List.sublist_append_left _ _

/-- The families that the walk with an empty restart emits, laid end to end, are a
sublist of the families emitted before, the current sub-family and the members still to
come. -/
theorem walkFrom_flatten_sublist (cfg : Config) (Piles : PileTable) :
    ∀ (rest : List FamMemberData) (m2 m1 : FamMemberData) (cur : FamData) (out : FamList),
      (walkFrom (fun _ => []) cfg Piles m2 m1 rest cur out).flatten.Sublist
        (out.flatten ++ cur ++ rest) := by
  intro rest
  induction rest with
  | nil =>
    intro m2 m1 cur out
    simpa [walkFrom] using closeSubFam_flatten_sublist cfg cur out
  | cons m rest ih =>
    intro m2 m1 cur out
    unfold walkFrom
    split_ifs with hc
    · have h := ih m1 m (cur ++ [m]) out
      simpa using h
    · have h := ih m1 m [] (closeSubFam cfg cur out)
      refine h.trans ?_
      rw [List.append_nil]
      have h1 := closeSubFam_flatten_sublist cfg cur out
      exact List.Sublist.append h1 (List.sublist_cons_self m rest)

theorem walk_flatten_sublist (cfg : Config) (Piles : PileTable) (V : List FamMemberData) :
    (walk (fun _ => []) cfg Piles V []).flatten.Sublist V := by
  match V with
  | [] => simpa [walk] using closeSubFam_flatten_sublist cfg [] []
  | [a] => simpa [walk] using closeSubFam_flatten_sublist cfg [a] []
  | a :: b :: rest =>
    simpa [walk] using walkFrom_flatten_sublist cfg Piles rest a b [a, b] []

/-- `FilterCrispFams` is the concatenation of what `FilterCrispFam` emits for each input
family. -/
theorem FilterCrispFams_eq_flatMap (sort : SortFn) (cfg : Config) (Piles : PileTable)
    (hsort : IsStdSort sort (FamMemberLt Piles)) (InFams OutFams : FamList) :
    FilterCrispFams sort cfg Piles InFams OutFams =
      InFams.flatMap (fun Fam => FilterCrispFam sort cfg Piles Fam []) := by
  unfold FilterCrispFams
  have h : ∀ (l acc : FamList),
      l.foldl (fun OutFams Fam => FilterCrispFam sort cfg Piles Fam OutFams) acc =
        acc ++ l.flatMap (fun Fam => FilterCrispFam sort cfg Piles Fam []) := by
    intro l
    induction l with
    | nil => intro acc; simp
    | cons F l ih =>
      intro acc
      rw [List.foldl_cons, ih, FilterCrispFam_append sort cfg Piles hsort F acc]
      simp
  simpa using h InFams []

/-- The members of the families emitted for one family are members of it, each pile at
most once when the family names each pile at most once. -/
theorem FilterCrispFam_members (sort : SortFn) (cfg : Config) (Piles : PileTable)
    (hsort : IsStdSort sort (FamMemberLt Piles)) (Fam : FamData) :
    (∀ m ∈ (FilterCrispFam sort cfg Piles Fam []).flatten, m ∈ Fam) ∧
    ((Fam.map (fun m => m.PileIndex)).Nodup →
      ((FilterCrispFam sort cfg Piles Fam []).flatten.map (fun m => m.PileIndex)).Nodup) := by
  have hperm := (hsort Fam).1
  have hsub : (FilterCrispFam sort cfg Piles Fam []).flatten.Sublist
      (sort (FamMemberLt Piles) Fam) := by
    rw [FilterCrispFam_eq_walk sort cfg Piles Fam [] hperm.length_eq]
    exact walk_flatten_sublist cfg Piles _
  refine ⟨fun m hm => hperm.subset (hsub.subset hm), ?_⟩
  intro hnd
  have h1 : ((sort (FamMemberLt Piles) Fam).map (fun m => m.PileIndex)).Nodup :=
    ((hperm.map _).nodup_iff).2 hnd
  exact List.Nodup.sublist (hsub.map _) h1

/-! ### Helper lemmas: a second run of the filter on an emitted family -/

/-- The insertion sort on the reversed sequence keeps the promise of `std::sort`. -/
theorem reversingSort_isStdSort (Piles : PileTable) :
    IsStdSort reversingSort (FamMemberLt Piles) := by
  intro l
  obtain ⟨hp, hs⟩ := insertionSort_isStdSort Piles l.reverse
  exact ⟨hp.trans (List.reverse_perm l), hs⟩

theorem closeSubFam_map (cfg : Config) (cur : FamData) (out : FamList) :
    (closeSubFam cfg cur out).map (List.map clearRev) =
      closeSubFam cfg (cur.map clearRev) (out.map (List.map clearRev)) := by
  unfold closeSubFam
  rw [List.length_map]
  split_ifs
  · simp
  · rfl

/-- The walk reads only the pile indices: clearing the flags commutes with it. -/
theorem walkFrom_map (cfg : Config) (Piles : PileTable) :
    ∀ (rest : List FamMemberData) (m2 m1 : FamMemberData) (cur : FamData) (out : FamList),
      (walkFrom (fun _ => []) cfg Piles m2 m1 rest cur out).map (List.map clearRev) =
        walkFrom (fun _ => []) cfg Piles (clearRev m2) (clearRev m1) (rest.map clearRev)
          (cur.map clearRev) (out.map (List.map clearRev)) := by
  intro rest
  induction rest with
  | nil =>
    intro m2 m1 cur out
    simpa [walkFrom] using closeSubFam_map cfg cur out
  | cons m rest ih =>
    intro m2 m1 cur out
    have hg : gap Piles (clearRev m2) (clearRev m1) - gap Piles (clearRev m1) (clearRev m) =
        gap Piles m2 m1 - gap Piles m1 m := rfl
    rw [List.map_cons]
    unfold walkFrom
    rw [hg]
    by_cases hc : iabs (gap Piles m2 m1 - gap Piles m1 m) ≤ cfg.MAX_SPACE_DIFF
    · rw [if_pos hc, if_pos hc, ih]
      simp
    · rw [if_neg hc, if_neg hc, ih, closeSubFam_map]
      rfl

theorem walk_map (cfg : Config) (Piles : PileTable) (V : List FamMemberData)
    (out : FamList) :
    (walk (fun _ => []) cfg Piles V out).map (List.map clearRev) =
      walk (fun _ => []) cfg Piles (V.map clearRev) (out.map (List.map clearRev)) := by
  match V with
  | [] => exact closeSubFam_map cfg [] out
  | [a] => exact closeSubFam_map cfg [a] out
  | a :: b :: rest => exact walkFrom_map cfg Piles rest a b [a, b] out

/-- A sequence with the pile indices of a sequence that the walk leaves whole is left
whole too. -/
theorem walk_whole_of_same_piles (cfg : Config) (Piles : PileTable) (S S2 : FamData)
    (hpiles : S2.map (fun m => m.PileIndex) = S.map (fun m => m.PileIndex))
    (hlen : cfg.g_paramMinFamSize ≤ S.length)
    (hself : ∀ o, walk (fun _ => []) cfg Piles S o = closeSubFam cfg S o) :
    walk (fun _ => []) cfg Piles S2 [] = [S2] := by
  have hclear : S2.map clearRev = S.map clearRev := by
    have h := congrArg (List.map (fun p : Int => (⟨p, false⟩ : FamMemberData))) hpiles
    simpa [List.map_map, Function.comp, clearRev] using h
  have hS : walk (fun _ => []) cfg Piles S [] = [S] := by
    rw [hself]
    unfold closeSubFam
    rw [if_pos hlen]
    rfl
  have h1 : (walk (fun _ => []) cfg Piles S2 []).map (List.map clearRev) =
      [S.map clearRev] := by
    have e1 := walk_map cfg Piles S2 []
    have e2 := walk_map cfg Piles S []
    rw [List.map_nil] at e1 e2
    rw [e1, hclear, ← e2, hS]
    rfl
  have hsub := walk_flatten_sublist cfg Piles S2
  match hw : walk (fun _ => []) cfg Piles S2 [], h1, hsub with
  | [], h1, _ => simp at h1
  | [Y], h1, hsub =>
    simp only [List.map_cons, List.map_nil, List.cons.injEq, and_true] at h1
    simp only [List.flatten_cons, List.flatten_nil, List.append_nil] at hsub
    have hl : Y.length = S2.length := by
      have e1 := congrArg List.length h1
      have e2 := congrArg List.length hclear
      simp only [List.length_map] at e1 e2
      omega
    rw [hsub.eq_of_length hl]
  | Y :: Z :: tl, h1, _ => simp at h1

/-- Two arrangements of the same members, both in ascending `From` order, have the same
sequence of `From` values. -/
theorem sorted_same_From (Piles : PileTable) (A B : List FamMemberData) (hperm : A.Perm B)
    (hA : A.Pairwise (fun a b => FamMemberLt Piles b a = false))
    (hB : B.Pairwise (fun a b => FamMemberLt Piles b a = false)) :
    A.map (fun m => (Piles m.PileIndex).From) = B.map (fun m => (Piles m.PileIndex).From) := by
  have hA2 : (A.map (fun m => (Piles m.PileIndex).From)).Sorted (fun x y : Int => x ≤ y) := by
    rw [List.Sorted, List.pairwise_map]
    exact hA.imp (fun h => (FamMemberLt_eq_false_iff Piles _ _).1 h)
  have hB2 : (B.map (fun m => (Piles m.PileIndex).From)).Sorted (fun x y : Int => x ≤ y) := by
    rw [List.Sorted, List.pairwise_map]
    exact hB.imp (fun h => (FamMemberLt_eq_false_iff Piles _ _).1 h)
  exact List.eq_of_perm_of_sorted (hperm.map _) hA2 hB2

/-- When members with the same `From` name the same pile, two sequences of members with
the same `From` values name the same piles. -/
theorem same_piles_of_same_From (Piles : PileTable) (Fam : FamData)
    (hinj : ∀ a ∈ Fam, ∀ b ∈ Fam,
      (Piles a.PileIndex).From = (Piles b.PileIndex).From → a.PileIndex = b.PileIndex) :
    ∀ (A B : List FamMemberData), (∀ a ∈ A, a ∈ Fam) → (∀ b ∈ B, b ∈ Fam) →
      A.map (fun m => (Piles m.PileIndex).From) = B.map (fun m => (Piles m.PileIndex).From) →
      A.map (fun m => m.PileIndex) = B.map (fun m => m.PileIndex) := by
  intro A
  induction A with
  | nil =>
    intro B _ _ h
    cases B with
    | nil => rfl
    | cons b B => simp at h
  | cons a A ih =>
    intro B hA hB h
    cases B with
    | nil => simp at h
    | cons b B =>
      simp only [List.map_cons, List.cons.injEq] at h ⊢
      refine ⟨hinj a (hA a (List.mem_cons_self _ _)) b (hB b (List.mem_cons_self _ _)) h.1, ?_⟩
      exact ih B (fun x hx => hA x (List.mem_cons_of_mem _ hx))
        (fun x hx => hB x (List.mem_cons_of_mem _ hx)) h.2

/-- A family that names each pile once, on piles with distinct `From`, has members with
pairwise distinct `From`. -/
theorem nodup_From_of_nodup_piles (Piles : PileTable) (Fam : FamData)
    (hinj : ∀ a ∈ Fam, ∀ b ∈ Fam,
      (Piles a.PileIndex).From = (Piles b.PileIndex).From → a.PileIndex = b.PileIndex)
    (hnd : (Fam.map (fun m => m.PileIndex)).Nodup) :
    (Fam.map (fun m => (Piles m.PileIndex).From)).Nodup := by
  rw [List.Nodup, List.pairwise_map] at hnd ⊢
  have h2 : Fam.Pairwise (fun a b => a ∈ Fam ∧ b ∈ Fam) :=
    List.pairwise_of_forall_mem_list (fun a ha b hb => ⟨ha, hb⟩)
  refine (hnd.and h2).imp ?_
  intro a b h he
  exact h.1 (hinj a h.2.1 b h.2.2 he)

/-- On piles with distinct `From`, the filter run on a sub-family `S` that it emitted
emits one family: the sorted `S`, which has the members of `S` and names the same piles
in the same order. -/
theorem FilterCrispFam_emitted_again (sort : SortFn) (cfg : Config) (Piles : PileTable)
    (hsort : IsStdSort sort (FamMemberLt Piles)) (Fam : FamData)
    (hinj : ∀ a ∈ Fam, ∀ b ∈ Fam,
      (Piles a.PileIndex).From = (Piles b.PileIndex).From → a.PileIndex = b.PileIndex)
    (S : FamData) (hS : S ∈ FilterCrispFam sort cfg Piles Fam []) :
    ∃ S2 : FamData, FilterCrispFam sort cfg Piles S [] = [S2] ∧ S2.Perm S ∧
      S2.map (fun m => m.PileIndex) = S.map (fun m => m.PileIndex) := by
  obtain ⟨hpF, hsF⟩ := hsort Fam
  obtain ⟨hpS, hsS⟩ := hsort S
  rw [FilterCrispFam_eq_walk sort cfg Piles Fam [] hpF.length_eq] at hS
  rcases walk_emitted cfg Piles _ [] S hS with h | ⟨hsub, hlen, hself⟩
  · exact absurd h (List.not_mem_nil S)
  · have hSF : ∀ a ∈ S, a ∈ Fam := fun a ha => hpF.subset (hsub.subset ha)
    have hpiles : (sort (FamMemberLt Piles) S).map (fun m => m.PileIndex) =
        S.map (fun m => m.PileIndex) :=
      same_piles_of_same_From Piles Fam hinj _ S (fun a ha => hSF a (hpS.subset ha)) hSF
        (sorted_same_From Piles _ S hpS hsS (hsF.sublist hsub))
    refine ⟨sort (FamMemberLt Piles) S, ?_, hpS, hpiles⟩
    rw [FilterCrispFam_eq_walk sort cfg Piles S [] hpS.length_eq]
    exact walk_whole_of_same_piles cfg Piles S _ hpiles hlen hself

/-- A list of families each of which the filter answers with one related family is
answered, family by family, with related families. -/
theorem flatMap_singletons_related (g : FamData → FamList) (P : FamData → FamData → Prop) :
    ∀ l : FamList, (∀ S ∈ l, ∃ S2, g S = [S2] ∧ P S2 S) →
      List.Forall₂ P (l.flatMap g) l := by
  intro l
  induction l with
  | nil => intro _; exact List.Forall₂.nil
  | cons S l ih =>
    intro h
    obtain ⟨S2, hg, hP⟩ := h S (List.mem_cons_self _ _)
    rw [List.flatMap_cons, hg]
    exact List.Forall₂.cons hP (ih (fun T hT => h T (List.mem_cons_of_mem _ hT)))

/-! ### Helper lemmas: the scratch buffers of the edge finder -/

theorem AddEdges_eq (Edges : EdgeList) (PileIndex : Int) (Partners : Nat → Int)
    (PartnersRev : Nat → Bool) (PartnerCount : Nat) :
    AddEdges Edges PileIndex Partners PartnersRev PartnerCount =
      Edges ++ (List.range PartnerCount).map
        (fun i => { Node1 := PileIndex, Node2 := Partners i, Rev := PartnersRev i }) := by
  unfold AddEdges
  have h : ∀ (l : List Nat) (E : EdgeList),
      l.foldl (fun Edges i =>
        Edges ++ [({ Node1 := PileIndex, Node2 := Partners i, Rev := PartnersRev i } :
          EdgeData)]) E =
      E ++ l.map (fun i => { Node1 := PileIndex, Node2 := Partners i, Rev := PartnersRev i }) := by
    intro l
    induction l with
    | nil => intro E; simp
    | cons i l ih => intro E; rw [List.foldl_cons, ih]; simp
  exact h _ _

/-- The image loop appends, from slot `n` on, the partner index and the reverse flag of
every qualifying image, in stored order, and leaves the slots below `n` as they were. -/
theorem FindEdgesPile_loop (cfg : Config) (Piles : PileTable) (Pile : PileData) :
    ∀ (l : List Nat) (n : Nat) (P : Nat → Int) (R : Nat → Bool),
      let r := l.foldl (FindEdgesPileStep cfg Piles Pile) (n, P, R)
      (List.range r.1).map (fun i => (r.2.1 i, r.2.2 i)) =
        (List.range n).map (fun i => (P i, R i)) ++
          ((l.map Pile.Images).filter (imageQualifies cfg Piles Pile)).map
            (fun im => (im.SIPile, im.SIRev)) := by
  intro l
  induction l with
  | nil => intro n P R; simp
  | cons k l ih =>
    intro n P R
    simp only [List.foldl_cons, List.map_cons]
    by_cases hq : imageQualifies cfg Piles Pile (Pile.Images k) = true
    · have hstep : FindEdgesPileStep cfg Piles Pile (n, P, R) k =
          (n + 1, Function.update P n (Pile.Images k).SIPile,
            Function.update R n (Pile.Images k).SIRev) := by
        have hq2 := hq
        simp only [imageQualifies, pileLength, decide_eq_true_eq] at hq2
        unfold FindEdgesPileStep
        simp only [ge_iff_le]
        rw [if_pos hq2]
      rw [hstep, List.filter_cons_of_pos hq]
      have h := ih (n + 1) (Function.update P n (Pile.Images k).SIPile)
        (Function.update R n (Pile.Images k).SIRev)
      simp only at h
      rw [h, List.range_succ, List.map_append, List.map_cons, List.map_nil,
        List.append_assoc]
      congr 1
      · apply List.map_congr_left
        intro i hi
        have hne : i ≠ n := Nat.ne_of_lt (List.mem_range.1 hi)
        simp [Function.update_noteq hne]
      · simp
    · have hstep : FindEdgesPileStep cfg Piles Pile (n, P, R) k = (n, P, R) := by
        have hq2 := hq
        simp only [imageQualifies, pileLength, decide_eq_true_eq] at hq2
        unfold FindEdgesPileStep
        simp only [ge_iff_le]
        rw [if_neg hq2]
      rw [hstep, List.filter_cons_of_neg hq]
      exact ih n P R

/-- `FindEdgesPile` followed by `AddEdges` appends the edges of the pile. -/
theorem AddEdges_FindEdgesPile (cfg : Config) (Piles : PileTable) (p : Nat)
    (Edges : EdgeList) (P : Nat → Int) (R : Nat → Bool) :
    (let r := FindEdgesPile cfg Piles (Piles p) p P R
     AddEdges Edges p r.2.1 r.2.2 r.1) = Edges ++ specEdgesOfPile cfg Piles p := by
  simp only [AddEdges_eq]
  congr 1
  unfold FindEdgesPile specEdgesOfPile
  by_cases hl : cfg.MIN_CRISPR_LENGTH ≤ pileLength (Piles p) ∧
      pileLength (Piles p) ≤ cfg.MAX_CRISPR_LENGTH
  · have hl2 : ¬ ((Piles p).To - (Piles p).From + 1 < cfg.MIN_CRISPR_LENGTH ∨
        (Piles p).To - (Piles p).From + 1 > cfg.MAX_CRISPR_LENGTH) := by
      unfold pileLength at hl; omega
    rw [if_pos hl]
    simp only [hl2, if_false]
    have h := FindEdgesPile_loop cfg Piles (Piles p) (List.range (Piles p).ImageCount) 0 P R
    simp only [List.range_zero, List.map_nil, List.nil_append] at h
    have h2 := congrArg (List.map (fun (x : Int × Bool) =>
      ({ Node1 := (p : Int), Node2 := x.1, Rev := x.2 } : EdgeData))) h
    simp only [List.map_map] at h2
    exact h2
  · have hl2 : (Piles p).To - (Piles p).From + 1 < cfg.MIN_CRISPR_LENGTH ∨
        (Piles p).To - (Piles p).From + 1 > cfg.MAX_CRISPR_LENGTH := by
      unfold pileLength at hl; omega
    rw [if_neg hl]
    simp only [hl2, if_true, List.range_zero, List.map_nil]

/-- `FindCandEdges` computes the edge list of the pile table, whatever the scratch
buffers hold at the start. -/
theorem FindCandEdges_eq_spec (cfg : Config) (Piles : PileTable) (PileCount : Nat)
    (Edges : EdgeList) (MaxImageCount : Nat) (Partners : Nat → Int)
    (PartnersRev : Nat → Bool) :
    FindCandEdges cfg Piles PileCount Edges MaxImageCount Partners PartnersRev =
      specCandEdges cfg Piles PileCount := by
  unfold FindCandEdges specCandEdges
  have h : ∀ (l : List Nat) (E : EdgeList) (P : Nat → Int) (R : Nat → Bool),
      (l.foldl
        (fun (st : EdgeList × (Nat → Int) × (Nat → Bool)) (PileIndex : Nat) =>
          let Pile := Piles PileIndex
          let r := FindEdgesPile cfg Piles Pile PileIndex st.2.1 st.2.2
          (AddEdges st.1 PileIndex r.2.1 r.2.2 r.1, r.2.1, r.2.2))
        (E, P, R)).1 = E ++ l.flatMap (specEdgesOfPile cfg Piles) := by
    intro l
    induction l with
    | nil => intro E P R; simp
    | cons p l ih =>
      intro E P R
      rw [List.foldl_cons]
      have hA := AddEdges_FindEdgesPile cfg Piles p E P R
      simp only at hA
      simp only [hA]
      rw [ih]
      simp
  have h2 := h (List.range PileCount) [] Partners PartnersRev
  simpa using h2

/-- What an edge of the edge list is: a pile index below `PileCount` whose length is in
the window, and one of its images that qualifies. -/
theorem mem_specCandEdges (cfg : Config) (Piles : PileTable) (PileCount : Nat)
    (e : EdgeData) (he : e ∈ specCandEdges cfg Piles PileCount) :
    ∃ p k : Nat, p < PileCount ∧ k < (Piles p).ImageCount ∧
      e = { Node1 := (p : Int), Node2 := ((Piles p).Images k).SIPile,
            Rev := ((Piles p).Images k).SIRev } ∧
      imageQualifies cfg Piles (Piles p) ((Piles p).Images k) = true := by
  unfold specCandEdges at he
  rw [List.mem_flatMap] at he
  obtain ⟨p, hp, hmem⟩ := he
  unfold specEdgesOfPile at hmem
  split_ifs at hmem with hl
  · rw [List.mem_map] at hmem
    obtain ⟨im, him, rfl⟩ := hmem
    rw [List.mem_filter] at him
    obtain ⟨him1, him2⟩ := him
    unfold imagesOf at him1
    rw [List.mem_map] at him1
    obtain ⟨k, hk, rfl⟩ := him1
    exact ⟨p, k, List.mem_range.1 hp, List.mem_range.1 hk, rfl, him2⟩
  · exact absurd hmem (List.not_mem_nil e)

/-- Wider windows keep every edge: the edge list under the narrower windows is a sublist
of the edge list under the wider ones. -/
theorem specCandEdges_sublist (cfg cfg2 : Config) (Piles : PileTable) (PileCount : Nat)
    (hlen : ∀ x : Int, cfg.MIN_CRISPR_LENGTH ≤ x → x ≤ cfg.MAX_CRISPR_LENGTH →
      cfg2.MIN_CRISPR_LENGTH ≤ x ∧ x ≤ cfg2.MAX_CRISPR_LENGTH)
    (hsp : ∀ x : Int, cfg.MIN_SPACER_LENGTH ≤ x → x ≤ cfg.MAX_SPACER_LENGTH →
      cfg2.MIN_SPACER_LENGTH ≤ x ∧ x ≤ cfg2.MAX_SPACER_LENGTH) :
    (specCandEdges cfg Piles PileCount).Sublist (specCandEdges cfg2 Piles PileCount) := by
  unfold specCandEdges
  have hpile : ∀ p : Nat,
      (specEdgesOfPile cfg Piles p).Sublist (specEdgesOfPile cfg2 Piles p) := by
    intro p
    unfold specEdgesOfPile
    by_cases hl : cfg.MIN_CRISPR_LENGTH ≤ pileLength (Piles p) ∧
        pileLength (Piles p) ≤ cfg.MAX_CRISPR_LENGTH
    · rw [if_pos hl, if_pos (hlen _ hl.1 hl.2)]
      refine List.Sublist.map _ ?_
      apply List.monotone_filter_right
      intro im him
      simp only [imageQualifies, decide_eq_true_eq] at him ⊢
      obtain ⟨h1, h2, h3, h4⟩ := him
      exact ⟨(hlen _ h1 h2).1, (hlen _ h1 h2).2, (hsp _ h3 h4).1, (hsp _ h3 h4).2⟩
    · rw [if_neg hl]
      exact List.nil_sublist _
  generalize List.range PileCount = l
  induction l with
  | nil => simp
  | cons p l ih =>
    rw [List.flatMap_cons, List.flatMap_cons]
    exact List.Sublist.append (hpile p) ih

/-! ### Helper lemmas: `IdentifyPiles` -/

theorem forEachM_append {σ α : Type} (f : σ → α → Option σ) :
    ∀ (l l2 : List α) (s : σ),
      forEachM f s (l ++ l2) =
        match forEachM f s l with
        | none => none
        | some s2 => forEachM f s2 l2 := by
  intro l
  induction l with
  | nil => intro l2 s; rfl
  | cons a l ih =>
    intro l2 s
    simp only [List.cons_append, forEachM]
    cases f s a with
    | none => rfl
    | some s2 => exact ih l2 s2

theorem runCount_mono (b : Int → Bool) : ∀ (n m : Nat), n ≤ m → runCount b n ≤ runCount b m := by
  intro n m h
  induction m with
  | zero => have : n = 0 := by omega
            subst this; exact Nat.le_refl _
  | succ m ih =>
    rcases Nat.lt_or_ge n (m + 1) with h1 | h1
    · have := ih (by omega)
      simp only [runCount]
      omega
    · have : n = m + 1 := by omega
      subst this; exact Nat.le_refl _

theorem runCount_pos_of_covered (b : Int → Bool) :
    ∀ i : Nat, b i = true → 1 ≤ runCount b (i + 1) := by
  intro i
  induction i with
  | zero =>
    intro h
    have h0 : b 0 = true := by simpa using h
    simp [runCount, prevBit, h0]
  | succ k ih =>
    intro h
    have h : b ((k : Int) + 1) = true := by simpa using h
    by_cases hk : b (k : Int) = true
    · have := ih hk
      have := runCount_mono b (k + 1) (k + 1 + 1) (by omega)
      omega
    · have hk2 : b (k : Int) = false := by simpa using hk
      have : runCount b (k + 1 + 1) = runCount b (k + 1) + 1 := by
        conv_lhs => unfold runCount
        simp [prevBit, hk2, h]
      omega

/-- A covered chunk after an uncovered one lies in a later run. -/
theorem runCount_lt_of_gap (b : Int → Bool) (k : Nat) (hk : b (k : Int) = false) :
    ∀ j : Nat, k < j → b (j : Int) = true → runCount b (k + 1) < runCount b (j + 1) := by
  intro j
  induction j with
  | zero => intro h; omega
  | succ j ih =>
    intro hkj hj
    have hj : b ((j : Int) + 1) = true := by simpa using hj
    by_cases hj1 : b (j : Int) = true
    · have hne : k ≠ j := by
        intro h; subst h; rw [hk] at hj1; exact Bool.noConfusion hj1
      have := ih (by omega) hj1
      have := runCount_mono b (j + 1) (j + 1 + 1) (by omega)
      omega
    · have hj2 : b (j : Int) = false := by simpa using hj1
      have h1 : runCount b (j + 1 + 1) = runCount b (j + 1) + 1 := by
        conv_lhs => unfold runCount
        simp [prevBit, hj2, hj]
      have := runCount_mono b (k + 1) (j + 1) (by omega)
      omega

/-- Inside a run the count of runs does not move. -/
theorem runCount_eq_of_covered (b : Int → Bool) (i : Nat) :
    ∀ j : Nat, i ≤ j → (∀ k : Nat, i ≤ k → k ≤ j → b (k : Int) = true) →
      runCount b (j + 1) = runCount b (i + 1) := by
  intro j
  induction j with
  | zero => intro h _; have : i = 0 := by omega
            subst this; rfl
  | succ j ih =>
    intro hij hall
    rcases Nat.lt_or_ge i (j + 1) with h1 | h1
    · have h2 := ih (by omega) (fun k hk1 hk2 => hall k hk1 (by omega))
      have hj : b (j : Int) = true := hall j (by omega) (by omega)
      have h3 : runCount b (j + 1 + 1) = runCount b (j + 1) := by
        conv_lhs => unfold runCount
        simp [prevBit, hj]
      omega
    · have : i = j + 1 := by omega
      subst this; rfl

/-- Every run number below the count is the number of some covered chunk. -/
theorem runCount_surj (b : Int → Bool) :
    ∀ (n p : Nat), p < runCount b n →
      ∃ i : Nat, i < n ∧ b (i : Int) = true ∧ runCount b (i + 1) = p + 1 := by
  intro n
  induction n with
  | zero => intro p h; simp [runCount] at h
  | succ n ih =>
    intro p h
    by_cases hs : b (n : Int) = true ∧ prevBit b n = false
    · have h1 : runCount b (n + 1) = runCount b n + 1 := by
        conv_lhs => unfold runCount
        rw [if_pos hs]
      rcases Nat.lt_or_ge p (runCount b n) with h2 | h2
      · obtain ⟨i, hi, hb, hc⟩ := ih p h2
        exact ⟨i, by omega, hb, hc⟩
      · exact ⟨n, by omega, hs.1, by omega⟩
    · have h1 : runCount b (n + 1) = runCount b n := by
        conv_lhs => unfold runCount
        rw [if_neg hs, Nat.add_zero]
      obtain ⟨i, hi, hb, hc⟩ := ih p (by omega)
      exact ⟨i, by omega, hb, hc⟩

/-- The loop of `IdentifyPiles` over the chunks below `n`: it aborts exactly when the
number of a run would pass `MAX_STACK_INDEX`; otherwise `PileIndex` is the number of the
last run, `InPile` tells whether the chunk before `n` is covered, every covered chunk
holds the number of its run and every other entry is as before. -/
theorem IdentifyPiles_loop (MAX : Int) (b : Int → Bool) (PI0 : Int → Int) (hMAX : 0 ≤ MAX) :
    ∀ n : Nat,
      ((runCount b n : Int) > MAX + 1 →
        forEachM (IdentifyPilesStep MAX b)
          { PileIndexes := PI0, PileIndex := -1, InPile := false } (List.range n) = none) ∧
      ((runCount b n : Int) ≤ MAX + 1 →
        ∃ st, forEachM (IdentifyPilesStep MAX b)
            { PileIndexes := PI0, PileIndex := -1, InPile := false } (List.range n) = some st ∧
          st.PileIndex = (runCount b n : Int) - 1 ∧
          st.InPile = prevBit b n ∧
          (∀ i : Nat, i < n → b (i : Int) = true →
            st.PileIndexes (i : Int) = (runCount b (i + 1) : Int) - 1) ∧
          (∀ j : Int, (j < 0 ∨ (n : Int) ≤ j ∨ b j = false) → st.PileIndexes j = PI0 j)) := by
  intro n
  induction n with
  | zero =>
    refine ⟨fun h => ?_, fun _ => ⟨_, rfl, ?_, rfl, ?_, ?_⟩⟩
    · simp only [runCount] at h
      omega
    · simp [runCount]
    · intro i hi; omega
    · intro j _; rfl
  | succ n ih =>
    rw [List.range_succ, forEachM_append]
    have hrc : runCount b (n + 1) = runCount b n +
        (if b (n : Int) = true ∧ prevBit b n = false then 1 else 0) := rfl
    constructor
    · intro hgt
      by_cases hprev : (runCount b n : Int) > MAX + 1
      · rw [ih.1 hprev]
      · obtain ⟨st, hst, hPI, hIn, _, _⟩ := ih.2 (by omega)
        rw [hst]
        have hs : b (n : Int) = true ∧ prevBit b n = false := by
          by_contra hns
          rw [hrc, if_neg hns] at hgt
          omega
        rw [hrc, if_pos hs] at hgt
        simp only [forEachM, IdentifyPilesStep, BitIsSet, hs.1, hIn, hs.2, if_true,
          Bool.not_false]
        rw [if_pos (by omega)]
    · intro hle
      have hprev : (runCount b n : Int) ≤ MAX + 1 := by
        have := runCount_mono b n (n + 1) (by omega)
        omega
      obtain ⟨st, hst, hPI, hIn, hcov, hframe⟩ := ih.2 hprev
      rw [hst]
      by_cases hbn : b (n : Int) = true
      · by_cases hp : prevBit b n = false
        · have hrc2 : runCount b (n + 1) = runCount b n + 1 := by
            rw [hrc, if_pos ⟨hbn, hp⟩]
          have hok : ¬ (st.PileIndex + 1 > MAX) := by
            rw [hPI]; rw [hrc2] at hle; push_cast at hle; omega
          refine ⟨{ PileIndexes := Function.update st.PileIndexes n (st.PileIndex + 1),
                    PileIndex := st.PileIndex + 1, InPile := true }, ?_, ?_, ?_, ?_, ?_⟩
          · simp only [forEachM, IdentifyPilesStep, BitIsSet, hbn, hIn, hp, if_true,
              Bool.not_false]
            rw [if_neg hok]
          · simp only [hPI, hrc2]; push_cast; omega
          · simp [prevBit, hbn]
          · intro i hi hbi
            rcases Nat.lt_or_ge i n with h1 | h1
            · have hne : (i : Int) ≠ (n : Int) := by omega
              simp only [Function.update_noteq hne]
              exact hcov i h1 hbi
            · have : i = n := by omega
              subst this
              simp only [Function.update_same, hPI, hrc2]; push_cast; omega
          · intro j hj
            have hne : j ≠ (n : Int) := by
              rcases hj with h | h | h
              · omega
              · push_cast at h; omega
              · intro he; subst he; rw [hbn] at h; exact Bool.noConfusion h
            simp only [Function.update_noteq hne]
            refine hframe j ?_
            rcases hj with h | h | h
            · exact Or.inl h
            · push_cast at h; exact Or.inr (Or.inl (by omega))
            · exact Or.inr (Or.inr h)
        · have hp2 : prevBit b n = true := by simpa using hp
          have hrc2 : runCount b (n + 1) = runCount b n := by
            rw [hrc, if_neg (by simp [hp2])]
            rfl
          refine ⟨{ st with PileIndexes := Function.update st.PileIndexes n st.PileIndex },
            ?_, ?_, ?_, ?_, ?_⟩
          · simp [forEachM, IdentifyPilesStep, BitIsSet, hbn, hIn, hp2]
          · simp only [hPI, hrc2]
          · show st.InPile = b (n : Int)
            rw [hIn, hp2, hbn]
          · intro i hi hbi
            rcases Nat.lt_or_ge i n with h1 | h1
            · have hne : (i : Int) ≠ (n : Int) := by omega
              simp only [Function.update_noteq hne]
              exact hcov i h1 hbi
            · have : i = n := by omega
              subst this
              simp only [Function.update_same, hPI, hrc2]
          · intro j hj
            have hne : j ≠ (n : Int) := by
              rcases hj with h | h | h
              · omega
              · push_cast at h; omega
              · intro he; subst he; rw [hbn] at h; exact Bool.noConfusion h
            simp only [Function.update_noteq hne]
            refine hframe j ?_
            rcases hj with h | h | h
            · exact Or.inl h
            · push_cast at h; exact Or.inr (Or.inl (by omega))
            · exact Or.inr (Or.inr h)
      · have hbn2 : b (n : Int) = false := by simpa using hbn
        have hrc2 : runCount b (n + 1) = runCount b n := by
          rw [hrc, if_neg (by simp [hbn2])]
          rfl
        refine ⟨{ st with InPile := false }, ?_, ?_, ?_, ?_, ?_⟩
        · simp [forEachM, IdentifyPilesStep, BitIsSet, hbn2]
        · simp only [hPI, hrc2]
        · simp [prevBit, hbn2]
        · intro i hi hbi
          rcases Nat.lt_or_ge i n with h1 | h1
          · exact hcov i h1 hbi
          · have : i = n := by omega
            subst this
            rw [hbn2] at hbi; exact Bool.noConfusion hbi
        · intro j hj
          by_cases he : j = (n : Int)
          · subst he
            refine hframe _ (Or.inr (Or.inl (le_refl _)))
          · refine hframe j ?_
            rcases hj with h | h | h
            · exact Or.inl h
            · push_cast at h; exact Or.inr (Or.inl (by omega))
            · exact Or.inr (Or.inr h)

/-- `IdentifyPiles` in closed form. -/
theorem IdentifyPiles_spec (MAX : Int) (N : Nat) (b : Int → Bool) (PI0 : Int → Int)
    (hMAX : 0 ≤ MAX) :
    ((runCount b N : Int) > MAX + 1 → IdentifyPiles MAX N b PI0 = none) ∧
    ((runCount b N : Int) ≤ MAX + 1 →
      ∃ PI : Int → Int, IdentifyPiles MAX N b PI0 = some (PI, runCount b N) ∧
        (∀ i : Nat, i < N → b (i : Int) = true →
          PI (i : Int) = (runCount b (i + 1) : Int) - 1) ∧
        (∀ j : Int, (j < 0 ∨ (N : Int) ≤ j ∨ b j = false) → PI j = PI0 j)) := by
  obtain ⟨h1, h2⟩ := IdentifyPiles_loop MAX b PI0 hMAX N
  constructor
  · intro h
    unfold IdentifyPiles
    rw [h1 h]
  · intro h
    obtain ⟨st, hst, hPI, _, hcov, hframe⟩ := h2 h
    refine ⟨st.PileIndexes, ?_, hcov, hframe⟩
    unfold IdentifyPiles
    rw [hst]
    show some (st.PileIndexes, (st.PileIndex + 1).toNat) = _
    rw [hPI]
    simp

/-- What a successful `IdentifyPiles` returns. -/
theorem IdentifyPiles_some (MAX : Int) (N : Nat) (b : Int → Bool) (PI0 PI : Int → Int)
    (PileCount : Nat) (hMAX : 0 ≤ MAX)
    (h : IdentifyPiles MAX N b PI0 = some (PI, PileCount)) :
    PileCount = runCount b N ∧
    (∀ i : Nat, i < N → b (i : Int) = true →
      PI (i : Int) = (runCount b (i + 1) : Int) - 1) ∧
    (∀ j : Int, (j < 0 ∨ (N : Int) ≤ j ∨ b j = false) → PI j = PI0 j) := by
  obtain ⟨h1, h2⟩ := IdentifyPiles_spec MAX N b PI0 hMAX
  by_cases hc : (runCount b N : Int) ≤ MAX + 1
  · obtain ⟨PI2, he, hcov, hframe⟩ := h2 hc
    rw [he] at h
    simp only [Option.some.injEq, Prod.mk.injEq] at h
    obtain ⟨rfl, rfl⟩ := h
    exact ⟨rfl, hcov, hframe⟩
  · rw [h1 (by omega)] at h
    exact Option.noConfusion h

/-- The pile index of a covered chunk is a valid pile index. -/
theorem runCount_index_range (b : Int → Bool) (N i : Nat) (hi : i < N)
    (hb : b (i : Int) = true) :
    0 ≤ (runCount b (i + 1) : Int) - 1 ∧
      (runCount b (i + 1) : Int) - 1 < (runCount b N : Int) := by
  have h1 := runCount_pos_of_covered b i hb
  have h2 := runCount_mono b (i + 1) N (by omega)
  omega

/-- Two covered chunks have the same run number exactly when every chunk between them is
covered. -/
theorem runCount_eq_iff (b : Int → Bool) (i j : Nat) (hij : i ≤ j)
    (_hi : b (i : Int) = true) (hj : b (j : Int) = true) :
    runCount b (i + 1) = runCount b (j + 1) ↔
      ∀ k : Nat, i ≤ k → k ≤ j → b (k : Int) = true := by
  constructor
  · intro he k hk1 hk2
    by_contra hk
    have hk3 : b (k : Int) = false := by simpa using hk
    have hne : k ≠ j := by
      intro h; subst h; rw [hj] at hk3; exact Bool.noConfusion hk3
    have h1 := runCount_lt_of_gap b k hk3 j (by omega) hj
    have h2 := runCount_mono b (i + 1) (k + 1) (by omega)
    omega
  · intro hall
    exact (runCount_eq_of_covered b i j hij hall).symm

/-! ### Helper lemmas: the coverage bitmap -/

theorem mem_intRange (lo hi i : Int) : i ∈ intRange lo hi ↔ lo ≤ i ∧ i ≤ hi := by
  unfold intRange
  rw [List.mem_map]
  constructor
  · rintro ⟨k, hk, rfl⟩
    rw [List.mem_range] at hk
    omega
  · rintro ⟨h1, h2⟩
    refine ⟨(i - lo).toNat, ?_, ?_⟩
    · rw [List.mem_range]; omega
    · omega

theorem foldl_SetBit (l : List Int) :
    ∀ (b : Int → Bool) (i : Int), (l.foldl SetBit b) i = true ↔ b i = true ∨ i ∈ l := by
  induction l with
  | nil => intro b i; simp
  | cons a l ih =>
    intro b i
    rw [List.foldl_cons, ih, List.mem_cons]
    unfold SetBit
    by_cases h : i = a
    · subst h; simp
    · simp [Function.update_noteq h, h]

/-- `IncCopyCountImage` on an interval with `0 ≤ From ≤ To`: no abort, and the bits set
afterwards are the bits set before and the clamped chunk range of the interval. -/
theorem IncCopyCountImage_spec (C : Int) (N : Nat) (b : Int → Bool) (From To : Int)
    (hC : 0 < C) (_hN : 1 ≤ N) (h0 : 0 ≤ From) (hFT : From ≤ To) :
    ∃ b2 : Int → Bool, IncCopyCountImage C N b From To = some b2 ∧
      ∀ i : Int, b2 i = true ↔
        (b i = true ∨
          (min (From / C) ((N : Int) - 1) ≤ i ∧ i ≤ min (To / C) ((N : Int) - 1))) := by
  have hf : Int.tdiv From C = From / C := Int.tdiv_eq_ediv h0 (le_of_lt hC)
  have ht : Int.tdiv To C = To / C := Int.tdiv_eq_ediv (le_trans h0 hFT) (le_of_lt hC)
  have hle : From / C ≤ To / C := Int.ediv_le_ediv hC hFT
  have hcf : (if From / C ≥ (N : Int) then (N : Int) - 1 else From / C) =
      min (From / C) ((N : Int) - 1) := by
    split_ifs with h
    · rw [min_eq_right (by omega)]
    · rw [min_eq_left (by omega)]
  have hct : (if To / C ≥ (N : Int) then (N : Int) - 1 else To / C) =
      min (To / C) ((N : Int) - 1) := by
    split_ifs with h
    · rw [min_eq_right (by omega)]
    · rw [min_eq_left (by omega)]
  have hmin : ¬ (min (From / C) ((N : Int) - 1) > min (To / C) ((N : Int) - 1)) := by
    have := min_le_min_right ((N : Int) - 1) hle
    omega
  refine ⟨(intRange (min (From / C) ((N : Int) - 1))
      (min (To / C) ((N : Int) - 1))).foldl SetBit b, ?_, ?_⟩
  · unfold IncCopyCountImage
    rw [if_neg (by omega)]
    simp only [hf, ht, hcf, hct]
    rw [if_neg hmin]
  · intro i
    rw [foldl_SetBit, mem_intRange]

/-- `IncCopyCount` on a hit whose two intervals have `0 ≤ From ≤ To`: no abort, no bit
cleared, and the bits set afterwards are the bits set before and the clamped chunk
ranges of the two intervals. -/
theorem IncCopyCount_spec (C : Int) (N : Nat) (b : Int → Bool) (Hit : HitData)
    (hC : 0 < C) (hN : 1 ≤ N)
    (hq0 : 0 ≤ Hit.QueryFrom) (hq : Hit.QueryFrom ≤ Hit.QueryTo)
    (ht0 : 0 ≤ Hit.TargetFrom) (ht : Hit.TargetFrom ≤ Hit.TargetTo) :
    ∃ b2 : Int → Bool, IncCopyCount C N b Hit = some b2 ∧
      ∀ i : Int, b2 i = true ↔
        (b i = true ∨
          (min (Hit.TargetFrom / C) ((N : Int) - 1) ≤ i ∧
            i ≤ min (Hit.TargetTo / C) ((N : Int) - 1)) ∨
          (min (Hit.QueryFrom / C) ((N : Int) - 1) ≤ i ∧
            i ≤ min (Hit.QueryTo / C) ((N : Int) - 1))) := by
  obtain ⟨b1, h1, hb1⟩ := IncCopyCountImage_spec C N b Hit.TargetFrom Hit.TargetTo hC hN ht0 ht
  obtain ⟨b2, h2, hb2⟩ := IncCopyCountImage_spec C N b1 Hit.QueryFrom Hit.QueryTo hC hN hq0 hq
  refine ⟨b2, ?_, ?_⟩
  · unfold IncCopyCount
    rw [h1]
    exact h2
  · intro i
    rw [hb2, hb1, or_assoc]

/-! ### Helper lemmas: loops with abort and the pile table -/

/-- An invariant that every successful step carries from the elements done so far to the
next one holds at the end of a successful loop. -/
theorem forEachM_induct {σ α : Type} (f : σ → α → Option σ) (Inv : List α → σ → Prop)
    (Q : α → Prop)
    (hstep : ∀ (pre : List α) (a : α) (s s2 : σ), Q a → Inv pre s → f s a = some s2 →
      Inv (pre ++ [a]) s2) :
    ∀ (l pre : List α) (s s2 : σ), (∀ a ∈ l, Q a) → Inv pre s → forEachM f s l = some s2 →
      Inv (pre ++ l) s2 := by
  intro l
  induction l with
  | nil =>
    intro pre s s2 _ hinv h
    simp only [forEachM, Option.some.injEq] at h
    subst h
    simpa using hinv
  | cons a l ih =>
    intro pre s s2 hQ hinv h
    simp only [forEachM] at h
    cases hfa : f s a with
    | none => rw [hfa] at h; exact Option.noConfusion h
    | some s1 =>
      rw [hfa] at h
      have h1 := hstep pre a s s1 (hQ a (List.mem_cons_self _ _)) hinv hfa
      have h2 := ih (pre ++ [a]) s1 s2 (fun x hx => hQ x (List.mem_cons_of_mem _ hx)) h1 h
      simpa using h2

/-- A loop whose every step succeeds under the invariant succeeds, and the invariant
holds at the end. -/
theorem forEachM_progress {σ α : Type} (f : σ → α → Option σ) (Inv : List α → σ → Prop)
    (Q : α → Prop)
    (hstep : ∀ (pre : List α) (a : α) (s : σ), Q a → Inv pre s →
      ∃ s2, f s a = some s2 ∧ Inv (pre ++ [a]) s2) :
    ∀ (l pre : List α) (s : σ), (∀ a ∈ l, Q a) → Inv pre s →
      ∃ s2, forEachM f s l = some s2 ∧ Inv (pre ++ l) s2 := by
  intro l
  induction l with
  | nil =>
    intro pre s _ hinv
    exact ⟨s, rfl, by simpa using hinv⟩
  | cons a l ih =>
    intro pre s hQ hinv
    obtain ⟨s1, hfa, h1⟩ := hstep pre a s (hQ a (List.mem_cons_self _ _)) hinv
    obtain ⟨s2, h2, h3⟩ := ih (pre ++ [a]) s1 (fun x hx => hQ x (List.mem_cons_of_mem _ hx)) h1
    refine ⟨s2, ?_, by simpa using h3⟩
    simp only [forEachM, hfa]
    exact h2

theorem modifyPile_apply (Piles : PileTable) (i : Int) (f : PileData → PileData) (p : Int) :
    modifyPile Piles i f p = if p = i then f (Piles p) else Piles p := by
  unfold modifyPile
  by_cases h : p = i
  · subst h; simp
  · simp [Function.update_noteq h, h]

/-- A loop that applies an idempotent update to the piles of a list of indices applies it
once to each of them and leaves the others. -/
theorem foldl_modifyPile (f : PileData → PileData) (hf : ∀ P, f (f P) = f P) :
    ∀ (l : List Nat) (Piles : PileTable) (p : Int),
      (l.foldl (fun Piles (i : Nat) => modifyPile Piles i f) Piles) p =
        if ∃ i ∈ l, (i : Int) = p then f (Piles p) else Piles p := by
  intro l
  induction l with
  | nil => intro Piles p; simp
  | cons a l ih =>
    intro Piles p
    rw [List.foldl_cons, ih, modifyPile_apply]
    by_cases ha : p = (a : Int)
    · subst ha
      simp [hf]
    · have ha2 : ¬ ((a : Int) = p) := fun h => ha h.symm
      simp [ha, ha2]

theorem CreatePilesInit_ImageCount (PileCount : Nat) (p : Int) :
    (CreatePilesInit PileCount p).ImageCount = 0 := by
  unfold CreatePilesInit
  rw [foldl_modifyPile initPile (fun P => rfl)]
  split_ifs <;> rfl

theorem CreatePilesReset_apply (PileCount : Nat) (Piles : PileTable) (p : Int)
    (h0 : 0 ≤ p) (h1 : p < (PileCount : Int)) :
    CreatePilesReset PileCount Piles p = resetPile (Piles p) := by
  unfold CreatePilesReset
  rw [foldl_modifyPile resetPile (fun P => rfl)]
  rw [if_pos ⟨p.toNat, List.mem_range.2 (by omega), by omega⟩]

theorem imagesOf_pushImage (im : PileImageData) (P : PileData) :
    imagesOf (pushImage im P) = imagesOf P ++ [im] := by
  unfold imagesOf pushImage
  simp only [List.range_succ, List.map_append, List.map_cons, List.map_nil,
    Function.update_same]
  congr 1
  apply List.map_congr_left
  intro i hi
  have hne : i ≠ P.ImageCount := Nat.ne_of_lt (List.mem_range.1 hi)
  simp [Function.update_noteq hne]

theorem imagesOf_setFrom (x : Int) (P : PileData) : imagesOf (setFrom x P) = imagesOf P := by
  unfold setFrom
  split_ifs <;> rfl

theorem imagesOf_setTo (x : Int) (P : PileData) : imagesOf (setTo x P) = imagesOf P := by
  unfold setTo
  split_ifs <;> rfl

/-- One pass of the fill loop in closed form: the four assertions held, and every pile
is the old pile with the pushes and the extent updates of the hit that concern it. -/
theorem CreatePilesFillStep_some (C : Int) (PI : Int → Int) (PileCount : Nat)
    (Piles Piles2 : PileTable) (Hit : HitData)
    (h : CreatePilesFillStep C PI PileCount Piles Hit = some Piles2) :
    (0 ≤ PI (Int.tdiv Hit.QueryFrom C) ∧ PI (Int.tdiv Hit.QueryFrom C) < (PileCount : Int)) ∧
    (0 ≤ PI (Int.tdiv Hit.TargetFrom C) ∧ PI (Int.tdiv Hit.TargetFrom C) < (PileCount : Int)) ∧
    ∀ p : Int, Piles2 p =
      (if p = PI (Int.tdiv Hit.TargetFrom C) then
        setTo Hit.TargetTo ∘ setFrom Hit.TargetFrom else id)
      ((if p = PI (Int.tdiv Hit.QueryFrom C) then
        setTo Hit.QueryTo ∘ setFrom Hit.QueryFrom else id)
      ((if p = PI (Int.tdiv Hit.TargetFrom C) then
        pushImage ⟨Hit.QueryTo - Hit.QueryFrom, PI (Int.tdiv Hit.QueryFrom C), Hit.Rev⟩
        else id)
      ((if p = PI (Int.tdiv Hit.QueryFrom C) then
        pushImage ⟨Hit.TargetTo - Hit.TargetFrom, PI (Int.tdiv Hit.TargetFrom C), Hit.Rev⟩
        else id) (Piles p)))) := by
  unfold CreatePilesFillStep at h
  simp only at h
  split_ifs at h with h1 h2 h3 h4
  simp only [Option.some.injEq] at h
  subst h
  refine ⟨by omega, by omega, ?_⟩
  intro p
  simp only [modifyPile_apply]
  by_cases hp1 : p = PI (Int.tdiv Hit.QueryFrom C)
  · by_cases hp2 : p = PI (Int.tdiv Hit.TargetFrom C)
    · simp only [eq_true hp1, eq_true hp2, if_true, Function.comp_apply]
    · simp only [eq_true hp1, eq_false hp2, if_true, if_false, Function.comp_apply, id]
  · by_cases hp2 : p = PI (Int.tdiv Hit.TargetFrom C)
    · simp only [eq_false hp1, eq_true hp2, if_true, if_false, Function.comp_apply, id]
    · simp only [eq_false hp1, eq_false hp2, if_false, id]

/-- One pass of the fill loop appends to the images of a pile the image of the hit's
target side when the pile owns the query interval, then the image of the query side when
it owns the target interval. -/
theorem CreatePilesFillStep_images (C : Int) (PI : Int → Int) (PileCount : Nat)
    (Piles Piles2 : PileTable) (Hit : HitData)
    (h : CreatePilesFillStep C PI PileCount Piles Hit = some Piles2) (p : Int) :
    imagesOf (Piles2 p) = imagesOf (Piles p) ++
      (if p = PI (Int.tdiv Hit.QueryFrom C) then
        [⟨Hit.TargetTo - Hit.TargetFrom, PI (Int.tdiv Hit.TargetFrom C), Hit.Rev⟩] else []) ++
      (if p = PI (Int.tdiv Hit.TargetFrom C) then
        [⟨Hit.QueryTo - Hit.QueryFrom, PI (Int.tdiv Hit.QueryFrom C), Hit.Rev⟩] else []) := by
  obtain ⟨_, _, hcl⟩ := CreatePilesFillStep_some C PI PileCount Piles Piles2 Hit h
  rw [hcl p]
  by_cases hp1 : p = PI (Int.tdiv Hit.QueryFrom C)
  · by_cases hp2 : p = PI (Int.tdiv Hit.TargetFrom C)
    · simp only [eq_true hp1, eq_true hp2, if_true, Function.comp_apply, imagesOf_setTo,
        imagesOf_setFrom, imagesOf_pushImage]
    · simp only [eq_true hp1, eq_false hp2, if_true, if_false, Function.comp_apply, id,
        imagesOf_setTo, imagesOf_setFrom, imagesOf_pushImage, List.append_nil]
  · by_cases hp2 : p = PI (Int.tdiv Hit.TargetFrom C)
    · simp only [eq_false hp1, eq_true hp2, if_true, if_false, Function.comp_apply, id,
        imagesOf_setTo, imagesOf_setFrom, imagesOf_pushImage, List.append_nil]
    · simp only [eq_false hp1, eq_false hp2, if_false, id, List.append_nil]

/-- A successful `CreatePiles` is a successful counting loop, allocation loop and fill
loop. -/
theorem CreatePiles_some (C : Int) (PI : Int → Int) (PileCount : Nat) (Hits : List HitData)
    (Piles : PileTable) (h : CreatePiles C PI PileCount Hits = some Piles) :
    ∃ T1 T2 : PileTable, CreatePilesCount C PI PileCount Hits = some T1 ∧
      CreatePilesAlloc PileCount T1 = some T2 ∧
      CreatePilesFill C PI PileCount T2 Hits = some Piles := by
  unfold CreatePiles at h
  cases h1 : CreatePilesCount C PI PileCount Hits with
  | none => rw [h1] at h; exact Option.noConfusion h
  | some T1 =>
    rw [h1] at h
    simp only at h
    cases h2 : CreatePilesAlloc PileCount T1 with
    | none => rw [h2] at h; exact Option.noConfusion h
    | some T2 =>
      rw [h2] at h
      exact ⟨T1, T2, rfl, h2, h⟩

/-- The images of the piles below `PileCount` are symmetric after the fill loop. -/
theorem CreatePilesFill_symmetric (C : Int) (PI : Int → Int) (PileCount : Nat)
    (T Piles : PileTable) (Hits : List HitData)
    (h : CreatePilesFill C PI PileCount T Hits = some Piles) :
    ∀ p : Int, 0 ≤ p → p < (PileCount : Int) → ∀ im ∈ imagesOf (Piles p),
      (0 ≤ im.SIPile ∧ im.SIPile < (PileCount : Int)) ∧
      ∃ im2 ∈ imagesOf (Piles im.SIPile), im2.SIPile = p ∧ im2.SIRev = im.SIRev := by
  unfold CreatePilesFill at h
  have hinv := forEachM_induct (CreatePilesFillStep C PI PileCount)
    (fun _ (S : PileTable) => ∀ p : Int, 0 ≤ p → p < (PileCount : Int) →
      ∀ im ∈ imagesOf (S p),
        (0 ≤ im.SIPile ∧ im.SIPile < (PileCount : Int)) ∧
        ∃ im2 ∈ imagesOf (S im.SIPile), im2.SIPile = p ∧ im2.SIRev = im.SIRev)
    (fun _ => True) ?_ Hits [] (CreatePilesReset PileCount T) Piles (fun _ _ => trivial) ?_ h
  · exact hinv
  · intro pre Hit S S2 _ hS hstep p hp0 hp1 im him
    obtain ⟨hr1, hr2, _⟩ := CreatePilesFillStep_some C PI PileCount S S2 Hit hstep
    have himg := CreatePilesFillStep_images C PI PileCount S S2 Hit hstep
    have hold : ∀ q : Int, ∀ x ∈ imagesOf (S q), x ∈ imagesOf (S2 q) := by
      intro q x hx
      rw [himg q]
      exact List.mem_append_left _ (List.mem_append_left _ hx)
    rw [himg p] at him
    rcases List.mem_append.1 him with him1 | him1
    · rcases List.mem_append.1 him1 with him2 | him2
      · obtain ⟨hrange, im2, him2a, him2b⟩ := hS p hp0 hp1 im him2
        exact ⟨hrange, im2, hold _ im2 him2a, him2b⟩
      · split_ifs at him2 with hpq
        · rw [List.mem_singleton] at him2
          subst him2
          refine ⟨hr2, ⟨Hit.QueryTo - Hit.QueryFrom, PI (Int.tdiv Hit.QueryFrom C), Hit.Rev⟩,
            ?_, hpq.symm, rfl⟩
          rw [himg]
          simp
        · exact absurd him2 (List.not_mem_nil im)
    · split_ifs at him1 with hpq
      · rw [List.mem_singleton] at him1
        subst him1
        refine ⟨hr1, ⟨Hit.TargetTo - Hit.TargetFrom, PI (Int.tdiv Hit.TargetFrom C), Hit.Rev⟩,
          ?_, hpq.symm, rfl⟩
        rw [himg]
        simp
      · exact absurd him1 (List.not_mem_nil im)
  · intro p hp0 hp1 im him
    rw [CreatePilesReset_apply PileCount T p hp0 hp1] at him
    exact absurd him (List.not_mem_nil im)

/-! ### Helper lemmas: the extent of a pile -/

theorem setFrom_From (x : Int) (P : PileData) :
    (setFrom x P).From = if P.From = -1 ∨ x < P.From then x else P.From := by
  unfold setFrom
  split_ifs <;> rfl

theorem setFrom_To (x : Int) (P : PileData) : (setFrom x P).To = P.To := by
  unfold setFrom
  split_ifs <;> rfl

theorem setTo_To (x : Int) (P : PileData) :
    (setTo x P).To = if P.To = -1 ∨ x > P.To then x else P.To := by
  unfold setTo
  split_ifs <;> rfl

theorem setTo_From (x : Int) (P : PileData) : (setTo x P).From = P.From := by
  unfold setTo
  split_ifs <;> rfl

/-- Adding an interval with coordinates `≥ 0` to a pile whose extent is the hull of the
intervals before (or the sentinel pair when there is none) gives the hull again. -/
theorem hull_step (F T : Int) (ivs : List (Int × Int)) (f t : Int)
    (hnn : ∀ iv ∈ ivs, 0 ≤ iv.1 ∧ 0 ≤ iv.2) (_hf : 0 ≤ f) (_ht : 0 ≤ t)
    (h : (ivs = [] ∧ F = -1 ∧ T = -1) ∨ IsHullOf F T ivs) :
    IsHullOf (if F = -1 ∨ f < F then f else F) (if T = -1 ∨ t > T then t else T)
      (ivs ++ [(f, t)]) := by
  rcases h with ⟨rfl, rfl, rfl⟩ | ⟨hall, ⟨ivF, hivF, hF⟩, ⟨ivT, hivT, hT⟩⟩
  · simp [IsHullOf]
  · have hF0 : F ≠ -1 := by have := (hnn ivF hivF).1; omega
    have hT0 : T ≠ -1 := by have := (hnn ivT hivT).2; omega
    refine ⟨?_, ?_, ?_⟩
    · intro iv hiv
      rcases List.mem_append.1 hiv with h1 | h1
      · have := hall iv h1
        split_ifs <;> omega
      · rw [List.mem_singleton] at h1
        subst h1
        simp only
        split_ifs <;> omega
    · by_cases hc : F = -1 ∨ f < F
      · rw [if_pos hc]
        exact ⟨(f, t), by simp, rfl⟩
      · rw [if_neg hc]
        exact ⟨ivF, List.mem_append_left _ hivF, hF⟩
    · by_cases hc : T = -1 ∨ t > T
      · rw [if_pos hc]
        exact ⟨(f, t), by simp, rfl⟩
      · rw [if_neg hc]
        exact ⟨ivT, List.mem_append_left _ hivT, hT⟩

theorem intervalsOf_append (C : Int) (PI : Int → Int) (pre : List HitData) (Hit : HitData)
    (p : Int) :
    intervalsOf C PI (pre ++ [Hit]) p = intervalsOf C PI pre p ++
      ((if PI (Int.tdiv Hit.QueryFrom C) = p then [(Hit.QueryFrom, Hit.QueryTo)] else []) ++
       (if PI (Int.tdiv Hit.TargetFrom C) = p then [(Hit.TargetFrom, Hit.TargetTo)] else [])) := by
  unfold intervalsOf
  simp [List.flatMap_append]

/-- After the fill loop the extent of every pile below `PileCount` is the hull of the
intervals that resolve to it, or the sentinel pair when none does. -/
theorem CreatePilesFill_hull (C : Int) (PI : Int → Int) (PileCount : Nat)
    (T Piles : PileTable) (Hits : List HitData)
    (hcoord : ∀ Hit ∈ Hits, 0 ≤ Hit.QueryFrom ∧ 0 ≤ Hit.QueryTo ∧
      0 ≤ Hit.TargetFrom ∧ 0 ≤ Hit.TargetTo)
    (h : CreatePilesFill C PI PileCount T Hits = some Piles) :
    ∀ p : Int, 0 ≤ p → p < (PileCount : Int) →
      ((intervalsOf C PI Hits p = [] ∧ (Piles p).From = -1 ∧ (Piles p).To = -1) ∨
        IsHullOf (Piles p).From (Piles p).To (intervalsOf C PI Hits p)) ∧
      ∀ iv ∈ intervalsOf C PI Hits p, 0 ≤ iv.1 ∧ 0 ≤ iv.2 := by
  unfold CreatePilesFill at h
  have hinv := forEachM_induct (CreatePilesFillStep C PI PileCount)
    (fun pre (S : PileTable) => ∀ p : Int, 0 ≤ p → p < (PileCount : Int) →
      ((intervalsOf C PI pre p = [] ∧ (S p).From = -1 ∧ (S p).To = -1) ∨
        IsHullOf (S p).From (S p).To (intervalsOf C PI pre p)) ∧
      ∀ iv ∈ intervalsOf C PI pre p, 0 ≤ iv.1 ∧ 0 ≤ iv.2)
    (fun Hit => 0 ≤ Hit.QueryFrom ∧ 0 ≤ Hit.QueryTo ∧ 0 ≤ Hit.TargetFrom ∧ 0 ≤ Hit.TargetTo)
    ?_ Hits [] (CreatePilesReset PileCount T) Piles hcoord ?_ h
  · simpa using hinv
  · intro pre Hit S S2 hQ hS hstep p hp0 hp1
    obtain ⟨hq0, hq1, ht0, ht1⟩ := hQ
    obtain ⟨_, _, hcl⟩ := CreatePilesFillStep_some C PI PileCount S S2 Hit hstep
    obtain ⟨hhull, hnn⟩ := hS p hp0 hp1
    rw [intervalsOf_append, hcl p, ← List.append_assoc]
    by_cases hp1 : p = PI (Int.tdiv Hit.QueryFrom C)
    · have hp1s : PI (Int.tdiv Hit.QueryFrom C) = p := hp1.symm
      have hA := hull_step _ _ _ Hit.QueryFrom Hit.QueryTo hnn hq0 hq1 hhull
      have hnnA : ∀ iv ∈ intervalsOf C PI pre p ++ [(Hit.QueryFrom, Hit.QueryTo)],
          0 ≤ iv.1 ∧ 0 ≤ iv.2 := by
        intro iv hiv
        rcases List.mem_append.1 hiv with h1 | h1
        · exact hnn iv h1
        · rw [List.mem_singleton] at h1; subst h1; exact ⟨hq0, hq1⟩
      by_cases hp2 : p = PI (Int.tdiv Hit.TargetFrom C)
      · have hp2s : PI (Int.tdiv Hit.TargetFrom C) = p := hp2.symm
        have hB := hull_step _ _ _ Hit.TargetFrom Hit.TargetTo hnnA ht0 ht1 (Or.inr hA)
        simp only [eq_true hp1, eq_true hp2, eq_true hp1s, eq_true hp2s, if_true,
          Function.comp_apply, setTo_To, setTo_From, setFrom_From, setFrom_To]
        refine ⟨Or.inr ?_, ?_⟩
        · exact hB
        · intro iv hiv
          rcases List.mem_append.1 hiv with h1 | h1
          · exact hnnA iv h1
          · rw [List.mem_singleton] at h1; subst h1; exact ⟨ht0, ht1⟩
      · have hp2s : ¬ (PI (Int.tdiv Hit.TargetFrom C) = p) := fun h => hp2 h.symm
        simp only [eq_true hp1, eq_false hp2, eq_true hp1s, eq_false hp2s, if_true, if_false,
          Function.comp_apply, id, setTo_To, setTo_From, setFrom_From, setFrom_To,
          List.append_nil]
        exact ⟨Or.inr hA, hnnA⟩
    · have hp1s : ¬ (PI (Int.tdiv Hit.QueryFrom C) = p) := fun h => hp1 h.symm
      by_cases hp2 : p = PI (Int.tdiv Hit.TargetFrom C)
      · have hp2s : PI (Int.tdiv Hit.TargetFrom C) = p := hp2.symm
        have hB := hull_step _ _ _ Hit.TargetFrom Hit.TargetTo hnn ht0 ht1 hhull
        simp only [eq_false hp1, eq_true hp2, eq_false hp1s, eq_true hp2s, if_true, if_false,
          Function.comp_apply, id, setTo_To, setTo_From, setFrom_From, setFrom_To,
          List.append_nil]
        refine ⟨Or.inr hB, ?_⟩
        intro iv hiv
        rcases List.mem_append.1 hiv with h1 | h1
        · exact hnn iv h1
        · rw [List.mem_singleton] at h1; subst h1; exact ⟨ht0, ht1⟩
      · have hp2s : ¬ (PI (Int.tdiv Hit.TargetFrom C) = p) := fun h => hp2 h.symm
        simp only [eq_false hp1, eq_false hp2, eq_false hp1s, eq_false hp2s, if_false, id,
          List.append_nil]
        exact ⟨hhull, hnn⟩
  · intro p hp0 hp1
    rw [CreatePilesReset_apply PileCount T p hp0 hp1]
    refine ⟨Or.inl ⟨rfl, rfl, rfl⟩, ?_⟩
    intro iv hiv
    exact absurd hiv (List.not_mem_nil iv)

/-! ### Helper lemmas: from the hits to the index map -/

/-- A coordinate below the sequence length lies in a chunk below `SeqLengthChunks`. -/
theorem chunk_lt_SeqLengthChunks (C S x : Int) (hC : 0 < C) (h0 : 0 ≤ x) (hS : x < S) :
    x / C < (SeqLengthChunksOf C S : Int) := by
  unfold SeqLengthChunksOf
  have h1 : Int.tdiv (S + C - 1) C = (S + C - 1) / C :=
    Int.tdiv_eq_ediv (by omega) (le_of_lt hC)
  have h2 : (x + C) / C ≤ (S + C - 1) / C := Int.ediv_le_ediv hC (by omega)
  have h3 : (x + C) / C = x / C + 1 := by
    have := Int.add_mul_ediv_right x 1 (ne_of_gt hC)
    simpa using this
  have h4 : 0 ≤ x / C := Int.ediv_nonneg h0 (le_of_lt hC)
  rw [h1, Int.toNat_of_nonneg (by omega)]
  omega

/-- The coverage bitmap of a hit list whose intervals lie in the sequence: the build
does not abort, and a chunk is covered exactly when an interval of a hit spans it. -/
theorem ComputeCopyCounts_spec (C S : Int) (Hits : List HitData) (hC : 0 < C)
    (hcoord : ∀ Hit ∈ Hits,
      (0 ≤ Hit.QueryFrom ∧ Hit.QueryFrom ≤ Hit.QueryTo ∧ Hit.QueryTo < S) ∧
      (0 ≤ Hit.TargetFrom ∧ Hit.TargetFrom ≤ Hit.TargetTo ∧ Hit.TargetTo < S)) :
    ∃ b : Int → Bool, ComputeCopyCounts C (SeqLengthChunksOf C S) Hits = some b ∧
      ∀ i : Int, b i = true ↔ ∃ Hit ∈ Hits,
        (Hit.TargetFrom / C ≤ i ∧ i ≤ Hit.TargetTo / C) ∨
        (Hit.QueryFrom / C ≤ i ∧ i ≤ Hit.QueryTo / C) := by
  unfold ComputeCopyCounts
  have hprog := forEachM_progress (IncCopyCount C (SeqLengthChunksOf C S))
    (fun pre (b : Int → Bool) => ∀ i : Int, b i = true ↔ ∃ Hit ∈ pre,
      (Hit.TargetFrom / C ≤ i ∧ i ≤ Hit.TargetTo / C) ∨
      (Hit.QueryFrom / C ≤ i ∧ i ≤ Hit.QueryTo / C))
    (fun Hit => (0 ≤ Hit.QueryFrom ∧ Hit.QueryFrom ≤ Hit.QueryTo ∧ Hit.QueryTo < S) ∧
      (0 ≤ Hit.TargetFrom ∧ Hit.TargetFrom ≤ Hit.TargetTo ∧ Hit.TargetTo < S))
    ?_ Hits [] (fun _ => false) hcoord ?_
  · simpa using hprog
  · intro pre Hit b hQ hb
    obtain ⟨⟨hq0, hq1, hq2⟩, ⟨ht0, ht1, ht2⟩⟩ := hQ
    have hqN := chunk_lt_SeqLengthChunks C S Hit.QueryTo hC (by omega) hq2
    have htN := chunk_lt_SeqLengthChunks C S Hit.TargetTo hC (by omega) ht2
    have hqle : Hit.QueryFrom / C ≤ Hit.QueryTo / C := Int.ediv_le_ediv hC hq1
    have htle : Hit.TargetFrom / C ≤ Hit.TargetTo / C := Int.ediv_le_ediv hC ht1
    have hqn : 0 ≤ Hit.QueryTo / C := Int.ediv_nonneg (by omega) (le_of_lt hC)
    have hN : 1 ≤ SeqLengthChunksOf C S := by omega
    obtain ⟨b2, h2, hb2⟩ :=
      IncCopyCount_spec C (SeqLengthChunksOf C S) b Hit hC hN hq0 hq1 ht0 ht1
    refine ⟨b2, h2, ?_⟩
    intro i
    rw [hb2 i, hb i, min_eq_left (by omega), min_eq_left (by omega), min_eq_left (by omega),
      min_eq_left (by omega)]
    constructor
    · rintro (⟨H, hH, hr⟩ | hr)
      · exact ⟨H, List.mem_append_left _ hH, hr⟩
      · exact ⟨Hit, by simp, hr⟩
    · rintro ⟨H, hH, hr⟩
      rcases List.mem_append.1 hH with h1 | h1
      · exact Or.inl ⟨H, h1, hr⟩
      · rw [List.mem_singleton] at h1
        subst h1
        exact Or.inr hr
  · intro i
    simp

/-- A stretch of covered chunks below `SeqLengthChunks` lies in one pile, and the index
of that pile is valid. -/
theorem covered_stretch_one_pile (MAX : Int) (N : Nat) (b : Int → Bool) (PI0 PI : Int → Int)
    (PileCount : Nat) (hMAX : 0 ≤ MAX)
    (hPI : IdentifyPiles MAX N b PI0 = some (PI, PileCount))
    (lo hi : Int) (hlo : 0 ≤ lo) (hle : lo ≤ hi) (hhi : hi < (N : Int))
    (hcov : ∀ k : Int, lo ≤ k → k ≤ hi → b k = true) :
    (∀ k : Int, lo ≤ k → k ≤ hi → PI k = PI lo) ∧ 0 ≤ PI lo ∧ PI lo < (PileCount : Int) := by
  obtain ⟨hcount, hidx, _⟩ := IdentifyPiles_some MAX N b PI0 PI PileCount hMAX hPI
  have hlo2 : ((lo.toNat : Nat) : Int) = lo := Int.toNat_of_nonneg hlo
  have hblo : b ((lo.toNat : Nat) : Int) = true := by
    rw [hlo2]; exact hcov lo (le_refl _) hle
  have hPIlo : PI lo = (runCount b (lo.toNat + 1) : Int) - 1 := by
    have := hidx lo.toNat (by omega) hblo
    rwa [hlo2] at this
  refine ⟨?_, ?_⟩
  · intro k hk1 hk2
    have hk0 : ((k.toNat : Nat) : Int) = k := Int.toNat_of_nonneg (by omega)
    have hbk : b ((k.toNat : Nat) : Int) = true := by
      rw [hk0]; exact hcov k hk1 hk2
    have hPIk : PI k = (runCount b (k.toNat + 1) : Int) - 1 := by
      have := hidx k.toNat (by omega) hbk
      rwa [hk0] at this
    have heq := (runCount_eq_iff b lo.toNat k.toNat (by omega) hblo hbk).2 (by
      intro j hj1 hj2
      exact hcov (j : Int) (by omega) (by omega))
    rw [hPIk, hPIlo, heq]
  · rw [hPIlo, hcount]
    exact runCount_index_range b N lo.toNat (by omega) hblo

/-! ### Helper lemmas: the counting loop -/

theorem resolvedPiles_append (C : Int) (PI : Int → Int) (pre : List HitData) (Hit : HitData) :
    resolvedPiles C PI (pre ++ [Hit]) = resolvedPiles C PI pre ++
      [PI (Int.tdiv Hit.QueryFrom C), PI (Int.tdiv Hit.TargetFrom C)] := by
  unfold resolvedPiles
  simp [List.flatMap_append]

/-- When both intervals of every hit resolve to one valid pile, the counting loop passes
its assertions and leaves in every pile the number of interval ends that resolve to it. -/
theorem CreatePilesCount_spec (C : Int) (PI : Int → Int) (PileCount : Nat)
    (Hits : List HitData)
    (hres : ∀ Hit ∈ Hits,
      (PI (Int.tdiv Hit.QueryFrom C) = PI (Int.tdiv Hit.QueryTo C) ∧
        0 ≤ PI (Int.tdiv Hit.QueryFrom C) ∧ PI (Int.tdiv Hit.QueryFrom C) < (PileCount : Int)) ∧
      (PI (Int.tdiv Hit.TargetFrom C) = PI (Int.tdiv Hit.TargetTo C) ∧
        0 ≤ PI (Int.tdiv Hit.TargetFrom C) ∧
        PI (Int.tdiv Hit.TargetFrom C) < (PileCount : Int))) :
    ∃ T : PileTable, CreatePilesCount C PI PileCount Hits = some T ∧
      ∀ p : Int, (T p).ImageCount = (resolvedPiles C PI Hits).count p := by
  unfold CreatePilesCount
  have hprog := forEachM_progress (CreatePilesCountStep C PI PileCount)
    (fun pre (S : PileTable) =>
      ∀ p : Int, (S p).ImageCount = (resolvedPiles C PI pre).count p)
    (fun Hit =>
      (PI (Int.tdiv Hit.QueryFrom C) = PI (Int.tdiv Hit.QueryTo C) ∧
        0 ≤ PI (Int.tdiv Hit.QueryFrom C) ∧ PI (Int.tdiv Hit.QueryFrom C) < (PileCount : Int)) ∧
      (PI (Int.tdiv Hit.TargetFrom C) = PI (Int.tdiv Hit.TargetTo C) ∧
        0 ≤ PI (Int.tdiv Hit.TargetFrom C) ∧
        PI (Int.tdiv Hit.TargetFrom C) < (PileCount : Int)))
    ?_ Hits [] (CreatePilesInit PileCount) hres ?_
  · simpa using hprog
  · intro pre Hit S hQ hS
    obtain ⟨⟨hq1, hq2, hq3⟩, ⟨ht1, ht2, ht3⟩⟩ := hQ
    refine ⟨modifyPile (modifyPile S (PI (Int.tdiv Hit.QueryFrom C)) incImageCount)
      (PI (Int.tdiv Hit.TargetFrom C)) incImageCount, ?_, ?_⟩
    · unfold CreatePilesCountStep
      simp only
      rw [if_neg (not_not.2 hq1), if_neg (not_not.2 ⟨hq2, hq3⟩),
        if_neg (not_not.2 ⟨ht2, ht3⟩), if_neg (not_not.2 ht1)]
    · intro p
      rw [resolvedPiles_append, List.count_append, ← hS p]
      simp only [modifyPile_apply]
      by_cases hp1 : p = PI (Int.tdiv Hit.QueryFrom C)
      · by_cases hp2 : p = PI (Int.tdiv Hit.TargetFrom C)
        · have e1 : PI (Int.tdiv Hit.QueryFrom C) = p := hp1.symm
          have e2 : PI (Int.tdiv Hit.TargetFrom C) = p := hp2.symm
          simp only [eq_true hp1, eq_true hp2, if_true, e1, e2, incImageCount]
          simp
        · have e1 : PI (Int.tdiv Hit.QueryFrom C) = p := hp1.symm
          have e2 : ¬ (PI (Int.tdiv Hit.TargetFrom C) = p) := fun h => hp2 h.symm
          simp only [eq_true hp1, eq_false hp2, if_true, if_false, incImageCount, e1]
          simp [List.count_cons, e2]
      · by_cases hp2 : p = PI (Int.tdiv Hit.TargetFrom C)
        · have e1 : ¬ (PI (Int.tdiv Hit.QueryFrom C) = p) := fun h => hp1 h.symm
          have e2 : PI (Int.tdiv Hit.TargetFrom C) = p := hp2.symm
          simp only [eq_false hp1, eq_true hp2, if_true, if_false, incImageCount, e2]
          simp [List.count_cons, e1]
        · have e1 : ¬ (PI (Int.tdiv Hit.QueryFrom C) = p) := fun h => hp1 h.symm
          have e2 : ¬ (PI (Int.tdiv Hit.TargetFrom C) = p) := fun h => hp2 h.symm
          simp only [eq_false hp1, eq_false hp2, if_false]
          simp [List.count_cons, e1, e2]
  · intro p
    rw [CreatePilesInit_ImageCount]
    simp [resolvedPiles]

/-- The allocation loop passes when every pile below `PileCount` has an image. -/
theorem CreatePilesAlloc_some (PileCount : Nat) (T : PileTable)
    (h : ∀ p : Nat, p < PileCount → 1 ≤ (T p).ImageCount) :
    CreatePilesAlloc PileCount T = some T := by
  unfold CreatePilesAlloc
  have hprog := forEachM_progress
    (fun (Piles : PileTable) (PileIndex : Nat) =>
      let ImageCount := (Piles PileIndex).ImageCount
      if ¬ (ImageCount > 0) then none else some Piles)
    (fun _ (S : PileTable) => S = T) (fun p => p < PileCount) ?_ (List.range PileCount) [] T
    (fun p hp => List.mem_range.1 hp) rfl
  · obtain ⟨T2, h2, h3⟩ := hprog
    rw [h2, h3]
  · intro pre p S hp hS
    subst hS
    refine ⟨S, ?_, rfl⟩
    have hpos : (S (p : Int)).ImageCount > 0 := h p hp
    simp only
    rw [if_neg (not_not.2 hpos)]

/-- The counts of the values `0, ..., n - 1` in a list of such values add up to its
length. -/
theorem sum_count_range (n : Nat) :
    ∀ E : List Int, (∀ e ∈ E, 0 ≤ e ∧ e < (n : Int)) →
      ((List.range n).map (fun p : Nat => E.count (p : Int))).sum = E.length := by
  have hone : ∀ (m : Nat) (e : Int), 0 ≤ e →
      ((List.range m).map (fun p : Nat => if e = (p : Int) then 1 else 0)).sum =
        if e < (m : Int) then 1 else 0 := by
    intro m e he
    induction m with
    | zero =>
      have hn : ¬ (e < ((0 : Nat) : Int)) := by push_cast; omega
      rw [if_neg hn]
      rfl
    | succ m ih =>
      rw [List.range_succ, List.map_append, List.sum_append, ih]
      simp only [List.map_cons, List.map_nil, List.sum_cons, List.sum_nil, Nat.add_zero]
      push_cast
      split_ifs <;> omega
  intro E
  induction E with
  | nil => intro _; simp
  | cons e E ih =>
    intro hE
    have he := hE e (List.mem_cons_self _ _)
    have ih2 := ih (fun x hx => hE x (List.mem_cons_of_mem _ hx))
    have hsplit : (List.range n).map (fun p : Nat => (e :: E).count (p : Int)) =
        (List.range n).map (fun p : Nat =>
          E.count (p : Int) + (if e = (p : Int) then 1 else 0)) := by
      apply List.map_congr_left
      intro p _
      rw [List.count_cons]
      simp
    rw [hsplit, List.sum_map_add, ih2, hone n e he.1, if_pos he.2]
    simp

/-- In the index map that `IdentifyPiles` builds from the bitmap of a hit list, every
chunk that an interval of a hit spans holds the pile of the interval's first chunk, and
that pile is valid. -/
theorem hits_resolve (C S MAX : Int) (Hits : List HitData) (b : Int → Bool)
    (PI0 PI : Int → Int) (PileCount : Nat) (hC : 0 < C) (hMAX : 0 ≤ MAX)
    (hcoord : ∀ Hit ∈ Hits,
      (0 ≤ Hit.QueryFrom ∧ Hit.QueryFrom ≤ Hit.QueryTo ∧ Hit.QueryTo < S) ∧
      (0 ≤ Hit.TargetFrom ∧ Hit.TargetFrom ≤ Hit.TargetTo ∧ Hit.TargetTo < S))
    (hb : ComputeCopyCounts C (SeqLengthChunksOf C S) Hits = some b)
    (hPI : IdentifyPiles MAX (SeqLengthChunksOf C S) b PI0 = some (PI, PileCount)) :
    ∀ Hit ∈ Hits,
      ((∀ k : Int, Hit.QueryFrom / C ≤ k → k ≤ Hit.QueryTo / C →
          PI k = PI (Int.tdiv Hit.QueryFrom C)) ∧
        PI (Int.tdiv Hit.QueryFrom C) = PI (Int.tdiv Hit.QueryTo C) ∧
        0 ≤ PI (Int.tdiv Hit.QueryFrom C) ∧ PI (Int.tdiv Hit.QueryFrom C) < (PileCount : Int)) ∧
      ((∀ k : Int, Hit.TargetFrom / C ≤ k → k ≤ Hit.TargetTo / C →
          PI k = PI (Int.tdiv Hit.TargetFrom C)) ∧
        PI (Int.tdiv Hit.TargetFrom C) = PI (Int.tdiv Hit.TargetTo C) ∧
        0 ≤ PI (Int.tdiv Hit.TargetFrom C) ∧
        PI (Int.tdiv Hit.TargetFrom C) < (PileCount : Int)) := by
  obtain ⟨b2, hb2, hcov⟩ := ComputeCopyCounts_spec C S Hits hC hcoord
  rw [hb] at hb2
  simp only [Option.some.injEq] at hb2
  subst hb2
  have hone : ∀ (Hit : HitData), Hit ∈ Hits → ∀ F T : Int, 0 ≤ F → F ≤ T → T < S →
      (∀ k : Int, F / C ≤ k → k ≤ T / C → b k = true) →
      (∀ k : Int, F / C ≤ k → k ≤ T / C → PI k = PI (Int.tdiv F C)) ∧
        PI (Int.tdiv F C) = PI (Int.tdiv T C) ∧
        0 ≤ PI (Int.tdiv F C) ∧ PI (Int.tdiv F C) < (PileCount : Int) := by
    intro Hit _ F T hF hFT hTS hall
    have e1 : Int.tdiv F C = F / C := Int.tdiv_eq_ediv hF (le_of_lt hC)
    have e2 : Int.tdiv T C = T / C := Int.tdiv_eq_ediv (by omega) (le_of_lt hC)
    have hle : F / C ≤ T / C := Int.ediv_le_ediv hC hFT
    have hnn : 0 ≤ F / C := Int.ediv_nonneg hF (le_of_lt hC)
    have hN := chunk_lt_SeqLengthChunks C S T hC (by omega) hTS
    obtain ⟨h1, h2, h3⟩ := covered_stretch_one_pile MAX (SeqLengthChunksOf C S) b PI0 PI
      PileCount hMAX hPI (F / C) (T / C) hnn hle hN hall
    rw [e1, e2]
    exact ⟨h1, (h1 (T / C) hle (le_refl _)).symm, h2, h3⟩
  intro Hit hHit
  obtain ⟨⟨hq0, hq1, hq2⟩, ⟨ht0, ht1, ht2⟩⟩ := hcoord Hit hHit
  refine ⟨hone Hit hHit _ _ hq0 hq1 hq2 ?_, hone Hit hHit _ _ ht0 ht1 ht2 ?_⟩
  · intro k hk1 hk2
    exact (hcov k).2 ⟨Hit, hHit, Or.inr ⟨hk1, hk2⟩⟩
  · intro k hk1 hk2
    exact (hcov k).2 ⟨Hit, hHit, Or.inl ⟨hk1, hk2⟩⟩

theorem resolvedPiles_length (C : Int) (PI : Int → Int) :
    ∀ Hits : List HitData, (resolvedPiles C PI Hits).length = 2 * Hits.length := by
  intro Hits
  induction Hits with
  | nil => rfl
  | cons Hit Hits ih =>
    have : resolvedPiles C PI (Hit :: Hits) =
        [PI (Int.tdiv Hit.QueryFrom C), PI (Int.tdiv Hit.TargetFrom C)] ++
          resolvedPiles C PI Hits := by
      simp [resolvedPiles]
    rw [this, List.length_append, ih]
    simp only [List.length_cons, List.length_nil]
    omega

theorem mem_resolvedPiles (C : Int) (PI : Int → Int) (Hits : List HitData) (p : Int) :
    p ∈ resolvedPiles C PI Hits ↔
      ∃ Hit ∈ Hits, p = PI (Int.tdiv Hit.QueryFrom C) ∨ p = PI (Int.tdiv Hit.TargetFrom C) := by
  unfold resolvedPiles
  simp [List.mem_flatMap]

/-! ### Helper lemmas: family assignment -/

theorem assignFam_append (k : Int) (T : PileTable) (F : FamData) (x : FamMemberData) :
    assignFam k T (F ++ [x]) =
      modifyPile (assignFam k T F) x.PileIndex
        (fun Pile => { Pile with FamIndex := k, Rev := boolToInt x.Rev }) := by
  unfold assignFam
  rw [List.foldl_append]
  rfl

/-- The inner loop leaves the piles that are no member of the family. -/
theorem assignFam_frame (k : Int) (T : PileTable) (p : Int) :
    ∀ F : FamData, (∀ m ∈ F, m.PileIndex ≠ p) → assignFam k T F p = T p := by
  intro F
  induction F using List.reverseRecOn with
  | nil => intro _; rfl
  | append_singleton F x ih =>
    intro h
    rw [assignFam_append, modifyPile_apply]
    have hx : ¬ (p = x.PileIndex) := fun he => h x (by simp) he.symm
    rw [if_neg hx]
    exact ih (fun m hm => h m (List.mem_append_left _ hm))

/-- The inner loop changes no field but `FamIndex` and `Rev`. -/
theorem assignFam_fields (k : Int) (T : PileTable) (p : Int) :
    ∀ F : FamData,
      (assignFam k T F p).From = (T p).From ∧ (assignFam k T F p).To = (T p).To ∧
      (assignFam k T F p).ImageCount = (T p).ImageCount ∧
      (assignFam k T F p).Images = (T p).Images ∧
      (assignFam k T F p).SuperFamIndex = (T p).SuperFamIndex := by
  intro F
  induction F using List.reverseRecOn with
  | nil => exact ⟨rfl, rfl, rfl, rfl, rfl⟩
  | append_singleton F x ih =>
    rw [assignFam_append, modifyPile_apply]
    split_ifs
    · exact ih
    · exact ih

/-- The inner loop gives every member pile the family index and, when the members of one
pile agree on the orientation, the member's orientation. -/
theorem assignFam_member (k : Int) (T : PileTable) :
    ∀ F : FamData,
      (∀ a ∈ F, ∀ b ∈ F, a.PileIndex = b.PileIndex → a.Rev = b.Rev) →
      ∀ m ∈ F, (assignFam k T F m.PileIndex).FamIndex = k ∧
        (assignFam k T F m.PileIndex).Rev = boolToInt m.Rev := by
  intro F
  induction F using List.reverseRecOn with
  | nil => intro _ m hm; exact absurd hm (List.not_mem_nil m)
  | append_singleton F x ih =>
    intro hcons m hm
    rw [assignFam_append, modifyPile_apply]
    by_cases hp : m.PileIndex = x.PileIndex
    · rw [if_pos hp]
      have hrev : m.Rev = x.Rev := hcons m hm x (by simp) hp
      rw [hrev]
      exact ⟨rfl, rfl⟩
    · rw [if_neg hp]
      have hmF : m ∈ F := by
        rcases List.mem_append.1 hm with h | h
        · exact h
        · rw [List.mem_singleton] at h
          subst h
          exact absurd rfl hp
      exact ih (fun a ha b hb => hcons a (List.mem_append_left _ ha) b
        (List.mem_append_left _ hb)) m hmF

/-- The outer loop aborts exactly when a family is smaller than the minimum. -/
theorem AssignFamsToPiles_loop_none (cfg : Config) :
    ∀ (Fams : FamList) (st : PileTable × Int),
      forEachM (AssignFamsToPilesStep cfg) st Fams = none ↔
        ∃ F ∈ Fams, F.length < cfg.g_paramMinFamSize := by
  intro Fams
  induction Fams with
  | nil => intro st; simp [forEachM]
  | cons F Fams ih =>
    intro st
    simp only [forEachM, AssignFamsToPilesStep]
    by_cases hF : F.length < cfg.g_paramMinFamSize
    · rw [if_pos hF]
      simp only [true_iff]
      exact ⟨F, List.mem_cons_self _ _, hF⟩
    · rw [if_neg hF]
      simp only
      rw [ih]
      constructor
      · rintro ⟨G, hG, hlt⟩
        exact ⟨G, List.mem_cons_of_mem _ hG, hlt⟩
      · rintro ⟨G, hG, hlt⟩
        rcases List.mem_cons.1 hG with h | h
        · subst h; exact absurd hlt hF
        · exact ⟨G, h, hlt⟩

theorem assignFam_append_list (k : Int) (T : PileTable) (F G : FamData) :
    assignFam k T (F ++ G) = assignFam k (assignFam k T F) G := by
  unfold assignFam
  rw [List.foldl_append]

/-- The inner loop gives every member pile the family index. -/
theorem assignFam_FamIndex (k : Int) (T : PileTable) :
    ∀ F : FamData, ∀ m ∈ F, (assignFam k T F m.PileIndex).FamIndex = k := by
  intro F
  induction F using List.reverseRecOn with
  | nil => intro m hm; exact absurd hm (List.not_mem_nil m)
  | append_singleton F x ih =>
    intro m hm
    rw [assignFam_append, modifyPile_apply]
    by_cases hp : m.PileIndex = x.PileIndex
    · rw [if_pos hp]
    · rw [if_neg hp]
      rcases List.mem_append.1 hm with h | h
      · exact ih m h
      · rw [List.mem_singleton] at h
        subst h
        exact absurd rfl hp

/-- The inner loop leaves on a pile the orientation of the last member that names it. -/
theorem assignFam_last (k : Int) (T : PileTable) (pre post : FamData) (m : FamMemberData)
    (hpost : ∀ b ∈ post, b.PileIndex ≠ m.PileIndex) :
    (assignFam k T (pre ++ m :: post) m.PileIndex).Rev = boolToInt m.Rev := by
  have e : pre ++ m :: post = (pre ++ [m]) ++ post := by simp
  rw [e, assignFam_append_list, assignFam_frame k _ m.PileIndex post hpost, assignFam_append,
    modifyPile_apply, if_pos rfl]

/-- The outer loop from family index `k` on: the member piles of the `j`-th family are
left as the inner loop with the index `k + j` left them, piles of no family are left as
they are, and no field but `FamIndex` and `Rev` changes. -/
theorem AssignFamsToPiles_loop_some (cfg : Config) :
    ∀ (Fams : FamList) (T : PileTable) (k : Int) (st : PileTable × Int),
      forEachM (AssignFamsToPilesStep cfg) (T, k) Fams = some st →
      Fams.Pairwise (fun F G => ∀ a ∈ F, ∀ b ∈ G, a.PileIndex ≠ b.PileIndex) →
      (∀ (j : Nat) (F : FamData), Fams.get? j = some F → ∃ T0 : PileTable, ∀ m ∈ F,
        st.1 m.PileIndex = assignFam (k + (j : Int)) T0 F m.PileIndex) ∧
      (∀ p : Int, (∀ F ∈ Fams, ∀ m ∈ F, m.PileIndex ≠ p) → st.1 p = T p) ∧
      (∀ p : Int, (st.1 p).From = (T p).From ∧ (st.1 p).To = (T p).To ∧
        (st.1 p).ImageCount = (T p).ImageCount ∧ (st.1 p).Images = (T p).Images ∧
        (st.1 p).SuperFamIndex = (T p).SuperFamIndex) := by
  intro Fams
  induction Fams with
  | nil =>
    intro T k st h _
    simp only [forEachM, Option.some.injEq] at h
    subst h
    refine ⟨?_, fun p _ => rfl, fun p => ⟨rfl, rfl, rfl, rfl, rfl⟩⟩
    intro j F hj
    simp at hj
  | cons F Fams ih =>
    intro T k st h hdisj
    simp only [forEachM, AssignFamsToPilesStep] at h
    split_ifs at h with hF
    simp only at h
    rw [List.pairwise_cons] at hdisj
    obtain ⟨hFd, hdisj2⟩ := hdisj
    obtain ⟨ih1, ih2, ih3⟩ := ih (assignFam k T F) (k + 1) st h hdisj2
    refine ⟨?_, ?_, ?_⟩
    · intro j G hj
      cases j with
      | zero =>
        simp only [List.get?_cons_zero, Option.some.injEq] at hj
        subst hj
        refine ⟨T, fun m hm => ?_⟩
        rw [ih2 m.PileIndex (fun G hG b hb => (hFd G hG m hm b hb).symm)]
        simp
      | succ j =>
        simp only [List.get?_cons_succ] at hj
        obtain ⟨T0, hT0⟩ := ih1 j G hj
        refine ⟨T0, fun m hm => ?_⟩
        rw [hT0 m hm]
        push_cast
        rw [show k + 1 + (j : Int) = k + ((j : Int) + 1) by omega]
    · intro p hp
      rw [ih2 p (fun G hG => hp G (List.mem_cons_of_mem _ hG))]
      exact assignFam_frame k T p F (hp F (List.mem_cons_self _ _))
    · intro p
      obtain ⟨a1, a2, a3, a4, a5⟩ := ih3 p
      obtain ⟨b1, b2, b3, b4, b5⟩ := assignFam_fields k T p F
      exact ⟨a1.trans b1, a2.trans b2, a3.trans b3, a4.trans b4, a5.trans b5⟩

/-- Every pile index below `PileCount` is the pile of the first chunk of some interval
of a hit. -/
theorem every_pile_resolved (C S MAX : Int) (Hits : List HitData) (b : Int → Bool)
    (PI0 PI : Int → Int) (PileCount : Nat) (hC : 0 < C) (hMAX : 0 ≤ MAX)
    (hcoord : ∀ Hit ∈ Hits,
      (0 ≤ Hit.QueryFrom ∧ Hit.QueryFrom ≤ Hit.QueryTo ∧ Hit.QueryTo < S) ∧
      (0 ≤ Hit.TargetFrom ∧ Hit.TargetFrom ≤ Hit.TargetTo ∧ Hit.TargetTo < S))
    (hb : ComputeCopyCounts C (SeqLengthChunksOf C S) Hits = some b)
    (hPI : IdentifyPiles MAX (SeqLengthChunksOf C S) b PI0 = some (PI, PileCount))
    (p : Nat) (hp : p < PileCount) : (p : Int) ∈ resolvedPiles C PI Hits := by
  obtain ⟨b2, hb2, hcov⟩ := ComputeCopyCounts_spec C S Hits hC hcoord
  rw [hb] at hb2
  simp only [Option.some.injEq] at hb2
  subst hb2
  have hres := hits_resolve C S MAX Hits b PI0 PI PileCount hC hMAX hcoord hb hPI
  obtain ⟨hcount, hidx, _⟩ :=
    IdentifyPiles_some MAX (SeqLengthChunksOf C S) b PI0 PI PileCount hMAX hPI
  obtain ⟨i, hi, hbi, hrc⟩ := runCount_surj b (SeqLengthChunksOf C S) p (by omega)
  have hPIi : PI (i : Int) = (p : Int) := by
    rw [hidx i hi hbi, hrc]; push_cast; omega
  obtain ⟨Hit, hHit, hr⟩ := (hcov (i : Int)).1 hbi
  rw [mem_resolvedPiles]
  refine ⟨Hit, hHit, ?_⟩
  rcases hr with ⟨h1, h2⟩ | ⟨h1, h2⟩
  · right
    rw [← hPIi]
    exact (hres Hit hHit).2.1 (i : Int) h1 h2
  · left
    rw [← hPIi]
    exact (hres Hit hHit).1.1 (i : Int) h1 h2

/-- The fill loop completes when, for every hit, the entry that each of its assertions
reads is the pile of the interval's first chunk and that pile is valid. -/
theorem CreatePilesFill_some (C : Int) (PI : Int → Int) (PileCount : Nat) (T : PileTable)
    (Hits : List HitData)
    (hres : ∀ Hit ∈ Hits,
      (PI (Int.tdiv Hit.QueryFrom C) =
          PI (Int.tdiv (Hit.QueryFrom + (Hit.QueryTo - Hit.QueryFrom) - 1) C) ∧
        0 ≤ PI (Int.tdiv Hit.QueryFrom C) ∧ PI (Int.tdiv Hit.QueryFrom C) < (PileCount : Int)) ∧
      (PI (Int.tdiv Hit.TargetFrom C) =
          PI (Int.tdiv (Hit.TargetFrom + (Hit.TargetTo - Hit.TargetFrom) - 1) C) ∧
        0 ≤ PI (Int.tdiv Hit.TargetFrom C) ∧
        PI (Int.tdiv Hit.TargetFrom C) < (PileCount : Int))) :
    ∃ Piles : PileTable, CreatePilesFill C PI PileCount T Hits = some Piles := by
  unfold CreatePilesFill
  have hprog := forEachM_progress (CreatePilesFillStep C PI PileCount)
    (fun _ (_ : PileTable) => True)
    (fun Hit =>
      (PI (Int.tdiv Hit.QueryFrom C) =
          PI (Int.tdiv (Hit.QueryFrom + (Hit.QueryTo - Hit.QueryFrom) - 1) C) ∧
        0 ≤ PI (Int.tdiv Hit.QueryFrom C) ∧ PI (Int.tdiv Hit.QueryFrom C) < (PileCount : Int)) ∧
      (PI (Int.tdiv Hit.TargetFrom C) =
          PI (Int.tdiv (Hit.TargetFrom + (Hit.TargetTo - Hit.TargetFrom) - 1) C) ∧
        0 ≤ PI (Int.tdiv Hit.TargetFrom C) ∧
        PI (Int.tdiv Hit.TargetFrom C) < (PileCount : Int)))
    ?_ Hits [] (CreatePilesReset PileCount T) hres trivial
  · obtain ⟨P, hP, _⟩ := hprog
    exact ⟨P, hP⟩
  · intro pre Hit S hQ _
    obtain ⟨⟨hq1, hq2, hq3⟩, ⟨ht1, ht2, ht3⟩⟩ := hQ
    unfold CreatePilesFillStep
    simp only
    rw [if_neg (not_not.2 hq1), if_neg (not_not.2 ⟨hq2, hq3⟩), if_neg (not_not.2 ht1),
      if_neg (not_not.2 ⟨ht2, ht3⟩)]
    exact ⟨_, rfl, trivial⟩

/-! ### Helper lemmas: the family index that `CreatePiles` leaves -/

theorem CreatePilesCountStep_fields (C : Int) (PI : Int → Int) (PileCount : Nat)
    (T T2 : PileTable) (Hit : HitData)
    (h : CreatePilesCountStep C PI PileCount T Hit = some T2) (p : Int) :
    (T2 p).FamIndex = (T p).FamIndex ∧ (T2 p).Rev = (T p).Rev := by
  unfold CreatePilesCountStep at h
  simp only at h
  split_ifs at h
  simp only [Option.some.injEq] at h
  subst h
  simp only [modifyPile_apply]
  split_ifs <;> exact ⟨rfl, rfl⟩

theorem setFrom_fields (x : Int) (P : PileData) :
    (setFrom x P).FamIndex = P.FamIndex ∧ (setFrom x P).Rev = P.Rev := by
  unfold setFrom
  split_ifs <;> exact ⟨rfl, rfl⟩

theorem setTo_fields (x : Int) (P : PileData) :
    (setTo x P).FamIndex = P.FamIndex ∧ (setTo x P).Rev = P.Rev := by
  unfold setTo
  split_ifs <;> exact ⟨rfl, rfl⟩

theorem CreatePilesFillStep_fields (C : Int) (PI : Int → Int) (PileCount : Nat)
    (T T2 : PileTable) (Hit : HitData)
    (h : CreatePilesFillStep C PI PileCount T Hit = some T2) (p : Int) :
    (T2 p).FamIndex = (T p).FamIndex ∧ (T2 p).Rev = (T p).Rev := by
  obtain ⟨_, _, hcl⟩ := CreatePilesFillStep_some C PI PileCount T T2 Hit h
  rw [hcl p]
  split_ifs <;>
    simp only [Function.comp_apply, id, (setTo_fields _ _).1, (setTo_fields _ _).2,
      (setFrom_fields _ _).1, (setFrom_fields _ _).2, pushImage, and_self]

/-- The piles below `PileCount` leave `CreatePiles` with `FamIndex = -1` and
`Rev = -1`. -/
theorem CreatePiles_FamIndex (C : Int) (PI : Int → Int) (PileCount : Nat)
    (Hits : List HitData) (Piles : PileTable)
    (h : CreatePiles C PI PileCount Hits = some Piles) (p : Int) (hp0 : 0 ≤ p)
    (hp1 : p < (PileCount : Int)) :
    (Piles p).FamIndex = -1 ∧ (Piles p).Rev = -1 := by
  obtain ⟨T1, T2, h1, h2, h3⟩ := CreatePiles_some C PI PileCount Hits Piles h
  have hinit : (CreatePilesInit PileCount p).FamIndex = -1 ∧
      (CreatePilesInit PileCount p).Rev = -1 := by
    unfold CreatePilesInit
    rw [foldl_modifyPile initPile (fun P => rfl),
      if_pos ⟨p.toNat, List.mem_range.2 (by omega), by omega⟩]
    exact ⟨rfl, rfl⟩
  have hT1 : (T1 p).FamIndex = -1 ∧ (T1 p).Rev = -1 := by
    unfold CreatePilesCount at h1
    exact forEachM_induct (CreatePilesCountStep C PI PileCount)
      (fun _ (S : PileTable) => (S p).FamIndex = -1 ∧ (S p).Rev = -1) (fun _ => True)
      (fun pre Hit S S2 _ hS hstep => by
        obtain ⟨e1, e2⟩ := CreatePilesCountStep_fields C PI PileCount S S2 Hit hstep p
        rw [e1, e2]; exact hS)
      Hits [] _ T1 (fun _ _ => trivial) hinit h1
  have hT2 : T2 = T1 := by
    unfold CreatePilesAlloc at h2
    exact forEachM_induct _ (fun _ (S : PileTable) => S = T1) (fun _ => True)
      (fun pre i S S2 _ hS hstep => by
        simp only at hstep
        split_ifs at hstep
        simp only [Option.some.injEq] at hstep
        rw [← hstep]; exact hS)
      (List.range PileCount) [] T1 T2 (fun _ _ => trivial) rfl h2
  subst hT2
  unfold CreatePilesFill at h3
  exact forEachM_induct (CreatePilesFillStep C PI PileCount)
    (fun _ (S : PileTable) => (S p).FamIndex = -1 ∧ (S p).Rev = -1) (fun _ => True)
    (fun pre Hit S S2 _ hS hstep => by
      obtain ⟨e1, e2⟩ := CreatePilesFillStep_fields C PI PileCount S S2 Hit hstep p
      rw [e1, e2]; exact hS)
    Hits [] _ Piles (fun _ _ => trivial)
    (by
      show (CreatePilesReset PileCount T2 p).FamIndex = -1 ∧
        (CreatePilesReset PileCount T2 p).Rev = -1
      rw [CreatePilesReset_apply PileCount T2 p hp0 hp1]
      exact hT1) h3

/-! ## Properties of the specification -/

/-- C1: a hit is a candidate exactly when it is forward, its length lies in the CRISPR
length window and its spacer lies in the spacer window, where the length is the truncated
mean of the two interval lengths and the spacer is `QueryFrom - TargetTo` when
`QueryFrom > TargetTo` and `TargetFrom - QueryTo` otherwise. A reverse hit is never a
candidate, and the scenario hit has length 51, spacer 250 and is rejected under the
windows `[10, 200]` and `[10, 200]`. -/
theorem IsCand_iff_forward_in_windows (cfg : Config) (h : HitData) :
    (IsCand cfg h = true ↔
      (h.Rev = false ∧
        cfg.MIN_CRISPR_LENGTH ≤ GetHitLength h ∧ GetHitLength h ≤ cfg.MAX_CRISPR_LENGTH ∧
        cfg.MIN_SPACER_LENGTH ≤ GetSpacerLength h ∧
        GetSpacerLength h ≤ cfg.MAX_SPACER_LENGTH)) ∧
    GetHitLength h =
      Int.tdiv ((h.QueryTo - h.QueryFrom + 1) + (h.TargetTo - h.TargetFrom + 1)) 2 ∧
    GetSpacerLength h =
      (if h.QueryFrom > h.TargetTo then h.QueryFrom - h.TargetTo
       else h.TargetFrom - h.QueryTo) ∧
    IsCand cfg { h with Rev := true } = false ∧
    (GetHitLength scenarioHit = 51 ∧ GetSpacerLength scenarioHit = 250 ∧
      IsCand defaultConfig scenarioHit = false) := by
  refine ⟨?_, rfl, rfl, ?_, ?_, ?_, ?_⟩
  · unfold IsCand
    cases hr : h.Rev
    · simp only [Bool.false_eq_true, if_false, true_and]
      by_cases h1 : GetHitLength h > cfg.MAX_CRISPR_LENGTH ∨
          GetHitLength h < cfg.MIN_CRISPR_LENGTH
      · simp only [h1, if_true, Bool.false_eq_true, false_iff]
        intro hc
        omega
      · simp only [h1, if_false]
        by_cases h2 : GetSpacerLength h > cfg.MAX_SPACER_LENGTH ∨
            GetSpacerLength h < cfg.MIN_SPACER_LENGTH
        · simp only [h2, if_true, Bool.false_eq_true, false_iff]
          intro hc
          omega
        · simp only [h2, if_false, true_iff]
          omega
    · simp
  · simp [IsCand]
  · decide
  · decide
  · decide

/-- C2 (counterexample): on five piles with the gaps 30, 100, 100, 100 the walk of the
specification restarts with the third pile and emits the family of piles 2, 3, 4, while
`FilterCrispFam` drops the third pile and emits nothing. -/
theorem FilterCrispFam_ne_spec_walk :
    FilterCrispFam insertionSort defaultConfig pilesGaps30_100_100_100 (famOfRange 5) [] = [] ∧
    specFilterCrispFam insertionSort defaultConfig pilesGaps30_100_100_100 (famOfRange 5) [] =
      [[⟨2, false⟩, ⟨3, false⟩, ⟨4, false⟩]] ∧
    FilterCrispFam insertionSort defaultConfig pilesGaps30_100_100_100 (famOfRange 5) [] ≠
      specFilterCrispFam insertionSort defaultConfig pilesGaps30_100_100_100
        (famOfRange 5) [] := by
  decide

/-- C2 (amended): for every family, pile table and conforming sort, the output of
`FilterCrispFam` is the output of the walk over the sorted members in which the first
two members are admitted, a later member is admitted iff the two gaps before it differ
by at most `MAX_SPACE_DIFF`, and on exceeding the tolerance the current sub-family is
closed (emitted iff it has the minimum size) and an empty sub-family is started, the
member that exceeded the tolerance being in no sub-family; the last sub-family is closed
the same way. -/
theorem FilterCrispFam_eq_dropping_walk (sort : SortFn) (cfg : Config) (Piles : PileTable)
    (Fam : FamData) (OutFams : FamList) (hsort : IsStdSort sort (FamMemberLt Piles)) :
    FilterCrispFam sort cfg Piles Fam OutFams =
      droppingFilterCrispFam sort cfg Piles Fam OutFams :=
  FilterCrispFam_eq_walk sort cfg Piles Fam OutFams (hsort Fam).1.length_eq

/-- C2 (witness): the amended equation on the five piles with the gaps 30, 100, 100, 100. -/
theorem FilterCrispFam_eq_dropping_walk_witness :
    IsStdSort insertionSort (FamMemberLt pilesGaps30_100_100_100) ∧
    FilterCrispFam insertionSort defaultConfig pilesGaps30_100_100_100 (famOfRange 5) [] =
      droppingFilterCrispFam insertionSort defaultConfig pilesGaps30_100_100_100
        (famOfRange 5) [] :=
  ⟨insertionSort_isStdSort _,
    FilterCrispFam_eq_dropping_walk insertionSort defaultConfig pilesGaps30_100_100_100
      (famOfRange 5) [] (insertionSort_isStdSort _)⟩

/-- C3: a family of at least the minimum size whose members in strictly ascending `From`
order (`V`; strict ascent is the distinctness of the `From` values) are regularly spaced
is emitted by `FilterCrispFam` as exactly one family, `V` itself. -/
theorem FilterCrispFam_regular_family (sort : SortFn) (cfg : Config) (Piles : PileTable)
    (Fam V : FamData) (OutFams : FamList)
    (hsort : IsStdSort sort (FamMemberLt Piles))
    (hsize : cfg.g_paramMinFamSize ≤ Fam.length)
    (hperm : V.Perm Fam)
    (hasc : V.Pairwise (fun a b => (Piles a.PileIndex).From < (Piles b.PileIndex).From))
    (hreg : RegularSpacing cfg Piles V) :
    FilterCrispFam sort cfg Piles Fam OutFams = OutFams ++ [V] := by
  have hs := sort_eq_of_strictly_ascending sort Piles hsort Fam V hperm hasc
  rw [FilterCrispFam_eq_walk sort cfg Piles Fam OutFams (hsort Fam).1.length_eq, hs,
    walk_regular _ cfg Piles V OutFams hreg]
  unfold closeSubFam
  rw [if_pos (by rw [hperm.length_eq]; exact hsize)]

/-- C3 (witness): the piles `[0,20]`, `[50,70]`, `[100,120]` with `MAX_SPACE_DIFF = 20`
and minimum size 3, given in the order 2, 0, 1, stay in one family of three, in
ascending order. -/
theorem FilterCrispFam_regular_family_witness :
    FilterCrispFam insertionSort defaultConfig pilesGaps30_30
      [⟨2, false⟩, ⟨0, true⟩, ⟨1, false⟩] [] =
      [[⟨0, true⟩, ⟨1, false⟩, ⟨2, false⟩]] :=
  FilterCrispFam_regular_family insertionSort defaultConfig pilesGaps30_30
    [⟨2, false⟩, ⟨0, true⟩, ⟨1, false⟩] [⟨0, true⟩, ⟨1, false⟩, ⟨2, false⟩] []
    (insertionSort_isStdSort _) (by decide) (by decide) (by decide)
    (by
      intro i h2 h3
      have h4 : i < 3 := h3
      interval_cases i
      decide)

/-- C4: a family whose sorted member vector has exactly three members, the two gaps of
which differ by more than `MAX_SPACE_DIFF`, adds nothing to the output list when the
minimum family size is 3. -/
theorem FilterCrispFam_three_irregular (sort : SortFn) (cfg : Config) (Piles : PileTable)
    (Fam : FamData) (OutFams : FamList) (a b c : FamMemberData)
    (hsort : IsStdSort sort (FamMemberLt Piles))
    (hV : sort (FamMemberLt Piles) Fam = [a, b, c])
    (hmin : cfg.g_paramMinFamSize = 3)
    (hgap : iabs (gap Piles a b - gap Piles b c) > cfg.MAX_SPACE_DIFF) :
    FilterCrispFam sort cfg Piles Fam OutFams = OutFams := by
  rw [FilterCrispFam_eq_walk sort cfg Piles Fam OutFams (hsort Fam).1.length_eq, hV]
  have hn : ¬ iabs (gap Piles a b - gap Piles b c) ≤ cfg.MAX_SPACE_DIFF := not_le.2 hgap
  simp [walk, walkFrom, hn, closeSubFam, hmin]

/-- C4 (witness): the piles `[0,20]`, `[50,70]`, `[200,220]` (gaps 30, 130) with
`MAX_SPACE_DIFF = 20` and minimum size 3 give an empty output. -/
theorem FilterCrispFam_three_irregular_witness :
    FilterCrispFam insertionSort defaultConfig pilesGaps30_130 (famOfRange 3) [] = [] :=
  FilterCrispFam_three_irregular insertionSort defaultConfig pilesGaps30_130 (famOfRange 3) []
    ⟨0, false⟩ ⟨1, false⟩ ⟨2, false⟩ (insertionSort_isStdSort _) (by decide) (by decide)
    (by decide)

/-- C5 (counterexample): `reversingSort` keeps the promise of `std::sort`, and the piles
`[0,9]` and `[15,24]` have distinct `From`. For the family that lists pile 0 twice
(forward, then reverse) and pile 1 once, `FilterCrispFam` emits the sub-family
`S = (0, reverse), (0, forward), (1, forward)`; run on `S` it emits a family other than
`S`, and `FilterCrispFams` applied to its own output returns another list. -/
theorem FilterCrispFam_reorders_pile_listed_twice :
    IsStdSort reversingSort (FamMemberLt pilesTwoClose) ∧
    (pilesTwoClose 0).From ≠ (pilesTwoClose 1).From ∧
    FilterCrispFam reversingSort defaultConfig pilesTwoClose famPileTwice [] =
      [[⟨0, true⟩, ⟨0, false⟩, ⟨1, false⟩]] ∧
    FilterCrispFam reversingSort defaultConfig pilesTwoClose
        [⟨0, true⟩, ⟨0, false⟩, ⟨1, false⟩] [] ≠
      [[⟨0, true⟩, ⟨0, false⟩, ⟨1, false⟩]] ∧
    FilterCrispFams reversingSort defaultConfig pilesTwoClose
        (FilterCrispFams reversingSort defaultConfig pilesTwoClose [famPileTwice] []) [] ≠
      FilterCrispFams reversingSort defaultConfig pilesTwoClose [famPileTwice] [] :=
  ⟨reversingSort_isStdSort pilesTwoClose, by decide, by decide, by decide, by decide⟩

/-- C5: on piles with distinct `From` (members of the family whose piles have the same
`From` name the same pile), `FilterCrispFam` run on a sub-family `S` that it emitted for
the family emits exactly one family; that family has the members of `S` and names the
same piles in the same order, and it is `S` itself when the family names no pile twice.
Hence `FilterCrispFams` applied to its own output returns, family by family, the same
members with the same order of piles, and returns the output unchanged when no input
family names a pile twice. -/
theorem FilterCrispFam_idempotent (sort : SortFn) (cfg : Config) (Piles : PileTable)
    (hsort : IsStdSort sort (FamMemberLt Piles)) :
    (∀ (Fam S : FamData),
      (∀ a ∈ Fam, ∀ b ∈ Fam,
        (Piles a.PileIndex).From = (Piles b.PileIndex).From → a.PileIndex = b.PileIndex) →
      S ∈ FilterCrispFam sort cfg Piles Fam [] →
      (∃ S2 : FamData, FilterCrispFam sort cfg Piles S [] = [S2] ∧ S2.Perm S ∧
        S2.map (fun m => m.PileIndex) = S.map (fun m => m.PileIndex)) ∧
      ((Fam.map (fun m => m.PileIndex)).Nodup →
        FilterCrispFam sort cfg Piles S [] = [S])) ∧
    (∀ (InFams OutFams OutFams2 : FamList),
      (∀ F ∈ InFams, ∀ a ∈ F, ∀ b ∈ F,
        (Piles a.PileIndex).From = (Piles b.PileIndex).From → a.PileIndex = b.PileIndex) →
      List.Forall₂
        (fun S2 S => S2.Perm S ∧
          S2.map (fun m => m.PileIndex) = S.map (fun m => m.PileIndex))
        (FilterCrispFams sort cfg Piles (FilterCrispFams sort cfg Piles InFams OutFams)
          OutFams2)
        (FilterCrispFams sort cfg Piles InFams OutFams) ∧
      ((∀ F ∈ InFams, (F.map (fun m => m.PileIndex)).Nodup) →
        FilterCrispFams sort cfg Piles (FilterCrispFams sort cfg Piles InFams OutFams)
            OutFams2 =
          FilterCrispFams sort cfg Piles InFams OutFams)) := by
  constructor
  · intro Fam S hinj hS
    refine ⟨FilterCrispFam_emitted_again sort cfg Piles hsort Fam hinj S hS, fun hnd => ?_⟩
    exact FilterCrispFam_emitted_fixed sort cfg Piles hsort Fam
      (nodup_From_of_nodup_piles Piles Fam hinj hnd) S hS []
  · intro InFams OutFams OutFams2 hinj
    constructor
    · rw [FilterCrispFams_eq_flatMap sort cfg Piles hsort _ OutFams2]
      refine flatMap_singletons_related _ _ _ (fun S hS => ?_)
      rw [FilterCrispFams_eq_flatMap sort cfg Piles hsort InFams OutFams,
        List.mem_flatMap] at hS
      obtain ⟨F, hF, hSF⟩ := hS
      exact FilterCrispFam_emitted_again sort cfg Piles hsort F (hinj F hF) S hSF
    · intro hnd
      unfold FilterCrispFams
      have h := foldl_FilterCrispFam_fixed sort cfg Piles
        (InFams.foldl (fun OutFams Fam => FilterCrispFam sort cfg Piles Fam OutFams) []) []
        (foldl_FilterCrispFam_emitted sort cfg Piles hsort InFams []
          (fun F hF => nodup_From_of_nodup_piles Piles F (hinj F hF) (hnd F hF))
          (fun S hS => absurd hS (List.not_mem_nil S)))
      rwa [List.nil_append] at h

/-- C5 (witness): with `reversingSort` on the piles `[0,9]` and `[15,24]`, the filter run
on the emitted family `(0, reverse), (0, forward), (1, forward)` emits one family with
the same members and the piles 0, 0, 1; with the insertion sort on the five piles with
the gaps 30, 30, 30, 200, the emitted family of the piles 0 to 3 is emitted again
unchanged. -/
theorem FilterCrispFam_idempotent_witness :
    (∃ S2 : FamData,
      FilterCrispFam reversingSort defaultConfig pilesTwoClose
        [⟨0, true⟩, ⟨0, false⟩, ⟨1, false⟩] [] = [S2] ∧
      S2.Perm [⟨0, true⟩, ⟨0, false⟩, ⟨1, false⟩] ∧
      S2.map (fun m => m.PileIndex) = [0, 0, 1]) ∧
    FilterCrispFam insertionSort defaultConfig pilesGaps30_30_30_200 (famOfRange 5) [] =
      [famOfRange 4] ∧
    FilterCrispFam insertionSort defaultConfig pilesGaps30_30_30_200 (famOfRange 4) [] =
      [famOfRange 4] :=
  ⟨((FilterCrispFam_idempotent reversingSort defaultConfig pilesTwoClose
      (reversingSort_isStdSort _)).1 famPileTwice [⟨0, true⟩, ⟨0, false⟩, ⟨1, false⟩]
      (by decide) (by decide)).1,
    by decide,
    ((FilterCrispFam_idempotent insertionSort defaultConfig pilesGaps30_30_30_200
      (insertionSort_isStdSort _)).1 (famOfRange 5) (famOfRange 4) (by decide)
      (by decide)).2 (by decide)⟩

/-- C6: every family in the output of `FilterCrispFams` has at least
`g_paramMinFamSize` members, whatever the input families and the pile table. -/
theorem FilterCrispFams_min_size (sort : SortFn) (cfg : Config) (Piles : PileTable)
    (InFams OutFams : FamList) (F : FamData)
    (hF : F ∈ FilterCrispFams sort cfg Piles InFams OutFams) :
    cfg.g_paramMinFamSize ≤ F.length := by
  have hfold : ∀ (l acc : FamList),
      (∀ G ∈ acc, cfg.g_paramMinFamSize ≤ G.length) →
      ∀ G ∈ l.foldl (fun OutFams Fam => FilterCrispFam sort cfg Piles Fam OutFams) acc,
        cfg.g_paramMinFamSize ≤ G.length := by
    intro l
    induction l with
    | nil => intro acc hacc; exact hacc
    | cons Fam l ih =>
      intro acc hacc
      rw [List.foldl_cons]
      exact ih _ (FilterCrispFam_sizes sort cfg Piles Fam acc hacc)
  exact hfold InFams [] (fun G hG => absurd hG (List.not_mem_nil G)) F hF

/-- C6 (witness): of two input families, one regular of size 3 and one of size 2, only
the first is emitted, and it has at least three members. -/
theorem FilterCrispFams_min_size_witness :
    [⟨0, false⟩, ⟨1, false⟩, ⟨2, false⟩] ∈
      FilterCrispFams insertionSort defaultConfig pilesGaps30_30
        [famOfRange 3, famOfRange 2] [] ∧
    defaultConfig.g_paramMinFamSize ≤
      ([⟨0, false⟩, ⟨1, false⟩, ⟨2, false⟩] : FamData).length :=
  ⟨by decide,
    FilterCrispFams_min_size insertionSort defaultConfig pilesGaps30_30
      [famOfRange 3, famOfRange 2] [] [⟨0, false⟩, ⟨1, false⟩, ⟨2, false⟩] (by decide)⟩

/-- C7 (the code at the failing input): for the piles `[0,20]` and `[50,70]` the first
does not start after the second ends, `PileDist` returns `Pile2.From - Pile1.From = 50`,
and the distance of the claim, `Pile2.From - Pile1.To`, is 30. -/
theorem PileDist_upstream_pile :
    ¬ ((mkPile 0 20).From > (mkPile 50 70).To) ∧
    PileDist (mkPile 0 20) (mkPile 50 70) = 50 ∧
    (mkPile 50 70).From - (mkPile 0 20).To = 30 := by
  decide

/-- C8: for every pile table `FindCandEdges` produces exactly the edge list of the
specification: the piles in increasing index order, nothing for a pile whose length is
outside the CRISPR length window, otherwise one edge per image, in stored order, whose
partner's length is in the window and whose `PileDist` is in the spacer window. Emission
is per image: two equal qualifying images from pile 0 to pile 1 yield the edge twice. -/
theorem FindCandEdges_exact (cfg : Config) (Piles : PileTable) (PileCount : Nat)
    (Edges : EdgeList) (MaxImageCount : Nat) (Partners : Nat → Int)
    (PartnersRev : Nat → Bool) :
    FindCandEdges cfg Piles PileCount Edges MaxImageCount Partners PartnersRev =
      (List.range PileCount).flatMap (fun p =>
        if cfg.MIN_CRISPR_LENGTH ≤ pileLength (Piles p) ∧
            pileLength (Piles p) ≤ cfg.MAX_CRISPR_LENGTH then
          ((imagesOf (Piles p)).filter (fun im =>
            decide (cfg.MIN_CRISPR_LENGTH ≤ pileLength (Piles im.SIPile) ∧
              pileLength (Piles im.SIPile) ≤ cfg.MAX_CRISPR_LENGTH ∧
              cfg.MIN_SPACER_LENGTH ≤ PileDist (Piles p) (Piles im.SIPile) ∧
              PileDist (Piles p) (Piles im.SIPile) ≤ cfg.MAX_SPACER_LENGTH))).map
            (fun im => { Node1 := (p : Int), Node2 := im.SIPile, Rev := im.SIRev })
        else []) ∧
    (FindCandEdges defaultConfig pilesWithSelfImage 2 [] 3 (fun _ => 0)
      (fun _ => false)).count ⟨0, 1, false⟩ = 2 := by
  refine ⟨?_, by decide⟩
  rw [FindCandEdges_eq_spec]
  rfl

/-- C9: when both windows of one configuration are contained in the windows of another,
the edge list under the narrower windows is a sublist of the edge list under the wider
ones, so every edge is emitted under the wider windows at least as often. -/
theorem FindCandEdges_monotone (cfg cfg2 : Config) (Piles : PileTable) (PileCount : Nat)
    (Edges Edges2 : EdgeList) (MaxImageCount : Nat) (Partners Partners2 : Nat → Int)
    (PartnersRev PartnersRev2 : Nat → Bool)
    (hlen : ∀ x : Int, cfg.MIN_CRISPR_LENGTH ≤ x → x ≤ cfg.MAX_CRISPR_LENGTH →
      cfg2.MIN_CRISPR_LENGTH ≤ x ∧ x ≤ cfg2.MAX_CRISPR_LENGTH)
    (hsp : ∀ x : Int, cfg.MIN_SPACER_LENGTH ≤ x → x ≤ cfg.MAX_SPACER_LENGTH →
      cfg2.MIN_SPACER_LENGTH ≤ x ∧ x ≤ cfg2.MAX_SPACER_LENGTH) :
    (FindCandEdges cfg Piles PileCount Edges MaxImageCount Partners PartnersRev).Sublist
      (FindCandEdges cfg2 Piles PileCount Edges2 MaxImageCount Partners2 PartnersRev2) ∧
    ∀ e : EdgeData,
      (FindCandEdges cfg Piles PileCount Edges MaxImageCount Partners PartnersRev).count e ≤
      (FindCandEdges cfg2 Piles PileCount Edges2 MaxImageCount Partners2
        PartnersRev2).count e := by
  rw [FindCandEdges_eq_spec, FindCandEdges_eq_spec]
  have h := specCandEdges_sublist cfg cfg2 Piles PileCount hlen hsp
  exact ⟨h, fun e => h.count_le e⟩

/-- C9 (witness): the spacer window `[40, 200]` is contained in `[10, 200]`; on the two
piles `[0,20]` and `[50,70]` the narrow windows give the two edges 0-1, the wide windows
give them and the two edges 1-0. -/
theorem FindCandEdges_monotone_witness :
    FindCandEdges narrowConfig pilesWithSelfImage 2 [] 3 (fun _ => 0) (fun _ => false) =
      [⟨0, 1, false⟩, ⟨0, 1, false⟩] ∧
    FindCandEdges defaultConfig pilesWithSelfImage 2 [] 3 (fun _ => 0) (fun _ => false) =
      [⟨0, 1, false⟩, ⟨0, 1, false⟩, ⟨1, 0, false⟩, ⟨1, 0, false⟩] ∧
    (FindCandEdges narrowConfig pilesWithSelfImage 2 [] 3 (fun _ => 0)
      (fun _ => false)).Sublist
      (FindCandEdges defaultConfig pilesWithSelfImage 2 [] 3 (fun _ => 0) (fun _ => false)) :=
  ⟨by decide, by decide,
    (FindCandEdges_monotone narrowConfig defaultConfig pilesWithSelfImage 2 [] [] 3
      (fun _ => 0) (fun _ => 0) (fun _ => false) (fun _ => false)
      (fun x h1 h2 => ⟨h1, h2⟩)
      (fun x h1 h2 => by
        simp only [narrowConfig, defaultConfig] at h1 h2 ⊢
        omega)).1⟩

/-- C10: in a pile table whose piles have `From ≤ To` and whose images name partner
indices in `[0, PileCount)`, every edge that `FindCandEdges` emits with
`MIN_SPACER_LENGTH = 10` joins two pile indices in `[0, PileCount)` that differ; an
image of a pile on itself yields no edge. -/
theorem FindCandEdges_no_self_edge (cfg : Config) (Piles : PileTable) (PileCount : Nat)
    (Edges : EdgeList) (MaxImageCount : Nat) (Partners : Nat → Int)
    (PartnersRev : Nat → Bool)
    (hmin : cfg.MIN_SPACER_LENGTH = 10)
    (hext : ∀ p : Nat, p < PileCount → (Piles p).From ≤ (Piles p).To)
    (himg : ∀ p k : Nat, p < PileCount → k < (Piles p).ImageCount →
      0 ≤ ((Piles p).Images k).SIPile ∧ ((Piles p).Images k).SIPile < PileCount)
    (e : EdgeData)
    (he : e ∈ FindCandEdges cfg Piles PileCount Edges MaxImageCount Partners PartnersRev) :
    (0 ≤ e.Node1 ∧ e.Node1 < PileCount) ∧ (0 ≤ e.Node2 ∧ e.Node2 < PileCount) ∧
      e.Node1 ≠ e.Node2 := by
  rw [FindCandEdges_eq_spec] at he
  obtain ⟨p, k, hp, hk, rfl, hq⟩ := mem_specCandEdges cfg Piles PileCount e he
  refine ⟨⟨by simp, by simpa using hp⟩, himg p k hp hk, ?_⟩
  intro heq
  simp only at heq
  simp only [imageQualifies, decide_eq_true_eq] at hq
  rw [← heq] at hq
  have hd : PileDist (Piles p) (Piles p) = 0 := by
    unfold PileDist
    rw [if_neg (not_lt.2 (hext p hp))]
    omega
  rw [hd, hmin] at hq
  omega

/-- C10 (witness): pile 0 of the two-pile table holds an image of itself; the edge 0-1
is emitted and joins two different valid piles, and no edge 0-0 is in the list. -/
theorem FindCandEdges_no_self_edge_witness :
    (⟨0, 1, false⟩ : EdgeData) ∈
      FindCandEdges defaultConfig pilesWithSelfImage 2 [] 3 (fun _ => 0) (fun _ => false) ∧
    (⟨0, 0, false⟩ : EdgeData) ∉
      FindCandEdges defaultConfig pilesWithSelfImage 2 [] 3 (fun _ => 0) (fun _ => false) ∧
    ((0 ≤ (⟨0, 1, false⟩ : EdgeData).Node1 ∧ (⟨0, 1, false⟩ : EdgeData).Node1 < (2 : Nat)) ∧
      (0 ≤ (⟨0, 1, false⟩ : EdgeData).Node2 ∧ (⟨0, 1, false⟩ : EdgeData).Node2 < (2 : Nat)) ∧
      (⟨0, 1, false⟩ : EdgeData).Node1 ≠ (⟨0, 1, false⟩ : EdgeData).Node2) :=
  ⟨by decide, by decide,
    FindCandEdges_no_self_edge defaultConfig pilesWithSelfImage 2 [] 3 (fun _ => 0)
      (fun _ => false) rfl
      (fun p hp => by interval_cases p <;> decide)
      (fun p k hp hk => by
        interval_cases p
        · have hk2 : k < 3 := hk
          interval_cases k <;> decide
        · have hk2 : k < 2 := hk
          interval_cases k <;> decide)
      ⟨0, 1, false⟩ (by decide)⟩

/-- C11: when `IdentifyPiles` does not abort, `PileCount` is the number of maximal runs
of covered chunks; for covered chunks `i < j` the index of `i` is at most the index of
`j`, with equality exactly when every chunk from `i` to `j` is covered, and with a
smaller index exactly when an uncovered chunk lies between them; and the indices held by
covered chunks are exactly `0, ..., PileCount - 1`. -/
theorem IdentifyPiles_runs (MAX_STACK_INDEX : Int) (SeqLengthChunks : Nat)
    (CopyCount : Int → Bool) (PileIndexes0 PileIndexes : Int → Int) (PileCount : Nat)
    (hMAX : 0 ≤ MAX_STACK_INDEX)
    (h : IdentifyPiles MAX_STACK_INDEX SeqLengthChunks CopyCount PileIndexes0 =
      some (PileIndexes, PileCount)) :
    PileCount = runCount CopyCount SeqLengthChunks ∧
    (∀ i j : Nat, i < j → j < SeqLengthChunks →
      CopyCount (i : Int) = true → CopyCount (j : Int) = true →
      PileIndexes (i : Int) ≤ PileIndexes (j : Int) ∧
      (PileIndexes (i : Int) = PileIndexes (j : Int) ↔
        ∀ k : Nat, i ≤ k → k ≤ j → CopyCount (k : Int) = true) ∧
      (PileIndexes (i : Int) < PileIndexes (j : Int) ↔
        ∃ k : Nat, i < k ∧ k < j ∧ CopyCount (k : Int) = false)) ∧
    (∀ p : Int, (0 ≤ p ∧ p < PileCount) ↔
      ∃ i : Nat, i < SeqLengthChunks ∧ CopyCount (i : Int) = true ∧
        PileIndexes (i : Int) = p) := by
  obtain ⟨hcount, hcov, _⟩ :=
    IdentifyPiles_some MAX_STACK_INDEX SeqLengthChunks CopyCount PileIndexes0 PileIndexes
      PileCount hMAX h
  refine ⟨hcount, ?_, ?_⟩
  · intro i j hij hj hbi hbj
    rw [hcov i (by omega) hbi, hcov j hj hbj]
    have hmono := runCount_mono CopyCount (i + 1) (j + 1) (by omega)
    have hiff := runCount_eq_iff CopyCount i j (by omega) hbi hbj
    refine ⟨by omega, ?_, ?_⟩
    · constructor
      · intro he; exact hiff.1 (by omega)
      · intro hall; have := hiff.2 hall; omega
    · constructor
      · intro hlt
        by_contra hno
        have hall : ∀ k : Nat, i ≤ k → k ≤ j → CopyCount (k : Int) = true := by
          intro k hk1 hk2
          by_contra hk
          have hk3 : CopyCount (k : Int) = false := by simpa using hk
          have hki : k ≠ i := by
            intro he; subst he; rw [hbi] at hk3; exact Bool.noConfusion hk3
          have hkj : k ≠ j := by
            intro he; subst he; rw [hbj] at hk3; exact Bool.noConfusion hk3
          exact hno ⟨k, by omega, by omega, hk3⟩
        have := hiff.2 hall
        omega
      · rintro ⟨k, hk1, hk2, hk3⟩
        have h1 := runCount_lt_of_gap CopyCount k hk3 j hk2 hbj
        have h2 := runCount_mono CopyCount (i + 1) (k + 1) (by omega)
        omega
  · intro p
    constructor
    · rintro ⟨hp0, hp1⟩
      have hp2 : p.toNat < runCount CopyCount SeqLengthChunks := by
        rw [hcount] at hp1; omega
      obtain ⟨i, hi, hb, hc⟩ := runCount_surj CopyCount SeqLengthChunks p.toNat hp2
      refine ⟨i, hi, hb, ?_⟩
      rw [hcov i hi hb, hc]
      push_cast
      omega
    · rintro ⟨i, hi, hb, rfl⟩
      rw [hcov i hi hb, hcount]
      exact runCount_index_range CopyCount SeqLengthChunks i hi hb

/-- C11 (witness): on the bitmap `1 1 0 1 1 1 0` with `MAX_STACK_INDEX = 7`,
`IdentifyPiles` returns the indices 0 0 - 1 1 1 - and two piles, the number of runs. -/
theorem IdentifyPiles_runs_witness :
    ∃ PileIndexes : Int → Int,
      IdentifyPiles 7 7 bitmap1101110 (fun _ => -1) = some (PileIndexes, 2) ∧
      (List.range 7).map (fun i : Nat => PileIndexes (i : Int)) = [0, 0, -1, 1, 1, 1, -1] ∧
      2 = runCount bitmap1101110 7 := by
  obtain ⟨PI, he, _⟩ :=
    (IdentifyPiles_spec 7 7 bitmap1101110 (fun _ => -1) (by decide)).2 (by decide)
  have he2 : IdentifyPiles 7 7 bitmap1101110 (fun _ => -1) = some (PI, 2) := he
  have hd : (IdentifyPiles 7 7 bitmap1101110 (fun _ => -1)).map
      (fun r => (List.range 7).map (fun i : Nat => r.1 (i : Int))) =
      some [0, 0, -1, 1, 1, 1, -1] := by decide
  rw [he2] at hd
  exact ⟨PI, he2, by simpa using hd,
    (IdentifyPiles_runs 7 7 bitmap1101110 (fun _ => -1) PI 2 (by decide) he2).1⟩

/-- C15 (counterexample): with `MAX_STACK_INDEX = 1` the bitmap `1 0 1` has two piles,
more than `MAX_STACK_INDEX`, and `IdentifyPiles` completes with the indices 0 and 1. -/
theorem IdentifyPiles_completes_above_max :
    (runCount bitmap101 3 : Int) > 1 ∧
    (IdentifyPiles 1 3 bitmap101 (fun _ => -1)).map
        (fun r => ((List.range 3).map (fun i : Nat => r.1 (i : Int)), r.2)) =
      some ([0, -1, 1], 2) := by
  decide

/-- C15 (amended): for `MAX_STACK_INDEX ≥ 0`, `IdentifyPiles` aborts exactly when the
number of piles of the bitmap exceeds `MAX_STACK_INDEX + 1`, that is when the index of
the last pile would exceed `MAX_STACK_INDEX`; otherwise it completes and returns the
index map with the number of piles. -/
theorem IdentifyPiles_abort_iff (MAX_STACK_INDEX : Int) (SeqLengthChunks : Nat)
    (CopyCount : Int → Bool) (PileIndexes0 : Int → Int) (hMAX : 0 ≤ MAX_STACK_INDEX) :
    (IdentifyPiles MAX_STACK_INDEX SeqLengthChunks CopyCount PileIndexes0 = none ↔
      (runCount CopyCount SeqLengthChunks : Int) > MAX_STACK_INDEX + 1) ∧
    ((runCount CopyCount SeqLengthChunks : Int) ≤ MAX_STACK_INDEX + 1 →
      ∃ PileIndexes : Int → Int,
        IdentifyPiles MAX_STACK_INDEX SeqLengthChunks CopyCount PileIndexes0 =
          some (PileIndexes, runCount CopyCount SeqLengthChunks)) := by
  obtain ⟨h1, h2⟩ :=
    IdentifyPiles_spec MAX_STACK_INDEX SeqLengthChunks CopyCount PileIndexes0 hMAX
  refine ⟨⟨?_, h1⟩, ?_⟩
  · intro hn
    by_contra hc
    obtain ⟨PI, he, _⟩ := h2 (by omega)
    rw [he] at hn
    exact Option.noConfusion hn
  · intro hc
    obtain ⟨PI, he, _⟩ := h2 hc
    exact ⟨PI, he⟩

/-- C15 (witness): with `MAX_STACK_INDEX = 0` the bitmap `1 0 1` has two piles, more than
`MAX_STACK_INDEX + 1`, and `IdentifyPiles` aborts. -/
theorem IdentifyPiles_abort_iff_witness :
    (runCount bitmap101 3 : Int) > 0 + 1 ∧ IdentifyPiles 0 3 bitmap101 (fun _ => -1) = none :=
  ⟨by decide,
    ((IdentifyPiles_abort_iff 0 3 bitmap101 (fun _ => -1) (by decide)).1).2 (by decide)⟩

/-- C17: for `CHUNK_LENGTH > 0`, `SeqLengthChunks ≥ 1` and an interval with
`0 ≤ From ≤ To`, `IncCopyCountImage` does not abort, and afterwards bit `i` is set iff it
was set before or `i` lies between `min(From / CHUNK_LENGTH, SeqLengthChunks - 1)` and
`min(To / CHUNK_LENGTH, SeqLengthChunks - 1)`, the division rounding down. Hence
`IncCopyCount` on a hit with two such intervals does not abort, clears no bit, and covers
every chunk of the bitmap that one of the two intervals spans. -/
theorem IncCopyCountImage_marks_chunk_range (CHUNK_LENGTH : Int) (SeqLengthChunks : Nat)
    (CopyCount : Int → Bool) (From To : Int)
    (hC : 0 < CHUNK_LENGTH) (hN : 1 ≤ SeqLengthChunks) (h0 : 0 ≤ From) (hFT : From ≤ To) :
    (∃ CopyCount2 : Int → Bool,
      IncCopyCountImage CHUNK_LENGTH SeqLengthChunks CopyCount From To = some CopyCount2 ∧
      ∀ i : Int, CopyCount2 i = true ↔
        (CopyCount i = true ∨
          (min (From / CHUNK_LENGTH) ((SeqLengthChunks : Int) - 1) ≤ i ∧
            i ≤ min (To / CHUNK_LENGTH) ((SeqLengthChunks : Int) - 1)))) ∧
    (∀ Hit : HitData, 0 ≤ Hit.QueryFrom → Hit.QueryFrom ≤ Hit.QueryTo →
      0 ≤ Hit.TargetFrom → Hit.TargetFrom ≤ Hit.TargetTo →
      ∃ CopyCount2 : Int → Bool,
        IncCopyCount CHUNK_LENGTH SeqLengthChunks CopyCount Hit = some CopyCount2 ∧
        (∀ i : Int, CopyCount i = true → CopyCount2 i = true) ∧
        (∀ i : Int, i < (SeqLengthChunks : Int) →
          ((Hit.QueryFrom / CHUNK_LENGTH ≤ i ∧ i ≤ Hit.QueryTo / CHUNK_LENGTH) ∨
            (Hit.TargetFrom / CHUNK_LENGTH ≤ i ∧ i ≤ Hit.TargetTo / CHUNK_LENGTH)) →
          CopyCount2 i = true)) := by
  refine ⟨IncCopyCountImage_spec CHUNK_LENGTH SeqLengthChunks CopyCount From To hC hN h0 hFT,
    ?_⟩
  intro Hit hq0 hq ht0 ht
  obtain ⟨b2, h2, hb2⟩ :=
    IncCopyCount_spec CHUNK_LENGTH SeqLengthChunks CopyCount Hit hC hN hq0 hq ht0 ht
  refine ⟨b2, h2, fun i hi => (hb2 i).2 (Or.inl hi), ?_⟩
  intro i hiN hi
  refine (hb2 i).2 (Or.inr ?_)
  rcases hi with ⟨h1, h3⟩ | ⟨h1, h3⟩
  · refine Or.inr ⟨le_trans (min_le_left _ _) h1, le_min h3 (by omega)⟩
  · refine Or.inl ⟨le_trans (min_le_left _ _) h1, le_min h3 (by omega)⟩

/-- C17 (witness): with `CHUNK_LENGTH = 10` and ten chunks, the interval `[15, 47]` marks
the chunks 1 to 4 of the empty bitmap and no other. -/
theorem IncCopyCountImage_marks_chunk_range_witness :
    (IncCopyCountImage 10 10 (fun _ => false) 15 47).map
        (fun b => (List.range 10).map (fun i : Nat => b (i : Int))) =
      some [false, true, true, true, true, false, false, false, false, false] ∧
    ∃ CopyCount2 : Int → Bool,
      IncCopyCountImage 10 10 (fun _ => false) 15 47 = some CopyCount2 ∧
      ∀ i : Int, CopyCount2 i = true ↔
        ((fun _ => false) i = true ∨
          (min (15 / 10) (((10 : Nat) : Int) - 1) ≤ i ∧
            i ≤ min (47 / 10) (((10 : Nat) : Int) - 1))) :=
  ⟨by decide,
    (IncCopyCountImage_marks_chunk_range 10 10 (fun _ => false) 15 47 (by decide)
      (by decide) (by decide) (by decide)).1⟩

/-- C12: after a `CreatePiles` that passes its assertions, every image stored on a pile
`P` below `PileCount` names a partner pile `Q` below `PileCount`, and `Q` stores an image
that names `P` with the same reverse flag. -/
theorem CreatePiles_image_symmetry (CHUNK_LENGTH : Int) (PileIndexes : Int → Int)
    (PileCount : Nat) (Hits : List HitData) (Piles : PileTable)
    (h : CreatePiles CHUNK_LENGTH PileIndexes PileCount Hits = some Piles) :
    ∀ P : Int, 0 ≤ P → P < (PileCount : Int) → ∀ Image ∈ imagesOf (Piles P),
      (0 ≤ Image.SIPile ∧ Image.SIPile < (PileCount : Int)) ∧
      ∃ Image2 ∈ imagesOf (Piles Image.SIPile),
        Image2.SIPile = P ∧ Image2.SIRev = Image.SIRev := by
  obtain ⟨T1, T2, _, _, hfill⟩ :=
    CreatePiles_some CHUNK_LENGTH PileIndexes PileCount Hits Piles h
  exact CreatePilesFill_symmetric CHUNK_LENGTH PileIndexes PileCount T2 Piles Hits hfill

/-- C12 (witness): for the two hits that join pile 0 and pile 1, `CreatePiles` stores two
images of pile 1 on pile 0 and two images of pile 0 on pile 1, and the images are
symmetric. -/
theorem CreatePiles_image_symmetry_witness :
    (CreatePiles 10 pileIndexesTwoPiles 2 hitsTwoPiles).map
        (fun T => (imagesOf (T 0), imagesOf (T 1))) =
      some ([⟨23, 1, false⟩, ⟨28, 1, false⟩], [⟨32, 0, false⟩, ⟨25, 0, false⟩]) ∧
    ∃ Piles : PileTable, CreatePiles 10 pileIndexesTwoPiles 2 hitsTwoPiles = some Piles ∧
      ∀ P : Int, 0 ≤ P → P < ((2 : Nat) : Int) → ∀ Image ∈ imagesOf (Piles P),
        (0 ≤ Image.SIPile ∧ Image.SIPile < ((2 : Nat) : Int)) ∧
        ∃ Image2 ∈ imagesOf (Piles Image.SIPile),
          Image2.SIPile = P ∧ Image2.SIRev = Image.SIRev := by
  refine ⟨by decide, ?_⟩
  cases hc : CreatePiles 10 pileIndexesTwoPiles 2 hitsTwoPiles with
  | none =>
    have hs : (CreatePiles 10 pileIndexesTwoPiles 2 hitsTwoPiles).isSome = true := by decide
    rw [hc] at hs
    exact Bool.noConfusion hs
  | some Piles =>
    exact ⟨Piles, rfl,
      CreatePiles_image_symmetry 10 pileIndexesTwoPiles 2 hitsTwoPiles Piles hc⟩

/-- C16: when every hit has `0 ≤ From ≤ To` on both intervals and `CreatePiles` passes
its assertions, every pile below `PileCount` to which at least one interval resolves
(by `PileIndexes[From / CHUNK_LENGTH]`) ends with `From` the least `From` and `To` the
greatest `To` of the query and target intervals that resolve to it, and neither is the
sentinel -1. -/
theorem CreatePiles_extent (CHUNK_LENGTH : Int) (PileIndexes : Int → Int) (PileCount : Nat)
    (Hits : List HitData) (Piles : PileTable)
    (hcoord : ∀ Hit ∈ Hits, (0 ≤ Hit.QueryFrom ∧ Hit.QueryFrom ≤ Hit.QueryTo) ∧
      (0 ≤ Hit.TargetFrom ∧ Hit.TargetFrom ≤ Hit.TargetTo))
    (h : CreatePiles CHUNK_LENGTH PileIndexes PileCount Hits = some Piles)
    (P : Int) (hP0 : 0 ≤ P) (hP1 : P < (PileCount : Int))
    (hrecv : intervalsOf CHUNK_LENGTH PileIndexes Hits P ≠ []) :
    (∀ iv ∈ intervalsOf CHUNK_LENGTH PileIndexes Hits P,
      (Piles P).From ≤ iv.1 ∧ iv.2 ≤ (Piles P).To) ∧
    (∃ iv ∈ intervalsOf CHUNK_LENGTH PileIndexes Hits P, iv.1 = (Piles P).From) ∧
    (∃ iv ∈ intervalsOf CHUNK_LENGTH PileIndexes Hits P, iv.2 = (Piles P).To) ∧
    (Piles P).From ≠ -1 ∧ (Piles P).To ≠ -1 := by
  obtain ⟨T1, T2, _, _, hfill⟩ :=
    CreatePiles_some CHUNK_LENGTH PileIndexes PileCount Hits Piles h
  have hc : ∀ Hit ∈ Hits, 0 ≤ Hit.QueryFrom ∧ 0 ≤ Hit.QueryTo ∧
      0 ≤ Hit.TargetFrom ∧ 0 ≤ Hit.TargetTo := by
    intro Hit hHit
    have := hcoord Hit hHit
    omega
  obtain ⟨hhull, hnn⟩ :=
    CreatePilesFill_hull CHUNK_LENGTH PileIndexes PileCount T2 Piles Hits hc hfill P hP0 hP1
  rcases hhull with ⟨he, _, _⟩ | ⟨hall, ⟨ivF, hivF, hF⟩, ⟨ivT, hivT, hT⟩⟩
  · exact absurd he hrecv
  · refine ⟨hall, ⟨ivF, hivF, hF⟩, ⟨ivT, hivT, hT⟩, ?_, ?_⟩
    · have := (hnn ivF hivF).1; omega
    · have := (hnn ivT hivT).2; omega

/-- C16 (witness): for the two hits with the query intervals `[15, 47]`, `[20, 45]` and
the target intervals `[62, 85]`, `[60, 88]`, pile 0 ends with the extent `[15, 47]` and
pile 1 with `[60, 88]`. -/
theorem CreatePiles_extent_witness :
    (CreatePiles 10 pileIndexesTwoPiles 2 hitsTwoPiles).map
        (fun T => ((T 0).From, (T 0).To, (T 1).From, (T 1).To)) = some (15, 47, 60, 88) ∧
    ∃ Piles : PileTable, CreatePiles 10 pileIndexesTwoPiles 2 hitsTwoPiles = some Piles ∧
      (∀ iv ∈ intervalsOf 10 pileIndexesTwoPiles hitsTwoPiles 1,
        (Piles 1).From ≤ iv.1 ∧ iv.2 ≤ (Piles 1).To) ∧
      (∃ iv ∈ intervalsOf 10 pileIndexesTwoPiles hitsTwoPiles 1, iv.1 = (Piles 1).From) ∧
      (∃ iv ∈ intervalsOf 10 pileIndexesTwoPiles hitsTwoPiles 1, iv.2 = (Piles 1).To) ∧
      (Piles 1).From ≠ -1 ∧ (Piles 1).To ≠ -1 := by
  refine ⟨by decide, ?_⟩
  cases hc : CreatePiles 10 pileIndexesTwoPiles 2 hitsTwoPiles with
  | none =>
    have hs : (CreatePiles 10 pileIndexesTwoPiles 2 hitsTwoPiles).isSome = true := by decide
    rw [hc] at hs
    exact Bool.noConfusion hs
  | some Piles =>
    exact ⟨Piles, rfl,
      CreatePiles_extent 10 pileIndexesTwoPiles 2 hitsTwoPiles Piles (by decide) hc 1
        (by decide) (by decide) (by decide)⟩

/-- C18: for hits whose intervals satisfy `0 ≤ From ≤ To < SeqLength`, the bitmap build
does not abort, and for every index map that `IdentifyPiles` returns on that bitmap both
ends of every interval resolve to one pile, whose index lies in `[0, PileCount)`; so the
counting loop of `CreatePiles` passes its assertions. -/
theorem CreatePiles_pass1_consistent (CHUNK_LENGTH SeqLength MAX_STACK_INDEX : Int)
    (Hits : List HitData) (PileIndexes0 : Int → Int)
    (hC : 0 < CHUNK_LENGTH) (hMAX : 0 ≤ MAX_STACK_INDEX)
    (hcoord : ∀ Hit ∈ Hits,
      (0 ≤ Hit.QueryFrom ∧ Hit.QueryFrom ≤ Hit.QueryTo ∧ Hit.QueryTo < SeqLength) ∧
      (0 ≤ Hit.TargetFrom ∧ Hit.TargetFrom ≤ Hit.TargetTo ∧ Hit.TargetTo < SeqLength)) :
    ∃ CopyCount : Int → Bool,
      ComputeCopyCounts CHUNK_LENGTH (SeqLengthChunksOf CHUNK_LENGTH SeqLength) Hits =
        some CopyCount ∧
      ∀ (PileIndexes : Int → Int) (PileCount : Nat),
        IdentifyPiles MAX_STACK_INDEX (SeqLengthChunksOf CHUNK_LENGTH SeqLength) CopyCount
          PileIndexes0 = some (PileIndexes, PileCount) →
        (∀ Hit ∈ Hits,
          (PileIndexes (Int.tdiv Hit.QueryFrom CHUNK_LENGTH) =
              PileIndexes (Int.tdiv Hit.QueryTo CHUNK_LENGTH) ∧
            0 ≤ PileIndexes (Int.tdiv Hit.QueryFrom CHUNK_LENGTH) ∧
            PileIndexes (Int.tdiv Hit.QueryFrom CHUNK_LENGTH) < (PileCount : Int)) ∧
          (PileIndexes (Int.tdiv Hit.TargetFrom CHUNK_LENGTH) =
              PileIndexes (Int.tdiv Hit.TargetTo CHUNK_LENGTH) ∧
            0 ≤ PileIndexes (Int.tdiv Hit.TargetFrom CHUNK_LENGTH) ∧
            PileIndexes (Int.tdiv Hit.TargetFrom CHUNK_LENGTH) < (PileCount : Int))) ∧
        ∃ T : PileTable,
          CreatePilesCount CHUNK_LENGTH PileIndexes PileCount Hits = some T := by
  obtain ⟨b, hb, _⟩ := ComputeCopyCounts_spec CHUNK_LENGTH SeqLength Hits hC hcoord
  refine ⟨b, hb, ?_⟩
  intro PI PileCount hPI
  have hres := hits_resolve CHUNK_LENGTH SeqLength MAX_STACK_INDEX Hits b PileIndexes0 PI
    PileCount hC hMAX hcoord hb hPI
  have hres2 : ∀ Hit ∈ Hits,
      (PI (Int.tdiv Hit.QueryFrom CHUNK_LENGTH) = PI (Int.tdiv Hit.QueryTo CHUNK_LENGTH) ∧
        0 ≤ PI (Int.tdiv Hit.QueryFrom CHUNK_LENGTH) ∧
        PI (Int.tdiv Hit.QueryFrom CHUNK_LENGTH) < (PileCount : Int)) ∧
      (PI (Int.tdiv Hit.TargetFrom CHUNK_LENGTH) = PI (Int.tdiv Hit.TargetTo CHUNK_LENGTH) ∧
        0 ≤ PI (Int.tdiv Hit.TargetFrom CHUNK_LENGTH) ∧
        PI (Int.tdiv Hit.TargetFrom CHUNK_LENGTH) < (PileCount : Int)) :=
    fun Hit hHit => ⟨(hres Hit hHit).1.2, (hres Hit hHit).2.2⟩
  obtain ⟨T, hT, _⟩ := CreatePilesCount_spec CHUNK_LENGTH PI PileCount Hits hres2
  exact ⟨hres2, T, hT⟩

/-- C18 (witness): with `CHUNK_LENGTH = 10` and `SeqLength = 100` the two hits give the
index map `- 0 0 0 0 - 1 1 1 -` with two piles, and the statement of the theorem holds
for them. -/
theorem CreatePiles_pass1_consistent_witness :
    (identifyPilesOfHits 10 100 1000 hitsTwoPiles).map
        (fun r => ((List.range 10).map (fun i : Nat => r.1 (i : Int)), r.2)) =
      some ([-1, 0, 0, 0, 0, -1, 1, 1, 1, -1], 2) ∧
    ∃ CopyCount : Int → Bool,
      ComputeCopyCounts 10 (SeqLengthChunksOf 10 100) hitsTwoPiles = some CopyCount ∧
      ∀ (PileIndexes : Int → Int) (PileCount : Nat),
        IdentifyPiles 1000 (SeqLengthChunksOf 10 100) CopyCount (fun _ => -1) =
          some (PileIndexes, PileCount) →
        (∀ Hit ∈ hitsTwoPiles,
          (PileIndexes (Int.tdiv Hit.QueryFrom 10) = PileIndexes (Int.tdiv Hit.QueryTo 10) ∧
            0 ≤ PileIndexes (Int.tdiv Hit.QueryFrom 10) ∧
            PileIndexes (Int.tdiv Hit.QueryFrom 10) < (PileCount : Int)) ∧
          (PileIndexes (Int.tdiv Hit.TargetFrom 10) = PileIndexes (Int.tdiv Hit.TargetTo 10) ∧
            0 ≤ PileIndexes (Int.tdiv Hit.TargetFrom 10) ∧
            PileIndexes (Int.tdiv Hit.TargetFrom 10) < (PileCount : Int))) ∧
        ∃ T : PileTable, CreatePilesCount 10 PileIndexes PileCount hitsTwoPiles = some T :=
  ⟨by decide,
    CreatePiles_pass1_consistent 10 100 1000 hitsTwoPiles (fun _ => -1) (by decide)
      (by decide) (by decide)⟩

/-- C19: for hits whose intervals satisfy `0 ≤ From ≤ To < SeqLength`, with the bitmap
built from exactly those hits and any index map that `IdentifyPiles` returns on it, the
counting loop of `CreatePiles` completes, every pile index below `PileCount` has
`ImageCount ≥ 1` afterwards (so the allocation loop passes its assertion), and the image
counts of the piles add up to twice the number of hits. -/
theorem CreatePiles_counting_pass (CHUNK_LENGTH SeqLength MAX_STACK_INDEX : Int)
    (Hits : List HitData) (PileIndexes0 : Int → Int)
    (hC : 0 < CHUNK_LENGTH) (hMAX : 0 ≤ MAX_STACK_INDEX)
    (hcoord : ∀ Hit ∈ Hits,
      (0 ≤ Hit.QueryFrom ∧ Hit.QueryFrom ≤ Hit.QueryTo ∧ Hit.QueryTo < SeqLength) ∧
      (0 ≤ Hit.TargetFrom ∧ Hit.TargetFrom ≤ Hit.TargetTo ∧ Hit.TargetTo < SeqLength)) :
    ∃ CopyCount : Int → Bool,
      ComputeCopyCounts CHUNK_LENGTH (SeqLengthChunksOf CHUNK_LENGTH SeqLength) Hits =
        some CopyCount ∧
      ∀ (PileIndexes : Int → Int) (PileCount : Nat),
        IdentifyPiles MAX_STACK_INDEX (SeqLengthChunksOf CHUNK_LENGTH SeqLength) CopyCount
          PileIndexes0 = some (PileIndexes, PileCount) →
        ∃ T : PileTable,
          CreatePilesCount CHUNK_LENGTH PileIndexes PileCount Hits = some T ∧
          (∀ p : Nat, p < PileCount → 1 ≤ (T (p : Int)).ImageCount) ∧
          CreatePilesAlloc PileCount T = some T ∧
          ((List.range PileCount).map (fun p : Nat => (T (p : Int)).ImageCount)).sum =
            2 * Hits.length := by
  obtain ⟨b, hb, _⟩ := ComputeCopyCounts_spec CHUNK_LENGTH SeqLength Hits hC hcoord
  refine ⟨b, hb, ?_⟩
  intro PI PileCount hPI
  have hres := hits_resolve CHUNK_LENGTH SeqLength MAX_STACK_INDEX Hits b PileIndexes0 PI
    PileCount hC hMAX hcoord hb hPI
  obtain ⟨T, hT, hcnt⟩ := CreatePilesCount_spec CHUNK_LENGTH PI PileCount Hits
    (fun Hit hHit => ⟨(hres Hit hHit).1.2, (hres Hit hHit).2.2⟩)
  have hpos : ∀ p : Nat, p < PileCount → 1 ≤ (T (p : Int)).ImageCount := by
    intro p hp
    rw [hcnt]
    exact List.count_pos_iff.2 (every_pile_resolved CHUNK_LENGTH SeqLength MAX_STACK_INDEX
      Hits b PileIndexes0 PI PileCount hC hMAX hcoord hb hPI p hp)
  refine ⟨T, hT, hpos, CreatePilesAlloc_some PileCount T hpos, ?_⟩
  have hrange : ∀ e ∈ resolvedPiles CHUNK_LENGTH PI Hits, 0 ≤ e ∧ e < (PileCount : Int) := by
    intro e he
    rw [mem_resolvedPiles] at he
    obtain ⟨Hit, hHit, h1 | h1⟩ := he
    · rw [h1]; exact (hres Hit hHit).1.2.2
    · rw [h1]; exact (hres Hit hHit).2.2.2
  have hsum := sum_count_range PileCount (resolvedPiles CHUNK_LENGTH PI Hits) hrange
  rw [resolvedPiles_length] at hsum
  rw [← hsum]
  congr 1
  apply List.map_congr_left
  intro p _
  exact hcnt (p : Int)

/-- C19 (witness): for the two hits with `CHUNK_LENGTH = 10` and `SeqLength = 100` the
counting loop leaves two images on each of the two piles, four in all. -/
theorem CreatePiles_counting_pass_witness :
    ((identifyPilesOfHits 10 100 1000 hitsTwoPiles).bind
        (fun r => (CreatePilesCount 10 r.1 r.2 hitsTwoPiles).map
          (fun T => (List.range r.2).map (fun p : Nat => (T (p : Int)).ImageCount)))) =
      some [2, 2] ∧
    ∃ CopyCount : Int → Bool,
      ComputeCopyCounts 10 (SeqLengthChunksOf 10 100) hitsTwoPiles = some CopyCount ∧
      ∀ (PileIndexes : Int → Int) (PileCount : Nat),
        IdentifyPiles 1000 (SeqLengthChunksOf 10 100) CopyCount (fun _ => -1) =
          some (PileIndexes, PileCount) →
        ∃ T : PileTable,
          CreatePilesCount 10 PileIndexes PileCount hitsTwoPiles = some T ∧
          (∀ p : Nat, p < PileCount → 1 ≤ (T (p : Int)).ImageCount) ∧
          CreatePilesAlloc PileCount T = some T ∧
          ((List.range PileCount).map (fun p : Nat => (T (p : Int)).ImageCount)).sum =
            2 * hitsTwoPiles.length :=
  ⟨by decide,
    CreatePiles_counting_pass 10 100 1000 hitsTwoPiles (fun _ => -1) (by decide)
      (by decide) (by decide)⟩

/-- C20 (the code at the failing input): with `CHUNK_LENGTH = 10` and `SeqLength = 100`,
the hit with the single-base query interval `[10, 10]` and the target interval
`[40, 60]` is a candidate hit and covers chunk 1 and chunks 4 to 6. Chunk 1 is pile 0; the fill loop checks the
entry of chunk `(10 + (10 - 10) - 1) / 10 = 0`, which is not covered and still holds the
fill value -1. The counting loop and the allocation loop pass, the fill loop aborts, and
so does `CreatePiles`. -/
theorem CreatePiles_pass2_single_base_aborts :
    hitsSingleBase.all (IsCand defaultConfig) = true ∧
    (identifyPilesOfHits 10 100 1000 hitsSingleBase).map
        (fun r => (r.1 (Int.tdiv 10 10), r.1 (Int.tdiv (10 + (10 - 10) - 1) 10), r.2)) =
      some (0, -1, 2) ∧
    ((identifyPilesOfHits 10 100 1000 hitsSingleBase).bind
        (fun r => (CreatePilesCount 10 r.1 r.2 hitsSingleBase).bind
          (fun T => (CreatePilesAlloc r.2 T).map
            (fun T2 => (CreatePilesFill 10 r.1 r.2 T2 hitsSingleBase).isNone)))) =
      some true ∧
    ((identifyPilesOfHits 10 100 1000 hitsSingleBase).map
        (fun r => (CreatePiles 10 r.1 r.2 hitsSingleBase).isNone)) = some true := by
  decide

/-- C13: when no pile index occurs twice in the input families (they are pairwise
disjoint and each is duplicate-free), no pile index occurs twice in the output of
`FilterCrispFams`, neither in two output families nor twice in one, and the members of
every output family all belong to one input family. -/
theorem FilterCrispFams_piles_once (sort : SortFn) (cfg : Config) (Piles : PileTable)
    (InFams OutFams : FamList) (hsort : IsStdSort sort (FamMemberLt Piles))
    (hnd : (InFams.flatten.map (fun m => m.PileIndex)).Nodup) :
    ((FilterCrispFams sort cfg Piles InFams OutFams).flatten.map
      (fun m => m.PileIndex)).Nodup ∧
    ∀ S ∈ FilterCrispFams sort cfg Piles InFams OutFams,
      ∃ Fam ∈ InFams, ∀ m ∈ S, m ∈ Fam := by
  rw [FilterCrispFams_eq_flatMap sort cfg Piles hsort]
  constructor
  · clear OutFams
    induction InFams with
    | nil => simp
    | cons F l ih =>
      rw [List.flatten_cons, List.map_append, List.nodup_append] at hnd
      obtain ⟨hF, hl, hdisj⟩ := hnd
      obtain ⟨hmem, hnodup⟩ := FilterCrispFam_members sort cfg Piles hsort F
      rw [List.flatMap_cons, List.flatten_append, List.map_append, List.nodup_append]
      refine ⟨hnodup hF, ih hl, ?_⟩
      intro x hx1 hx2
      rw [List.mem_map] at hx1 hx2
      obtain ⟨m1, hm1, rfl⟩ := hx1
      obtain ⟨m2, hm2, he⟩ := hx2
      refine hdisj (List.mem_map.2 ⟨m1, hmem m1 hm1, rfl⟩) ?_
      rw [List.mem_flatten] at hm2
      obtain ⟨S, hS, hm2S⟩ := hm2
      rw [List.mem_flatMap] at hS
      obtain ⟨G, hG, hSG⟩ := hS
      have hm2G : m2 ∈ G :=
        (FilterCrispFam_members sort cfg Piles hsort G).1 m2
          (List.mem_flatten.2 ⟨S, hSG, hm2S⟩)
      exact List.mem_map.2 ⟨m2, List.mem_flatten.2 ⟨G, hG, hm2G⟩, he⟩
  · intro S hS
    rw [List.mem_flatMap] at hS
    obtain ⟨F, hF, hSF⟩ := hS
    refine ⟨F, hF, fun m hm => ?_⟩
    exact (FilterCrispFam_members sort cfg Piles hsort F).1 m
      (List.mem_flatten.2 ⟨S, hSF, hm⟩)

/-- C13 (witness): the two disjoint input families of the piles 0, 1, 2 and 3, 4, 5, 6 on
seven regularly spaced piles give the two output families unchanged, with each pile
once. -/
theorem FilterCrispFams_piles_once_witness :
    FilterCrispFams insertionSort defaultConfig pilesSevenRegular
        [famOfRange 3, famOfList [3, 4, 5, 6]] [] =
      [famOfRange 3, famOfList [3, 4, 5, 6]] ∧
    ((FilterCrispFams insertionSort defaultConfig pilesSevenRegular
        [famOfRange 3, famOfList [3, 4, 5, 6]] []).flatten.map
      (fun m => m.PileIndex)).Nodup :=
  ⟨by decide,
    (FilterCrispFams_piles_once insertionSort defaultConfig pilesSevenRegular
      [famOfRange 3, famOfList [3, 4, 5, 6]] [] (insertionSort_isStdSort _) (by decide)).1⟩

/-- C14 (counterexample): on the piles `[0,20]`, `[50,70]`, `[100,120]`, the list of the
one family that names pile 0 twice, reverse and then forward, and pile 1 once is pairwise
disjoint and does not make `AssignFamsToPiles` abort; the member `(0, reverse)` has the orientation flag 1, and pile 0 ends with
`FamIndex = 0` and `Rev = 0`. -/
theorem AssignFamsToPiles_last_flag_wins :
    [[(⟨0, true⟩ : FamMemberData), ⟨0, false⟩, ⟨1, false⟩]].Pairwise
      (fun F G => ∀ a ∈ F, ∀ b ∈ G, a.PileIndex ≠ b.PileIndex) ∧
    (⟨0, true⟩ : FamMemberData) ∈ [(⟨0, true⟩ : FamMemberData), ⟨0, false⟩, ⟨1, false⟩] ∧
    (AssignFamsToPiles defaultConfig pilesGaps30_30
        [[⟨0, true⟩, ⟨0, false⟩, ⟨1, false⟩]]).map
        (fun T => ((T 0).FamIndex, (T 0).Rev)) = some (0, 0) := by
  refine ⟨?_, by decide, by decide⟩
  simp

/-- C14: `AssignFamsToPiles` aborts exactly when some family is smaller than the minimum
family size. When it does not abort and the families are pairwise disjoint, every member
pile of the `k`-th family ends with `FamIndex = k` and with `Rev` the orientation (1 for
reverse, 0 for forward) of the last member of that family that names the pile; so every
member pile carries its member's orientation when the members of one pile within the
family agree on it, as they do in a family that names each pile once. Every pile that is
a member of no family is left as it was, and no field of any pile other than `FamIndex`
and `Rev` changes. When the pile table comes from `CreatePiles`, the value that a pile
below `PileCount` keeps is `FamIndex = -1` and `Rev = -1`. -/
theorem AssignFamsToPiles_effect (cfg : Config) (Piles : PileTable) (Fams : FamList) :
    (AssignFamsToPiles cfg Piles Fams = none ↔
      ∃ Fam ∈ Fams, Fam.length < cfg.g_paramMinFamSize) ∧
    (∀ Piles2 : PileTable, AssignFamsToPiles cfg Piles Fams = some Piles2 →
      Fams.Pairwise (fun F G => ∀ a ∈ F, ∀ b ∈ G, a.PileIndex ≠ b.PileIndex) →
      (∀ (k : Nat) (Fam : FamData), Fams.get? k = some Fam →
        (∀ m ∈ Fam, (Piles2 m.PileIndex).FamIndex = (k : Int)) ∧
        (∀ (pre post : FamData) (m : FamMemberData), Fam = pre ++ m :: post →
          (∀ b ∈ post, b.PileIndex ≠ m.PileIndex) →
          (Piles2 m.PileIndex).Rev = if m.Rev = true then 1 else 0) ∧
        ((∀ a ∈ Fam, ∀ b ∈ Fam, a.PileIndex = b.PileIndex → a.Rev = b.Rev) →
          ∀ m ∈ Fam, (Piles2 m.PileIndex).Rev = if m.Rev = true then 1 else 0) ∧
        ((Fam.map (fun m => m.PileIndex)).Nodup →
          ∀ m ∈ Fam, (Piles2 m.PileIndex).Rev = if m.Rev = true then 1 else 0)) ∧
      (∀ p : Int, (∀ Fam ∈ Fams, ∀ m ∈ Fam, m.PileIndex ≠ p) → Piles2 p = Piles p) ∧
      (∀ p : Int, (Piles2 p).From = (Piles p).From ∧ (Piles2 p).To = (Piles p).To ∧
        (Piles2 p).ImageCount = (Piles p).ImageCount ∧
        (Piles2 p).Images = (Piles p).Images ∧
        (Piles2 p).SuperFamIndex = (Piles p).SuperFamIndex)) ∧
    (∀ (CHUNK_LENGTH : Int) (PileIndexes : Int → Int) (PileCount : Nat)
      (Hits : List HitData),
      CreatePiles CHUNK_LENGTH PileIndexes PileCount Hits = some Piles →
      ∀ p : Int, 0 ≤ p → p < (PileCount : Int) →
        (Piles p).FamIndex = -1 ∧ (Piles p).Rev = -1) := by
  refine ⟨?_, ?_, fun C PI PileCount Hits h p hp0 hp1 =>
    CreatePiles_FamIndex C PI PileCount Hits Piles h p hp0 hp1⟩
  · unfold AssignFamsToPiles
    rw [← AssignFamsToPiles_loop_none cfg Fams (Piles, 0)]
    cases forEachM (AssignFamsToPilesStep cfg) (Piles, 0) Fams with
    | none => simp
    | some st => simp
  · intro Piles2 h hdisj
    unfold AssignFamsToPiles at h
    cases hst : forEachM (AssignFamsToPilesStep cfg) (Piles, 0) Fams with
    | none => rw [hst] at h; exact Option.noConfusion h
    | some st =>
      rw [hst] at h
      simp only [Option.some.injEq] at h
      subst h
      obtain ⟨h1, h2, h3⟩ := AssignFamsToPiles_loop_some cfg Fams Piles 0 st hst hdisj
      refine ⟨fun k Fam hk => ?_, h2, h3⟩
      obtain ⟨T0, hT0⟩ := h1 k Fam hk
      rw [Int.zero_add] at hT0
      have hagree : (∀ a ∈ Fam, ∀ b ∈ Fam, a.PileIndex = b.PileIndex → a.Rev = b.Rev) →
          ∀ m ∈ Fam, (st.1 m.PileIndex).Rev = if m.Rev = true then 1 else 0 := by
        intro hcons m hm
        rw [hT0 m hm, (assignFam_member (k : Int) T0 Fam hcons m hm).2]
        rfl
      refine ⟨fun m hm => ?_, fun pre post m hFam hpost => ?_, hagree, fun hnd => ?_⟩
      · rw [hT0 m hm]
        exact assignFam_FamIndex (k : Int) T0 Fam m hm
      · have hm : m ∈ Fam := by rw [hFam]; simp
        rw [hT0 m hm, hFam, assignFam_last (k : Int) T0 pre post m hpost]
        rfl
      · refine hagree (fun a ha b hb hab => ?_)
        rw [List.inj_on_of_nodup_map hnd ha hb hab]

/-- C14 (witness): on seven piles the families of the piles 0, 1, 2 (reverse, forward,
reverse) and 3, 4, 5, 6 (forward, reverse, reverse, forward) are assigned the indices 0
and 1 and the orientations 1, 0, 1, 0, 1, 1, 0; pile 2, a reverse member of the family 0,
ends with `FamIndex = 0` and `Rev = 1`; and the list with a family of two members makes
the call abort. -/
theorem AssignFamsToPiles_effect_witness :
    (AssignFamsToPiles defaultConfig pilesSevenRegular famsBothOrientations).map
        (fun T => (List.range 7).map (fun p : Nat => ((T (p : Int)).FamIndex, (T (p : Int)).Rev))) =
      some [(0, 1), (0, 0), (0, 1), (1, 0), (1, 1), (1, 1), (1, 0)] ∧
    (∀ Piles2 : PileTable,
      AssignFamsToPiles defaultConfig pilesSevenRegular famsBothOrientations = some Piles2 →
      (Piles2 2).FamIndex = 0 ∧ (Piles2 2).Rev = 1) ∧
    (AssignFamsToPiles defaultConfig pilesSevenRegular [famOfRange 3, famOfRange 2] = none ↔
      ∃ Fam ∈ [famOfRange 3, famOfRange 2], Fam.length < defaultConfig.g_paramMinFamSize) :=
  ⟨by decide,
    fun Piles2 h =>
      ⟨(((AssignFamsToPiles_effect defaultConfig pilesSevenRegular famsBothOrientations).2.1
          Piles2 h (by decide)).1 0 [⟨0, true⟩, ⟨1, false⟩, ⟨2, true⟩] rfl).1 ⟨2, true⟩
          (by decide),
        (((AssignFamsToPiles_effect defaultConfig pilesSevenRegular famsBothOrientations).2.1
          Piles2 h (by decide)).1 0 [⟨0, true⟩, ⟨1, false⟩, ⟨2, true⟩] rfl).2.2.2 (by decide)
          ⟨2, true⟩ (by decide)⟩,
    (AssignFamsToPiles_effect defaultConfig pilesSevenRegular [famOfRange 3, famOfRange 2]).1⟩

/-- Completion of `CreatePiles`: for hits whose intervals satisfy
`0 ≤ From < To < SeqLength`, with the bitmap built from exactly those hits and any index
map that `IdentifyPiles` returns on it, `CreatePiles` completes: no assertion of the
counting loop, the allocation loop or the fill loop fails. -/
theorem CreatePiles_completes (CHUNK_LENGTH SeqLength MAX_STACK_INDEX : Int)
    (Hits : List HitData) (PileIndexes0 : Int → Int)
    (hC : 0 < CHUNK_LENGTH) (hMAX : 0 ≤ MAX_STACK_INDEX)
    (hcoord : ∀ Hit ∈ Hits,
      (0 ≤ Hit.QueryFrom ∧ Hit.QueryFrom < Hit.QueryTo ∧ Hit.QueryTo < SeqLength) ∧
      (0 ≤ Hit.TargetFrom ∧ Hit.TargetFrom < Hit.TargetTo ∧ Hit.TargetTo < SeqLength)) :
    ∃ CopyCount : Int → Bool,
      ComputeCopyCounts CHUNK_LENGTH (SeqLengthChunksOf CHUNK_LENGTH SeqLength) Hits =
        some CopyCount ∧
      ∀ (PileIndexes : Int → Int) (PileCount : Nat),
        IdentifyPiles MAX_STACK_INDEX (SeqLengthChunksOf CHUNK_LENGTH SeqLength) CopyCount
          PileIndexes0 = some (PileIndexes, PileCount) →
        ∃ Piles : PileTable,
          CreatePiles CHUNK_LENGTH PileIndexes PileCount Hits = some Piles := by
  have hcoord2 : ∀ Hit ∈ Hits,
      (0 ≤ Hit.QueryFrom ∧ Hit.QueryFrom ≤ Hit.QueryTo ∧ Hit.QueryTo < SeqLength) ∧
      (0 ≤ Hit.TargetFrom ∧ Hit.TargetFrom ≤ Hit.TargetTo ∧ Hit.TargetTo < SeqLength) := by
    intro Hit hHit
    have := hcoord Hit hHit
    omega
  obtain ⟨b, hb, _⟩ := ComputeCopyCounts_spec CHUNK_LENGTH SeqLength Hits hC hcoord2
  refine ⟨b, hb, ?_⟩
  intro PI PileCount hPI
  have hres := hits_resolve CHUNK_LENGTH SeqLength MAX_STACK_INDEX Hits b PileIndexes0 PI
    PileCount hC hMAX hcoord2 hb hPI
  obtain ⟨T, hT, hcnt⟩ := CreatePilesCount_spec CHUNK_LENGTH PI PileCount Hits
    (fun Hit hHit => ⟨(hres Hit hHit).1.2, (hres Hit hHit).2.2⟩)
  have hAlloc : CreatePilesAlloc PileCount T = some T := by
    refine CreatePilesAlloc_some PileCount T (fun p hp => ?_)
    rw [hcnt]
    exact List.count_pos_iff.2 (every_pile_resolved CHUNK_LENGTH SeqLength MAX_STACK_INDEX
      Hits b PileIndexes0 PI PileCount hC hMAX hcoord2 hb hPI p hp)
  have hone : ∀ F T : Int, 0 ≤ F → F < T →
      Int.tdiv (F + (T - F) - 1) CHUNK_LENGTH = (T - 1) / CHUNK_LENGTH ∧
      F / CHUNK_LENGTH ≤ (T - 1) / CHUNK_LENGTH ∧
      (T - 1) / CHUNK_LENGTH ≤ T / CHUNK_LENGTH := by
    intro F T hF hFT
    have e : F + (T - F) - 1 = T - 1 := by omega
    rw [e, Int.tdiv_eq_ediv (by omega) (le_of_lt hC)]
    exact ⟨rfl, Int.ediv_le_ediv hC (by omega), Int.ediv_le_ediv hC (by omega)⟩
  obtain ⟨Piles, hPiles⟩ := CreatePilesFill_some CHUNK_LENGTH PI PileCount T Hits (by
    intro Hit hHit
    obtain ⟨⟨hq0, hq1, _⟩, ⟨ht0, ht1, _⟩⟩ := hcoord Hit hHit
    obtain ⟨⟨hqs, _, hqr⟩, ⟨hts, _, htr⟩⟩ := hres Hit hHit
    obtain ⟨eq1, eq2, eq3⟩ := hone Hit.QueryFrom Hit.QueryTo hq0 hq1
    obtain ⟨et1, et2, et3⟩ := hone Hit.TargetFrom Hit.TargetTo ht0 ht1
    refine ⟨⟨?_, hqr⟩, ⟨?_, htr⟩⟩
    · rw [eq1]; exact (hqs _ eq2 eq3).symm
    · rw [et1]; exact (hts _ et2 et3).symm)
  refine ⟨Piles, ?_⟩
  unfold CreatePiles
  rw [hT]
  simp only
  rw [hAlloc]
  exact hPiles

/-- Completion of `CreatePiles` on a concrete input: it completes on the two hits with
`CHUNK_LENGTH = 10` and `SeqLength = 100`. -/
theorem CreatePiles_completes_witness :
    ((identifyPilesOfHits 10 100 1000 hitsTwoPiles).map
        (fun r => (CreatePiles 10 r.1 r.2 hitsTwoPiles).isSome)) = some true ∧
    ∃ CopyCount : Int → Bool,
      ComputeCopyCounts 10 (SeqLengthChunksOf 10 100) hitsTwoPiles = some CopyCount ∧
      ∀ (PileIndexes : Int → Int) (PileCount : Nat),
        IdentifyPiles 1000 (SeqLengthChunksOf 10 100) CopyCount (fun _ => -1) =
          some (PileIndexes, PileCount) →
        ∃ Piles : PileTable, CreatePiles 10 PileIndexes PileCount hitsTwoPiles = some Piles :=
  ⟨by decide,
    CreatePiles_completes 10 100 1000 hitsTwoPiles (fun _ => -1) (by decide) (by decide)
      (by decide)⟩

end Crisp
